import Mathlib

/-!
Blamite: the Halo network primitives

A shallow embedding of the packet cipher, checksum, key ladder and challenge-response routines
of `include/aluigi/pck_algo.h` and `include/aluigi/gssdkcr.h`, and of the parts of
`src/engine/network/server.cpp` that call them, together with `Bitstream` of
`src/engine/memory/bitstream.cpp`, the padding macros of `include/blamite/memory/struct.hpp` and
`ConsoleCommand::split_arguments` of `src/engine/console/command.cpp`.
Bytes, `uint32_t` and `unsigned int` values are natural numbers, reduced modulo `2^8` or `2^32`
where the C code wraps around; buffers are lists of bytes.
-/

namespace Blamite

/-! ## Definitions -/

/-- The term `((v << 4) + k0) ^ (v + sum) ^ ((v >> 5) + k1)` of one TEA half round,
every operation on `uint32_t`. -/
def tea_mix (v sum k0 k1 : Nat) : Nat :=
  (((v <<< 4) % 4294967296 + k0) % 4294967296) ^^^ ((v + sum) % 4294967296)
    ^^^ (((v >>> 5) + k1) % 4294967296)

/-- Body of the `for` loop of `tea_encrypt`, on the state `(y, z, sum)`. -/
def tea_encrypt_round (a b c d : Nat) (st : Nat × Nat × Nat) : Nat × Nat × Nat :=
  let sum := (st.2.2 + 0x9e3779b9) % 4294967296
  let y := (st.1 + tea_mix st.2.1 sum a b) % 4294967296
  let z := (st.2.1 + tea_mix y sum c d) % 4294967296
  (y, z, sum)

/-- Body of the `for` loop of `tea_decrypt`, on the state `(y, z, sum)`. -/
def tea_decrypt_round (a b c d : Nat) (st : Nat × Nat × Nat) : Nat × Nat × Nat :=
  let z := (st.2.1 + 4294967296 - tea_mix st.1 st.2.2 c d) % 4294967296
  let y := (st.1 + 4294967296 - tea_mix z st.2.2 a b) % 4294967296
  let sum := (st.2.2 + 4294967296 - 0x9e3779b9) % 4294967296
  (y, z, sum)

/-- Runs a loop body `n` times (`for(i = 0; i < n; i++)`). -/
def loop_n {σ : Type} (body : σ → σ) : Nat → σ → σ
  | 0, st => st
  | n + 1, st => loop_n body n (body st)

/-- Model of `tea_encrypt`: `p = (p[0], p[1])`, `keyl = (a, b, c, d)`. -/
def tea_encrypt (p : Nat × Nat) (keyl : Nat × Nat × Nat × Nat) : Nat × Nat :=
  let st := loop_n (tea_encrypt_round keyl.1 keyl.2.1 keyl.2.2.1 keyl.2.2.2) 32 (p.1, p.2, 0)
  (st.1, st.2.1)

/-- Model of `tea_decrypt`. -/
def tea_decrypt (p : Nat × Nat) (keyl : Nat × Nat × Nat × Nat) : Nat × Nat :=
  let st := loop_n (tea_decrypt_round keyl.1 keyl.2.1 keyl.2.2.1 keyl.2.2.2) 32
    (p.1, p.2, 0xc6ef3720)
  (st.1, st.2.1)

/-- The little-endian `uint32_t` stored in the first four bytes at `p` (`*(uint32_t *)p`). -/
def load32 (p : List Nat) : Nat :=
  p.getD 0 0 + 256 * p.getD 1 0 + 65536 * p.getD 2 0 + 16777216 * p.getD 3 0

/-- The four bytes a `uint32_t` store writes, least significant byte first. -/
def store32 (w : Nat) : List Nat :=
  [w % 256, w / 256 % 256, w / 65536 % 256, w / 16777216 % 256]

/-- The cast `keyl = (uint32_t *)key`: the key bytes read as four words. -/
def key_words (key : List Nat) : Nat × Nat × Nat × Nat :=
  (load32 key, load32 (key.drop 4), load32 (key.drop 8), load32 (key.drop 12))

/-- The call `tea_encrypt((uint32_t *)p, keyl)` seen on the bytes from `p` on: the first eight
bytes are replaced, the rest is kept. -/
def tea_encrypt_bytes (p key : List Nat) : List Nat :=
  let r := tea_encrypt (load32 p, load32 (p.drop 4)) (key_words key)
  store32 r.1 ++ store32 r.2 ++ p.drop 8

/-- The call `tea_decrypt((uint32_t *)p, keyl)` seen on the bytes from `p` on. -/
def tea_decrypt_bytes (p key : List Nat) : List Nat :=
  let r := tea_decrypt (load32 p, load32 (p.drop 4)) (key_words key)
  store32 r.1 ++ store32 r.2 ++ p.drop 8

/-- Encrypts the block at byte offset `off` of the buffer `data`; `none` when the eight bytes
do not lie inside the buffer. -/
def tea_encrypt_at (data : List Nat) (off : Int) (key : List Nat) : Option (List Nat) :=
  if 0 ≤ off ∧ off + 8 ≤ data.length then
    some (data.take off.toNat ++ tea_encrypt_bytes (data.drop off.toNat) key)
  else none

/-- Decrypts the block at byte offset `off` of the buffer `data`; `none` when the eight bytes
do not lie inside the buffer. -/
def tea_decrypt_at (data : List Nat) (off : Int) (key : List Nat) : Option (List Nat) :=
  if 0 ≤ off ∧ off + 8 ≤ data.length then
    some (data.take off.toNat ++ tea_decrypt_bytes (data.drop off.toNat) key)
  else none

/-- The loop `while(size--) { tea_encrypt(p, keyl); p += 2; }` on the bytes from `p` on. -/
def tea_encrypt_blocks (key : List Nat) : Nat → List Nat → Option (List Nat)
  | 0, p => some p
  | n + 1, p =>
    if 8 ≤ p.length then
      (tea_encrypt_blocks key n ((tea_encrypt_bytes p key).drop 8)).map
        (fun r => (tea_encrypt_bytes p key).take 8 ++ r)
    else none

/-- The loop `while(size--) { tea_decrypt(p, keyl); p += 2; }` on the bytes from `p` on. -/
def tea_decrypt_blocks (key : List Nat) : Nat → List Nat → Option (List Nat)
  | 0, p => some p
  | n + 1, p =>
    if 8 ≤ p.length then
      (tea_decrypt_blocks key n ((tea_decrypt_bytes p key).drop 8)).map
        (fun r => (tea_decrypt_bytes p key).take 8 ++ r)
    else none

/-- Model of `halo_tea_encrypt(data, size, key)`: the whole blocks in order, then, when
`size & 7` is not zero, the block that ends at the end of the buffer
(`(uint8_t *)p - (8 - rest)`). The result is `none` when a block lies outside `data`. -/
def halo_tea_encrypt (data : List Nat) (size : Nat) (key : List Nat) : Option (List Nat) :=
  let rest := size &&& 7
  match tea_encrypt_blocks key (size >>> 3) data with
  | none => none
  | some d =>
    if rest ≠ 0 then tea_encrypt_at d ((8 * (size >>> 3) : Nat) - ((8 : Int) - rest)) key
    else some d

/-- Model of `halo_tea_decrypt(data, size, key)`: when `size & 7` is not zero the block at
`data + size - 8` first, then the whole blocks in order. -/
def halo_tea_decrypt (data : List Nat) (size : Nat) (key : List Nat) : Option (List Nat) :=
  match (if size &&& 7 ≠ 0 then tea_decrypt_at data ((size : Int) - 8) key else some data) with
  | none => none
  | some d => tea_decrypt_blocks key (size >>> 3) d

/-- Every element of the list is a byte. -/
def bytes_ok (l : List Nat) : Prop := ∀ x ∈ l, x < 256

/-- A state whose three words fit in 32 bits. -/
def tea_state_ok (st : Nat × Nat × Nat) : Prop :=
  st.1 < 4294967296 ∧ st.2.1 < 4294967296 ∧ st.2.2 < 4294967296

/-- The 256 entries of `crctable` in `halo_crc32`. -/
def crctable : List Nat :=
  [0x00000000, 0x77073096, 0xee0e612c, 0x990951ba,
   0x076dc419, 0x706af48f, 0xe963a535, 0x9e6495a3,
   0x0edb8832, 0x79dcb8a4, 0xe0d5e91e, 0x97d2d988,
   0x09b64c2b, 0x7eb17cbd, 0xe7b82d07, 0x90bf1d91,
   0x1db71064, 0x6ab020f2, 0xf3b97148, 0x84be41de,
   0x1adad47d, 0x6ddde4eb, 0xf4d4b551, 0x83d385c7,
   0x136c9856, 0x646ba8c0, 0xfd62f97a, 0x8a65c9ec,
   0x14015c4f, 0x63066cd9, 0xfa0f3d63, 0x8d080df5,
   0x3b6e20c8, 0x4c69105e, 0xd56041e4, 0xa2677172,
   0x3c03e4d1, 0x4b04d447, 0xd20d85fd, 0xa50ab56b,
   0x35b5a8fa, 0x42b2986c, 0xdbbbc9d6, 0xacbcf940,
   0x32d86ce3, 0x45df5c75, 0xdcd60dcf, 0xabd13d59,
   0x26d930ac, 0x51de003a, 0xc8d75180, 0xbfd06116,
   0x21b4f4b5, 0x56b3c423, 0xcfba9599, 0xb8bda50f,
   0x2802b89e, 0x5f058808, 0xc60cd9b2, 0xb10be924,
   0x2f6f7c87, 0x58684c11, 0xc1611dab, 0xb6662d3d,
   0x76dc4190, 0x01db7106, 0x98d220bc, 0xefd5102a,
   0x71b18589, 0x06b6b51f, 0x9fbfe4a5, 0xe8b8d433,
   0x7807c9a2, 0x0f00f934, 0x9609a88e, 0xe10e9818,
   0x7f6a0dbb, 0x086d3d2d, 0x91646c97, 0xe6635c01,
   0x6b6b51f4, 0x1c6c6162, 0x856530d8, 0xf262004e,
   0x6c0695ed, 0x1b01a57b, 0x8208f4c1, 0xf50fc457,
   0x65b0d9c6, 0x12b7e950, 0x8bbeb8ea, 0xfcb9887c,
   0x62dd1ddf, 0x15da2d49, 0x8cd37cf3, 0xfbd44c65,
   0x4db26158, 0x3ab551ce, 0xa3bc0074, 0xd4bb30e2,
   0x4adfa541, 0x3dd895d7, 0xa4d1c46d, 0xd3d6f4fb,
   0x4369e96a, 0x346ed9fc, 0xad678846, 0xda60b8d0,
   0x44042d73, 0x33031de5, 0xaa0a4c5f, 0xdd0d7cc9,
   0x5005713c, 0x270241aa, 0xbe0b1010, 0xc90c2086,
   0x5768b525, 0x206f85b3, 0xb966d409, 0xce61e49f,
   0x5edef90e, 0x29d9c998, 0xb0d09822, 0xc7d7a8b4,
   0x59b33d17, 0x2eb40d81, 0xb7bd5c3b, 0xc0ba6cad,
   0xedb88320, 0x9abfb3b6, 0x03b6e20c, 0x74b1d29a,
   0xead54739, 0x9dd277af, 0x04db2615, 0x73dc1683,
   0xe3630b12, 0x94643b84, 0x0d6d6a3e, 0x7a6a5aa8,
   0xe40ecf0b, 0x9309ff9d, 0x0a00ae27, 0x7d079eb1,
   0xf00f9344, 0x8708a3d2, 0x1e01f268, 0x6906c2fe,
   0xf762575d, 0x806567cb, 0x196c3671, 0x6e6b06e7,
   0xfed41b76, 0x89d32be0, 0x10da7a5a, 0x67dd4acc,
   0xf9b9df6f, 0x8ebeeff9, 0x17b7be43, 0x60b08ed5,
   0xd6d6a3e8, 0xa1d1937e, 0x38d8c2c4, 0x4fdff252,
   0xd1bb67f1, 0xa6bc5767, 0x3fb506dd, 0x48b2364b,
   0xd80d2bda, 0xaf0a1b4c, 0x36034af6, 0x41047a60,
   0xdf60efc3, 0xa867df55, 0x316e8eef, 0x4669be79,
   0xcb61b38c, 0xbc66831a, 0x256fd2a0, 0x5268e236,
   0xcc0c7795, 0xbb0b4703, 0x220216b9, 0x5505262f,
   0xc5ba3bbe, 0xb2bd0b28, 0x2bb45a92, 0x5cb36a04,
   0xc2d7ffa7, 0xb5d0cf31, 0x2cd99e8b, 0x5bdeae1d,
   0x9b64c2b0, 0xec63f226, 0x756aa39c, 0x026d930a,
   0x9c0906a9, 0xeb0e363f, 0x72076785, 0x05005713,
   0x95bf4a82, 0xe2b87a14, 0x7bb12bae, 0x0cb61b38,
   0x92d28e9b, 0xe5d5be0d, 0x7cdcefb7, 0x0bdbdf21,
   0x86d3d2d4, 0xf1d4e242, 0x68ddb3f8, 0x1fda836e,
   0x81be16cd, 0xf6b9265b, 0x6fb077e1, 0x18b74777,
   0x88085ae6, 0xff0f6a70, 0x66063bca, 0x11010b5c,
   0x8f659eff, 0xf862ae69, 0x616bffd3, 0x166ccf45,
   0xa00ae278, 0xd70dd2ee, 0x4e048354, 0x3903b3c2,
   0xa7672661, 0xd06016f7, 0x4969474d, 0x3e6e77db,
   0xaed16a4a, 0xd9d65adc, 0x40df0b66, 0x37d83bf0,
   0xa9bcae53, 0xdebb9ec5, 0x47b2cf7f, 0x30b5ffe9,
   0xbdbdf21c, 0xcabac28a, 0x53b39330, 0x24b4a3a6,
   0xbad03605, 0xcdd70693, 0x54de5729, 0x23d967bf,
   0xb3667a2e, 0xc4614ab8, 0x5d681b02, 0x2a6f2b94,
   0xb40bbe37, 0xc30c8ea1, 0x5a05df1b, 0x2d02ef8d]

/-- Loop body of `halo_crc32`: `crc = crctable[(*data ^ crc) & 0xff] ^ (crc >> 8)`. -/
def halo_crc32_step (crc b : Nat) : Nat :=
  crctable.getD ((b ^^^ crc) &&& 0xff) 0 ^^^ (crc >>> 8)

/-- Model of `halo_crc32(data, size)`: the first `size` bytes of `data` folded into the
register, which starts at `0xffffffff` and is returned as it is. -/
def halo_crc32 (data : List Nat) (size : Nat) : Nat :=
  (data.take size).foldl halo_crc32_step 0xffffffff

/-- One bit of the reflected CRC-32 division: shift right, and XOR the polynomial
`0xEDB88320` in when the bit shifted out was set. -/
def crc32_reflected_bit (crc : Nat) : Nat :=
  if crc &&& 1 = 1 then (crc >>> 1) ^^^ 0xEDB88320 else crc >>> 1

/-- One byte of the bit-by-bit reflected CRC-32: XOR the byte into the register, then
eight bit steps. -/
def crc32_reflected_byte (crc b : Nat) : Nat :=
  loop_n crc32_reflected_bit 8 (crc ^^^ b)

/-- The bit-by-bit reflected CRC-32 with polynomial `0xEDB88320`, initial register
`0xFFFFFFFF` and no final XOR, as the specification words it. -/
def crc32_reflected (data : List Nat) : Nat :=
  data.foldl crc32_reflected_byte 0xFFFFFFFF

/-- The string `key_default` of `gssdkcr`, "3b8dd8995f7c40a9a5c5b7dd5b481341", as its
32 ASCII codes. -/
def key_default : List Nat :=
  [0x33, 0x62, 0x38, 0x64, 0x64, 0x38, 0x39, 0x39, 0x35, 0x66, 0x37, 0x63, 0x34, 0x30, 0x61,
   0x39, 0x61, 0x35, 0x63, 0x35, 0x62, 0x37, 0x64, 0x64, 0x35, 0x62, 0x34, 0x38, 0x31, 0x33,
   0x34, 0x31]

/-- The first loop of `gssdkcr`, from the loop counter `i` on, with `fuel` iterations left
before `i` reaches 32; `ptr` is the index `ptr - src`. The result is the final `oz`. -/
def gssdkcr_check_loop (src : List Nat) (old tmp : Nat) : Nat → Nat → Nat → Nat → Nat
  | 0, _, _, _ => 1
  | fuel + 1, i, ptr, count =>
    let count := count ^^^
      (((((if src.getD ptr 0 < old then 1 else 0) ^^^ ((old ^^^ i) &&& 1))
        ^^^ (src.getD ptr 0 &&& 1)) ^^^ tmp))
    let ptr := ptr + 1
    if count ≠ 0 then
      if src.getD ptr 0 &&& 1 = 0 then 0
      else gssdkcr_check_loop src old tmp fuel (i + 1) ptr count
    else
      if src.getD ptr 0 &&& 1 ≠ 0 then 0
      else gssdkcr_check_loop src old tmp fuel (i + 1) ptr count

/-- The flag `oz` that `gssdkcr` holds after its first loop. -/
def gssdkcr_oz (src : List Nat) : Nat :=
  let old := src.getD 0 0
  let tmp := if old < 0x4f then 1 else 0
  gssdkcr_check_loop src old tmp 31 1 0 0

/-- The second loop of `gssdkcr`, from the loop counter `i` on, with `fuel` iterations left
before `i` reaches 32: the bytes stored through `ptr`, in order. -/
def gssdkcr_fill_loop (src key : List Nat) (oz : Nat) : Nat → Nat → Nat → List Nat
  | 0, _, _ => []
  | fuel + 1, i, randnum =>
    if oz = 0 ∨ i = 0 ∨ i = 13 then
      let randnum := (randnum * 0x343FD + 0x269EC3) % 4294967296
      (((randnum >>> 16) &&& 0x7fff) % 93 + 33) ::
        gssdkcr_fill_loop src key oz fuel (i + 1) randnum
    else
      let old := if i = 1 ∨ i = 14 then src.getD i 0 else src.getD (i - 1) 0
      let tmp := (old * i) % 4294967296 * 17991 % 4294967296
      let old := src.getD
        ((key.getD ((src.getD i 0 + i) % 4294967296 % key.length) 0
          + src.getD i 0 * i % 4294967296) % 4294967296 &&& 31) 0
      ((old ^^^ key.getD (tmp % key.length) 0) % 93 + 33) ::
        gssdkcr_fill_loop src key oz fuel (i + 1) randnum

/-- Model of `gssdkcr(dst, src, key)`: the 33 bytes written to `dst`, the 32 response bytes and
the final zero. `key = none` is the `NULL` key; `seed` is the value of `time(NULL)`. -/
def gssdkcr (src : List Nat) (key : Option (List Nat)) (seed : Nat) : List Nat :=
  let randnum := seed % 4294967296
  let key := key.getD key_default
  gssdkcr_fill_loop src key (gssdkcr_oz src) 32 0 randnum ++ [0]

/-- The challenge of the Halo example in `gssdkcr.h`, `)nTu4y&t,Cr{P5j{6k<]^E@-ToF#Kg>m`. -/
def halo_example_challenge : List Nat :=
  [0x29, 0x6e, 0x54, 0x75, 0x34, 0x79, 0x26, 0x74, 0x2c, 0x43, 0x72, 0x7b, 0x50, 0x35, 0x6a,
   0x7b, 0x36, 0x6b, 0x3c, 0x5d, 0x5e, 0x45, 0x40, 0x2d, 0x54, 0x6f, 0x46, 0x23, 0x4b, 0x67,
   0x3e, 0x6d]

/-- State `(count, oz, stopped)` of the integrity check as the specification words it. -/
def oz_words_step (src : List Nat) (parity_index : Nat → Nat) (old tmp : Nat)
    (st : Nat × Nat × Bool) (i : Nat) : Nat × Nat × Bool :=
  if st.2.2 then st
  else
    let count := st.1 ^^^ ((if src.getD (i - 1) 0 < old then 1 else 0) ^^^ ((old ^^^ i) &&& 1)
      ^^^ (src.getD (parity_index i) 0 &&& 1) ^^^ tmp)
    if (count ≠ 0 ∧ src.getD i 0 &&& 1 = 0) ∨ (count = 0 ∧ src.getD i 0 &&& 1 = 1) then
      (count, 0, true)
    else (count, st.2.1, false)

/-- The integrity flag as the specification words it: `old = src[0]`, `tmp = (old < 0x4F)`,
`count = 0`, `oz = 1`; then for `i = 1..31` in order the update
`count ^= (src[i-1] < old) ^ ((old ^ i) & 1) ^ (src[parity_index i] & 1) ^ tmp`, and `oz` is
set to 0 and the loop stops if `count != 0` and `src[i] & 1 == 0`, or `count == 0` and
`src[i] & 1 == 1`. The specification has `parity_index i = i`. -/
def gssdkcr_oz_words (parity_index : Nat → Nat) (src : List Nat) : Nat :=
  let old := src.getD 0 0
  let tmp := if old < 0x4F then 1 else 0
  ((List.range' 1 31).foldl (oz_words_step src parity_index old tmp) (0, 1, false)).2.1

/-- State of the generator `r := r*0x343FD + 0x269EC3 (mod 2^32)` after `n` steps from
`seed`. -/
def lcg_state (seed : Nat) : Nat → Nat
  | 0 => seed
  | n + 1 => (lcg_state seed n * 0x343FD + 0x269EC3) % 4294967296

/-- The `n`-th output (`n ≥ 1`) of the generator: `((r >> 16) & 0x7FFF) % 93 + 33` on the
state after `n` steps. -/
def lcg_output (seed n : Nat) : Nat :=
  ((lcg_state seed n >>> 16) &&& 0x7FFF) % 93 + 33

/-- The byte the `else` branches of the second loop of `gssdkcr` store at index `i`. -/
def gssdkcr_keyed_byte (src key : List Nat) (i : Nat) : Nat :=
  let old := if i = 1 ∨ i = 14 then src.getD i 0 else src.getD (i - 1) 0
  let tmp := (old * i) % 4294967296 * 17991 % 4294967296
  let old := src.getD
    ((key.getD ((src.getD i 0 + i) % 4294967296 % key.length) 0
      + src.getD i 0 * i % 4294967296) % 4294967296 &&& 31) 0
  (old ^^^ key.getD (tmp % key.length) 0) % 93 + 33

instance (l : List Nat) : Decidable (bytes_ok l) := by
  unfold bytes_ok; infer_instance

/-- The table `hex[17] = "0123456789ABCDEF"` of `halo_create_randhash` and `halo_byte2hex`. -/
def hex_table : List Nat :=
  [0x30, 0x31, 0x32, 0x33, 0x34, 0x35, 0x36, 0x37, 0x38, 0x39, 0x41, 0x42, 0x43, 0x44, 0x45,
   0x46, 0]

/-- The loop of `halo_create_randhash`: `fuel` characters from the generator state
`randnum`. -/
def halo_create_randhash_loop : Nat → Nat → List Nat
  | 0, _ => []
  | fuel + 1, randnum =>
    let randnum := (randnum * 0x343FD + 0x269EC3) % 4294967296
    hex_table.getD ((randnum >>> 16) &&& 15) 0 :: halo_create_randhash_loop fuel randnum

/-- Model of `halo_create_randhash(out)`: the 17 bytes written to `out`, 16 characters and the
final zero; `seed` is the value of `HALO_RAND`. -/
def halo_create_randhash (seed : Nat) : List Nat :=
  halo_create_randhash_loop 16 (seed % 4294967296) ++ [0]

/-- Model of `halo_byte2hex(in, out)`: the bytes written to `out`. Leading zero bytes of `in`
are skipped, every other byte gives two characters of `hex`, and a zero ends the string. -/
def halo_byte2hex (inp : List Nat) : List Nat :=
  ((inp.dropWhile (fun b => b == 0)).flatMap
    (fun b => [hex_table.getD (b >>> 4) 0, hex_table.getD (b &&& 15) 0])) ++ [0]

/-- The loop `for(j = 0, i = 16; i--; j >>= 8) { j += (x[i] << 1); x[i] = j; }`, from the last
byte to the first: the final carry `j` and the new bytes. -/
def shl1_carry : List Nat → Nat × List Nat
  | [] => (0, [])
  | b :: rest =>
    let r := shl1_carry rest
    let j := r.1 + (b <<< 1)
    (j >>> 8, j % 256 :: r.2)

/-- The loop `for(j = 0, i = 16; i--; j >>= 8) { j += key1[i] + tk2[i]; key1[i] = j; }`. -/
def add_carry : List Nat → List Nat → Nat × List Nat
  | a :: as, b :: bs =>
    let r := add_carry as bs
    let j := r.1 + (a + b)
    (j >>> 8, j % 256 :: r.2)
  | _, _ => (0, [])

/-- The loop `for(j = 0, i = 16; i--; j >>= 8) { j += (key1[i] - key2[i]); key1[i] = j; }`
on the `int` `j`, whose right shift keeps the sign. -/
def sub_borrow : List Nat → List Nat → Int × List Nat
  | a :: as, b :: bs =>
    let r := sub_borrow as bs
    let j := r.1 + ((a : Int) - (b : Int))
    (j / 256, (j % 256).toNat :: r.2)
  | _, _ => (0, [])

/-- The loop `for(j = i = 0; i < 16; i++, j <<= 8) { j |= x[i]; x[i] = j >> 1; j &= 1; }`,
from the first byte to the last, `j` being the value carried into the iteration. -/
def shr1_loop (j : Nat) : List Nat → List Nat
  | [] => []
  | b :: rest =>
    let j := j ||| b
    (j >>> 1) % 256 :: shr1_loop ((j &&& 1) <<< 8) rest

/-- The first loop of `halo_fix_check`: the two bytes at the first index where `key1` and
`key2` differ, `none` when `i` reaches the end. -/
def first_diff : List Nat → List Nat → Option (Nat × Nat)
  | a :: as, b :: bs => if a ≠ b then some (a, b) else first_diff as bs
  | _, _ => none

/-- Model of `halo_fix_check(key1, key2)`: the new content of `key1`. -/
def halo_fix_check (key1 key2 : List Nat) : List Nat :=
  match first_diff key1 key2 with
  | some (a, b) => if a > b then (sub_borrow key1 key2).2 else key1
  | none => key1

/-- Body of the `while(cnt--)` loop of `halo_key_scramble` on `(key1, tk1, tk2)`. -/
def halo_key_scramble_body (fixnumb : List Nat)
    (st : List Nat × List Nat × List Nat) : List Nat × List Nat × List Nat :=
  let key1 :=
    if st.2.1.getD 15 0 &&& 1 ≠ 0 then halo_fix_check (add_carry st.1 st.2.2).2 fixnumb
    else st.1
  let tk1 := shr1_loop 0 st.2.1
  let tk2 := halo_fix_check (shl1_carry st.2.2).2 fixnumb
  (key1, tk1, tk2)

/-- Model of `halo_key_scramble(key1, key2, fixnumb)`: the new content of `key1`. -/
def halo_key_scramble (key1 key2 fixnumb : List Nat) : List Nat :=
  (loop_n (halo_key_scramble_body fixnumb) (16 <<< 3) (List.replicate 16 0, key1, key2)).1

/-- The value `(t - (0x27 * (t > 0x60))) - 0x30` of `halo_hex2byte`, an `int`, as the byte
that is OR-ed into `out[15]`. -/
def hex_nibble (t : Nat) : Nat :=
  ((((t : Int) - 0x27 * (if t > 0x60 then 1 else 0)) - 0x30) % 256).toNat

/-- The `while(*in)` loop of `halo_hex2byte`: the characters of `in` as the loop leaves them
(every character read is OR-ed with `0x20`) and the final `out`. -/
def halo_hex2byte_loop : List Nat → List Nat → List Nat × List Nat
  | [], out => ([], out)
  | c :: rest, out =>
    if c = 0 then (c :: rest, out)
    else
      let out := loop_n (fun o => (shl1_carry o).2) 4 out
      let t := c ||| 0x20
      let out := out.set 15 ((out.getD 15 0 ||| hex_nibble t) % 256)
      let r := halo_hex2byte_loop rest out
      (t :: r.1, r.2)

/-- Model of `halo_hex2byte(in, out)`: the pair of the buffer `in` after the call and the 16
bytes of `out`. -/
def halo_hex2byte (inp : List Nat) : List Nat × List Nat :=
  halo_hex2byte_loop inp (List.replicate 16 0)

/-- Body of the `while(cnt--)` loop of `halo_create_key` on `(dest, keystrb, randhashb)`. -/
def halo_create_key_body (fixnumb : List Nat)
    (st : List Nat × List Nat × List Nat) : List Nat × List Nat × List Nat :=
  let dest :=
    if st.2.2.getD 15 0 &&& 1 ≠ 0 then halo_key_scramble st.1 st.2.1 fixnumb else st.1
  let keystrb := halo_key_scramble st.2.1 st.2.1 fixnumb
  let randhashb := shr1_loop 0 st.2.2
  (dest, keystrb, randhashb)

/-- Model of `halo_create_key(keystr, randhash, fixnum, dest)`: the pair of the buffer
`randhash` after the call and the 16 bytes of `dest`. -/
def halo_create_key (keystr randhash fixnum : List Nat) : List Nat × List Nat :=
  let keystrb := (halo_hex2byte keystr).2
  let rh := halo_hex2byte randhash
  let fixnumb := (halo_hex2byte fixnum).2
  let dest := (List.replicate 15 0 ++ [0x01])
  (rh.1, (loop_n (halo_create_key_body fixnumb) (16 <<< 3) (dest, keystrb, rh.2)).1)

/-- Model of `halo_generate_keys(hash, source_key, dest_key)`: the pair of the buffer `hash`
after the call and the 16 bytes of `dest_key`. `source_key = none` is the `NULL` pointer and
`seed` the value `HALO_RAND` would give. -/
def halo_generate_keys (hash : List Nat) (source_key : Option (List Nat)) (seed : Nat) :
    List Nat × List Nat :=
  let fixed_key := [0x31, 0x30, 0x30, 0x30, 0x31, 0]
  match source_key with
  | none => halo_create_key [0x33, 0] (halo_create_randhash seed) fixed_key
  | some k => halo_create_key (halo_byte2hex k) hash fixed_key

/-- Big-endian value of a byte buffer. -/
def be_val (l : List Nat) : Nat := l.foldl (fun acc b => acc * 256 + b) 0

/-- The `k`-byte big-endian encoding of `n`. -/
def be_encode : Nat → Nat → List Nat
  | 0, _ => []
  | k + 1, n => be_encode k (n / 256) ++ [n % 256]

/-- The conditional subtraction of `halo_fix_check` on values: `a - m` when `a > m`, else
`a`. -/
def fix_check_nat (a m : Nat) : Nat := if a > m then a - m else a

/-- Body of the loop of `halo_key_scramble` on the values of `(key1, tk1, tk2)`, sums and
doublings truncated to 128 bits. -/
def key_scramble_body_nat (m : Nat) (st : Nat × Nat × Nat) : Nat × Nat × Nat :=
  (if st.2.1 % 2 ≠ 0 then
      fix_check_nat ((st.1 + st.2.2) % 340282366920938463463374607431768211456) m
    else st.1,
   st.2.1 / 2,
   fix_check_nat ((2 * st.2.2) % 340282366920938463463374607431768211456) m)

/-- The computation of `halo_key_scramble` on values. -/
def key_scramble_nat (a b m : Nat) : Nat :=
  (loop_n (key_scramble_body_nat m) 128 (0, a, b)).1

/-- Body of the loop of `halo_create_key` on the values of `(dest, keystrb, randhashb)`. -/
def create_key_body_nat (m : Nat) (st : Nat × Nat × Nat) : Nat × Nat × Nat :=
  (if st.2.2 % 2 ≠ 0 then key_scramble_nat st.1 st.2.1 m else st.1,
   key_scramble_nat st.2.1 st.2.1 m,
   st.2.2 / 2)

/-- The computation of the loop of `halo_create_key` on values. -/
def create_key_nat (g e m : Nat) : Nat :=
  (loop_n (create_key_body_nat m) 128 (1, g, e)).1

/-- The ASCII code `c` is a hexadecimal digit, `0-9`, `A-F` or `a-f`. -/
def is_hex_digit (c : Nat) : Prop :=
  (0x30 ≤ c ∧ c ≤ 0x39) ∨ (0x41 ≤ c ∧ c ≤ 0x46) ∨ (0x61 ≤ c ∧ c ≤ 0x66)

instance : DecidablePred is_hex_digit := fun c => by
  unfold is_hex_digit; infer_instance

/-- The value of a hexadecimal digit given by its ASCII code. -/
def hex_digit_value (c : Nat) : Nat :=
  if c ≤ 0x39 then c - 0x30 else if c ≤ 0x46 then c - 0x41 + 10 else c - 0x61 + 10

/-- The integer whose base-16 numeral continues the value `acc` with the digits `s`. -/
def hex_fold (acc : Nat) (s : List Nat) : Nat :=
  s.foldl (fun a c => a * 16 + hex_digit_value c) acc

/-- The integer whose base-16 numeral is the string of ASCII codes `s`. -/
def hex_value (s : List Nat) : Nat := hex_fold 0 s

/-- The session record `Server::Client`; an address is the pair of IP and port. -/
structure Client where
  m_address : Nat × Nat
  m_packet_count : Nat
  m_server_packet_count : Nat
  m_private_key : List Nat
  m_public_key : List Nat
  m_enc_key : List Nat
  m_dec_key : List Nat

/-- Model of the constructor `Server::Client::Client(address, client_public_key)`; `seed` is
the value `HALO_RAND` gives in the first `halo_generate_keys` call, the only one that reads
it. -/
def Client.create (address : Nat × Nat) (client_public_key : List Nat) (seed : Nat) : Client :=
  let k1 := halo_generate_keys (List.replicate 17 0) none seed
  let k2 := halo_generate_keys k1.1 (some client_public_key) seed
  let k3 := halo_generate_keys k2.1 (some client_public_key) seed
  { m_address := address
    m_packet_count := 2
    m_server_packet_count := 1
    m_private_key := k3.1
    m_public_key := k1.2
    m_enc_key := k3.2
    m_dec_key := k2.2 }

/-- A 16-byte buffer: sixteen elements, each a byte. -/
def wf16 (l : List Nat) : Prop := l.length = 16 ∧ bytes_ok l

/-- The ASCII code of the upper-case hexadecimal digit of the value `n < 16`. -/
def upper_hex_digit (n : Nat) : Nat := if n < 10 then 0x30 + n else 0x41 + (n - 10)

/-- The ASCII code `c` is one of `0-9`, `A-F`. -/
def is_upper_hex_digit (c : Nat) : Prop := (0x30 ≤ c ∧ c ≤ 0x39) ∨ (0x41 ≤ c ∧ c ≤ 0x46)

instance : DecidablePred is_upper_hex_digit := fun c => by
  unfold is_upper_hex_digit; infer_instance

/-- The constant `CLIENT_VERSION` of `blamite/core/version.hpp`. -/
def CLIENT_VERSION : Nat := 0x00096A27

/-- The constant `c_max_client_number` of `Server`. -/
def c_max_client_number : Nat := 16

/-- The lines `process_received_data` and its helpers print on the console, by the `printf`
call that writes them. -/
inductive ConsoleLine where
  | connection_request (address : Nat × Nat)
  | connection_accepted (address : Nat × Nat)
  | sent_bytes (size : Nat) (address : Nat × Nat)
  | refused (address : Nat × Nat) (reason : Nat)
  | unknown_disconnection (address : Nat × Nat)

/-- What one iteration of the loop of `process_received_data` reads from outside the server:
`time1` and `time2` are the values of `time(NULL)` in the two `gssdkcr` calls, `rand` the value
of `HALO_RAND` in the `Client` constructor, and `heap i` the byte found at offset `i` from the
start of the datagram buffer when the datagram is shorter than `i + 1` bytes. -/
structure Env where
  time1 : Nat
  time2 : Nat
  rand : Nat
  heap : Nat → Nat

/-- The state of `Server`: the receive queue (front first) and the client registry, with the
datagrams handed to `m_socket.send_to` and the console lines, both oldest first. -/
structure Server where
  m_received_raw_data : List ((Nat × Nat) × List Nat)
  m_clients : List Client
  sent : List ((Nat × Nat) × List Nat)
  console : List ConsoleLine

/-- The two bytes in memory of a `uint16_t` field that holds `htons(n)`. -/
def htons (n : Nat) : List Nat := [n / 256 % 256, n % 256]

/-- The byte at offset `i` of the datagram buffer `raw_data.data()`, read without a bounds
check. -/
def packet_byte (env : Env) (raw_data : List Nat) (i : Nat) : Nat :=
  if i < raw_data.length then raw_data.getD i 0 else env.heap i

/-- The `len` bytes of a packet field at offset `off`. -/
def packet_bytes (env : Env) (raw_data : List Nat) (off len : Nat) : List Nat :=
  (List.range len).map (fun k => packet_byte env raw_data (off + k))

/-- Model of `Server::get_client(address)`: the index of the first client with that address,
`none` for `nullptr`. -/
def get_client (clients : List Client) (address : Nat × Nat) : Option Nat :=
  match clients with
  | [] => none
  | c :: rest =>
    if c.m_address = address then some 0
    else (get_client rest address).map (fun i => i + 1)

/-- Model of `Server::send_packet(address, packet_data)`: the new state and the returned
flag. -/
def send_packet (s : Server) (address : Nat × Nat) (packet_data : List Nat) : Server × Bool :=
  match get_client s.m_clients address with
  | some i =>
    match s.m_clients.get? i with
    | some client =>
      ({ s with
          sent := s.sent ++ [(client.m_address, packet_data)]
          console := s.console ++ [ConsoleLine.sent_bytes packet_data.length address]
          m_clients := s.m_clients.set i
            { client with m_server_packet_count := (client.m_server_packet_count + 1) % 65536 } },
        true)
    | none => (s, false)
  | none => (s, false)

/-- Model of `Server::resolve_handshake_challenge(challenge)`: the 32 bytes of the vector
`output` after `gssdkcr(output.data(), challenge, NULL)`; `time` is the value of
`time(NULL)`. -/
def resolve_handshake_challenge (challenge : List Nat) (time : Nat) : List Nat :=
  (gssdkcr challenge none time).take 32

/-- Model of `Server::refuse_connection(address, reason)`. -/
def refuse_connection (s : Server) (address : Nat × Nat) (reason : Nat) : Server :=
  { s with
    sent := s.sent ++ [(address, [0xFE, 0xFE, 0x05] ++ htons 1 ++ htons 2 ++ store32 reason)]
    console := s.console ++ [ConsoleLine.refused address reason] }

/-- Removes the first client whose address is `address`, as the `while` loop of the
disconnection branch does; the result also tells whether `client_it` equals
`m_clients.end()` after the loop, which is so when no client matched and also when the erased
client was the last one. -/
def erase_client (clients : List Client) (address : Nat × Nat) : List Client × Bool :=
  match get_client clients address with
  | some i => (clients.eraseIdx i, decide (i = (clients.eraseIdx i).length))
  | none => (clients, true)

/-- Body of the `for` loop of `Server::process_received_data` for the datagram at the front
of the queue, without the final `pop`. -/
def process_datagram (env : Env) (s : Server) (front : (Nat × Nat) × List Nat) : Server :=
  let sender_address := front.1
  let raw_data := front.2
  let gssdk_header := packet_byte env raw_data 0 + 256 * packet_byte env raw_data 1
  let type := packet_byte env raw_data 2
  if gssdk_header = 0xFEFE then
    if type = 0x01 then
      let s := { s with console := s.console ++ [ConsoleLine.connection_request sender_address] }
      let challenge_response :=
        resolve_handshake_challenge (packet_bytes env raw_data 7 32) env.time1
      let server_challenge := resolve_handshake_challenge challenge_response env.time2
      { s with
        sent := s.sent ++ [(sender_address,
          [0xFE, 0xFE, 0x02] ++ htons 0 ++ htons 1 ++ challenge_response ++ server_challenge)] }
    else if type = 0x03 then
      let version := load32 (packet_bytes env raw_data 55 4)
      if version = CLIENT_VERSION then
        let s := { s with
          console := s.console ++ [ConsoleLine.connection_accepted sender_address] }
        if s.m_clients.length = c_max_client_number then
          refuse_connection s sender_address 6
        else
          let client := Client.create sender_address (packet_bytes env raw_data 39 16) env.rand
          let s := { s with m_clients := s.m_clients ++ [client] }
          (send_packet s sender_address
            ([0xFE, 0xFE, 0x04] ++ htons 1 ++ htons 2 ++ client.m_public_key)).1
      else if version < CLIENT_VERSION then
        refuse_connection s sender_address 4
      else
        refuse_connection s sender_address 5
    else if type = 0x68 then
      let r := erase_client s.m_clients sender_address
      let s := { s with m_clients := r.1 }
      if r.2 then
        { s with console := s.console ++ [ConsoleLine.unknown_disconnection sender_address] }
      else s
    else s
  else s

/-- The `for(i = 0; i < m_received_raw_data.size(); i++)` loop of
`Server::process_received_data`, with `fuel` iterations at most; `env i` is what iteration `i`
reads from outside. -/
def process_received_data_loop (env : Nat → Env) : Nat → Nat → Server → Server
  | 0, _, s => s
  | fuel + 1, i, s =>
    if i < s.m_received_raw_data.length then
      match s.m_received_raw_data with
      | [] => s
      | front :: rest =>
        process_received_data_loop env fuel (i + 1)
          { process_datagram (env i) s front with m_received_raw_data := rest }
    else s

/-- Model of `Server::process_received_data()`. -/
def process_received_data (env : Nat → Env) (s : Server) : Server :=
  process_received_data_loop env s.m_received_raw_data.length 0 s

/-- Model of `Server::read_data()`: `received` holds the datagrams the successive `recv_from`
calls return, in order. -/
def read_data (s : Server) (received : List ((Nat × Nat) × List Nat)) : Server :=
  { s with m_received_raw_data := s.m_received_raw_data ++ received }

/-- The states the server reaches from an empty registry by reading and processing
datagrams. -/
inductive Reachable : Server → Prop where
  | start (s : Server) : s.m_clients = [] → Reachable s
  | read (s : Server) (received : List ((Nat × Nat) × List Nat)) :
      Reachable s → Reachable (read_data s received)
  | datagram (env : Env) (s : Server) (front : (Nat × Nat) × List Nat) :
      Reachable s → Reachable (process_datagram env s front)
  | process (env : Nat → Env) (s : Server) :
      Reachable s → Reachable (process_received_data env s)

/-- Whether the datagram `raw_data` passes the tests of the ClientChallenge branch of
`Server::process_received_data`: `gssdk_header == 0xFEFE` and `type == 0x01`. -/
def is_client_challenge (env : Env) (raw_data : List Nat) : Prop :=
  packet_byte env raw_data 0 + 256 * packet_byte env raw_data 1 = 0xFEFE ∧
    packet_byte env raw_data 2 = 0x01

instance (env : Env) (raw_data : List Nat) : Decidable (is_client_challenge env raw_data) := by
  unfold is_client_challenge; infer_instance

/-- Whether the datagram `raw_data` passes the tests that lead to the `emplace_back` of
`Server::process_received_data`, the registry-full test apart: `gssdk_header == 0xFEFE`,
`type == 0x03` and `version == CLIENT_VERSION`. -/
def is_client_response (env : Env) (raw_data : List Nat) : Prop :=
  packet_byte env raw_data 0 + 256 * packet_byte env raw_data 1 = 0xFEFE ∧
    packet_byte env raw_data 2 = 0x03 ∧
    load32 (packet_bytes env raw_data 55 4) = CLIENT_VERSION

instance (env : Env) (raw_data : List Nat) : Decidable (is_client_response env raw_data) := by
  unfold is_client_response; infer_instance

/-- A run of the server: the loop body of `Server::process_received_data` applied to the
datagrams of `steps` one after the other, each with what it reads from outside. -/
def run_datagrams (s : Server) (steps : List (Env × ((Nat × Nat) × List Nat))) : Server :=
  steps.foldl (fun acc step => process_datagram step.1 acc step.2) s

/-- The `while(client_it != m_clients.end())` loop of `Server::disconnect_clients`, with
`fuel` iterations at most; `client_it` is `m_clients.begin()` at every test, because
`erase` returns the position of the element that followed the erased one. The packet is a
`PacketHeader` with `type = PACKET_TYPE_DISCONNECTION`: the bytes FE FE 68. -/
def disconnect_clients_loop : Nat → Server → Server
  | 0, s => s
  | fuel + 1, s =>
    match s.m_clients with
    | [] => s
    | client :: _ =>
      let s := (send_packet s client.m_address [0xFE, 0xFE, 0x68]).1
      disconnect_clients_loop fuel { s with m_clients := s.m_clients.eraseIdx 0 }

/-- Model of `Server::disconnect_clients()`. -/
def disconnect_clients (s : Server) : Server :=
  disconnect_clients_loop s.m_clients.length s

/-- Ways in which a call of a `Bitstream` member function ends without a value:
`invalid_bits_amount` is the `std::runtime_error` both functions throw; `out_of_range` is an
access to an element the vector `m_buffer` does not have; `shift_overflow` is a shift of a
32-bit `int` by 32 bits, for which C++ defines no result; `out_of_fuel` is a loop of the
model stopped before its test failed. -/
inductive BitstreamError where
  | invalid_bits_amount
  | out_of_range
  | shift_overflow
  | out_of_fuel

/-- The data members of `Bitstream`: the bytes of `m_buffer` and `m_bit_offset`. -/
structure Bitstream where
  m_buffer : List Nat
  m_bit_offset : Nat

/-- The `while(input_bits_left > 0)` loop of `Bitstream::write`, with `fuel` iterations at
most: the object after the loop and the error that stopped it, if any. `m_bit_offset` is
below 8 whenever the loop runs (it is only assigned modulo 8), so that `8 - m_bit_offset`
and the shifts by it are taken as they are. -/
def Bitstream.write_loop : Nat → Bitstream → Nat → Nat → Bitstream × Option BitstreamError
  | 0, bs, _, input_bits_left =>
    if input_bits_left > 0 then (bs, some BitstreamError.out_of_fuel) else (bs, none)
  | fuel + 1, bs, input_bytes_left, input_bits_left =>
    if input_bits_left > 0 then
      let m_buffer := if bs.m_bit_offset = 0 then bs.m_buffer ++ [0] else bs.m_buffer
      match m_buffer.getLast? with
      | none => ({ bs with m_buffer := m_buffer }, some BitstreamError.out_of_range)
      | some current_byte =>
        let current_byte :=
          (current_byte ||| (input_bytes_left <<< bs.m_bit_offset) % 4294967296) % 256
        let m_buffer := m_buffer.dropLast ++ [current_byte]
        let copied_bits := 8 - bs.m_bit_offset
        let input_bytes_left := input_bytes_left >>> copied_bits
        if copied_bits ≥ input_bits_left then
          Bitstream.write_loop fuel
            { m_buffer := m_buffer, m_bit_offset := (bs.m_bit_offset + input_bits_left) % 8 }
            input_bytes_left (input_bits_left - input_bits_left)
        else
          Bitstream.write_loop fuel
            { m_buffer := m_buffer, m_bit_offset := (bs.m_bit_offset + copied_bits) % 8 }
            input_bytes_left (input_bits_left - copied_bits)
    else (bs, none)

/-- Model of `Bitstream::write(value, bits_amount)`: the object after the call and the error
the call ended with, if any. The mask `(1 << bits_amount) - 1` is computed for
`bits_amount < 32` only. -/
def Bitstream.write (bs : Bitstream) (value bits_amount : Nat) :
    Bitstream × Option BitstreamError :=
  if bits_amount = 0 ∨ bits_amount > 32 then
    (bs, some BitstreamError.invalid_bits_amount)
  else
    let input_bytes_left := value % 4294967296
    let input_bytes_left :=
      if bits_amount < 32 then
        input_bytes_left &&& ((1 <<< bits_amount) + 4294967296 - 1) % 4294967296
      else input_bytes_left
    Bitstream.write_loop bits_amount bs input_bytes_left bits_amount

/-- The `while(output_bit_offset < bits_amount)` loop of `Bitstream::read`, with `fuel`
iterations at most. The arguments after `fuel` are `output`, `output_bit_offset`,
`buffer_byte_offset` and `buffer_bit_offset`. The mask is `(1 << k) - 1` on `int` with
`k = bits_amount - output_bit_offset`; for `k = 32` the shift has no defined result. -/
def Bitstream.read_loop (bs : Bitstream) (bits_amount : Nat) :
    Nat → Nat → Nat → Nat → Nat → Except BitstreamError Nat
  | 0, output, output_bit_offset, _, _ =>
    if output_bit_offset < bits_amount then Except.error BitstreamError.out_of_fuel
    else Except.ok output
  | fuel + 1, output, output_bit_offset, buffer_byte_offset, buffer_bit_offset =>
    if output_bit_offset < bits_amount then
      match bs.m_buffer.get? buffer_byte_offset with
      | none => Except.error BitstreamError.out_of_range
      | some current_byte =>
        if 32 ≤ bits_amount - output_bit_offset then
          Except.error BitstreamError.shift_overflow
        else
          let mask :=
            ((1 <<< (bits_amount - output_bit_offset)) + 4294967296 - 1) % 4294967296
          let bits := (current_byte >>> buffer_bit_offset) &&& mask
          let output := output ||| (bits <<< output_bit_offset) % 4294967296
          let copied_bits := 8 - buffer_bit_offset
          Bitstream.read_loop bs bits_amount fuel output (output_bit_offset + copied_bits)
            (buffer_byte_offset + 1) ((buffer_bit_offset + copied_bits) % 8)
    else Except.ok output

/-- Model of `Bitstream::read(buffer_offset, bits_amount)`. -/
def Bitstream.read (bs : Bitstream) (buffer_offset bits_amount : Nat) :
    Except BitstreamError Nat :=
  if bits_amount = 0 ∨ bits_amount > 32 then
    Except.error BitstreamError.invalid_bits_amount
  else
    Bitstream.read_loop bs bits_amount bits_amount 0 0 (buffer_offset / 8) (buffer_offset % 8)

/-- The class invariant of `Bitstream`: `m_bit_offset` is below 8, and it is 0 when the
buffer has no byte yet. -/
def Bitstream.valid (bs : Bitstream) : Prop :=
  bs.m_bit_offset < 8 ∧ (bs.m_buffer = [] → bs.m_bit_offset = 0)

instance (bs : Bitstream) : Decidable bs.valid := by
  unfold Bitstream.valid; infer_instance

/-- A data member declaration of a struct, as far as its place in the struct depends on
it: a bit field `type name : bits`, an array `char name[size]`, or a flexible array
`char name[]`. -/
inductive Member where
  | bit_field (name : String) (bits : Nat)
  | char_array (name : String) (size : Nat)
  | flexible_char_array (name : String)

/-- The macro `GAP(bytes, line)` of struct.hpp: `char gap_##line[bytes]`. -/
def GAP (bytes line : Nat) : Member := Member.char_array ("gap_" ++ toString line) bytes

/-- The macro `GET_GAP(bytes, line)`: `GAP(bytes, line)`. -/
def GET_GAP (bytes line : Nat) : Member := GAP bytes line

/-- The macro `PADDING(bytes)`: `GET_GAP(bytes, __LINE__)`; `line` is the value of
`__LINE__`. -/
def PADDING (bytes line : Nat) : Member := GET_GAP bytes line

/-- The macro `BIT_GAP(bits, line)`: `char gap_##line : bits`. -/
def BIT_GAP (bits line : Nat) : Member := Member.bit_field ("gap_" ++ toString line) bits

/-- The macro `GET_BIT_GAP(bits, line)`: `GAP(bits, line)`. -/
def GET_BIT_GAP (bits line : Nat) : Member := GAP bits line

/-- The macro `PADDING_BIT(bits)`: `GET_GAP(bits, __LINE__)`; `line` is the value of
`__LINE__`. -/
def PADDING_BIT (bits line : Nat) : Member := GET_GAP bits line

/-- The members `EncryptedPacket` declares after its base `Packet`; `PADDING_BIT(1)` stands
on line 106 of packet.hpp. -/
def EncryptedPacket_members : List Member :=
  [Member.bit_field "data_lenght" 11, PADDING_BIT 1 106, Member.flexible_char_array "data"]

/-- Size in bytes of the base `Packet`: a 16-bit header, an 8-bit type and two 16-bit
counts, packed. -/
def sizeof_Packet : Nat := 2 + 1 + 2 + 2

/-- Where a member goes in a struct with `__attribute__((__packed__))` when the first free
bit is `bit`: the bit the member starts at and the first free bit after it. A bit field
starts at the first free bit; an array starts at the next byte boundary. -/
def packed_place (bit : Nat) : Member → Nat × Nat
  | Member.bit_field _ bits => (bit, bit + bits)
  | Member.char_array _ size => (8 * ((bit + 7) / 8), 8 * ((bit + 7) / 8) + 8 * size)
  | Member.flexible_char_array _ => (8 * ((bit + 7) / 8), 8 * ((bit + 7) / 8))

/-- Bit offsets of the members of a packed struct, in declaration order, when the first
free bit is `bit`. -/
def packed_offsets (bit : Nat) : List Member → List Nat
  | [] => []
  | m :: rest => (packed_place bit m).1 :: packed_offsets (packed_place bit m).2 rest

/-- Byte offset of the member `data` of `EncryptedPacket` when its members are `members`:
the last of the offsets, in bytes. -/
def data_offset (members : List Member) : Nat :=
  ((packed_offsets (8 * sizeof_Packet) members).getLastD 0) / 8

/-- The ASCII code `c` is a lower-case hexadecimal digit, `0-9` or `a-f`. -/
def is_lower_hex_digit (c : Nat) : Prop := (0x30 ≤ c ∧ c ≤ 0x39) ∨ (0x61 ≤ c ∧ c ≤ 0x66)

instance : DecidablePred is_lower_hex_digit := fun c => by
  unfold is_lower_hex_digit; infer_instance

/-- The buffers handed to `halo_fix_check` as `key1` in one iteration of the `while(cnt--)`
loop of `halo_key_scramble`, in call order: `key1` after the addition of `tk2` when the low
bit of `tk1` is set, then `tk2` after its shift. -/
def halo_key_scramble_body_fix_args (st : List Nat × List Nat × List Nat) : List (List Nat) :=
  (if st.2.1.getD 15 0 &&& 1 ≠ 0 then [(add_carry st.1 st.2.2).2] else [])
    ++ [(shl1_carry st.2.2).2]

/-- The buffers handed to `halo_fix_check` as `key1` during
`halo_key_scramble(key1, key2, fixnumb)`, in call order. -/
def halo_key_scramble_fix_args (key1 key2 fixnumb : List Nat) : List (List Nat) :=
  (List.range (16 <<< 3)).flatMap (fun cnt =>
    halo_key_scramble_body_fix_args
      (loop_n (halo_key_scramble_body fixnumb) cnt (List.replicate 16 0, key1, key2)))

/-- The buffers handed to `halo_fix_check` as `key1` in one iteration of the `while(cnt--)`
loop of `halo_create_key`, through its calls of `halo_key_scramble`. -/
def halo_create_key_body_fix_args (fixnumb : List Nat)
    (st : List Nat × List Nat × List Nat) : List (List Nat) :=
  (if st.2.2.getD 15 0 &&& 1 ≠ 0 then halo_key_scramble_fix_args st.1 st.2.1 fixnumb else [])
    ++ halo_key_scramble_fix_args st.2.1 st.2.1 fixnumb

/-- The buffers handed to `halo_fix_check` as `key1` during
`halo_create_key(keystr, randhash, fixnum, dest)`, in call order. -/
def halo_create_key_fix_args (keystr randhash fixnum : List Nat) : List (List Nat) :=
  let keystrb := (halo_hex2byte keystr).2
  let rh := halo_hex2byte randhash
  let fixnumb := (halo_hex2byte fixnum).2
  let dest := (List.replicate 15 0 ++ [0x01])
  (List.range (16 <<< 3)).flatMap (fun cnt =>
    halo_create_key_body_fix_args fixnumb
      (loop_n (halo_create_key_body fixnumb) cnt (dest, keystrb, rh.2)))

/-- The buffers handed to `halo_fix_check` as `key1` during
`halo_generate_keys(hash, source_key, dest_key)`, in call order. -/
def halo_generate_keys_fix_args (hash : List Nat) (source_key : Option (List Nat))
    (seed : Nat) : List (List Nat) :=
  let fixed_key := [0x31, 0x30, 0x30, 0x30, 0x31, 0]
  match source_key with
  | none => halo_create_key_fix_args [0x33, 0] (halo_create_randhash seed) fixed_key
  | some k => halo_create_key_fix_args (halo_byte2hex k) hash fixed_key

/-- A sequence of `Bitstream::write(value, bits_amount)` calls on `bs`, one for each pair of
`writes`: the object after the last call. -/
def Bitstream.write_all (bs : Bitstream) (writes : List (Nat × Nat)) : Bitstream :=
  writes.foldl (fun b w => (b.write w.1 w.2).1) bs

/-- The number whose bits are the bits of the buffer, bit `k` of byte `j` being bit
`8 * j + k`. -/
def le_val : List Nat → Nat
  | [] => 0
  | b :: rest => b + 256 * le_val rest

/-- The vector `output` of `Server::resolve_handshake_challenge` after
`output.assign(32, std::byte(0))`: the buffer whose `data()` is the destination of
`gssdkcr`. -/
def resolve_handshake_challenge_output : List Nat := List.replicate 32 0

/-- Body of the `for(char const &c : args)` loop of `ConsoleCommand::split_arguments` on
`(args_slices, slice, escaped, in_quotes)`; characters are their codes, `0x5C` the backslash,
`0x22` the double quote and `0x20` the space. -/
def split_arguments_step (st : List (List Nat) × List Nat × Bool × Bool) (c : Nat) :
    List (List Nat) × List Nat × Bool × Bool :=
  if st.2.2.1 then (st.1, st.2.1 ++ [c], false, st.2.2.2)
  else if c = 0x5C then (st.1, st.2.1, true, st.2.2.2)
  else if c = 0x22 then (st.1, st.2.1, st.2.2.1, !st.2.2.2)
  else if !st.2.2.2 ∧ c = 0x20 then
    if st.2.1 ≠ [] then (st.1 ++ [st.2.1], st.2.1, st.2.2.1, st.2.2.2) else st
  else (st.1, st.2.1 ++ [c], st.2.2.1, st.2.2.2)

/-- Model of `ConsoleCommand::split_arguments(args)`. -/
def split_arguments (args : List Nat) : List (List Nat) :=
  let st := args.foldl split_arguments_step ([], [], false, false)
  if st.2.1 ≠ [] then st.1 ++ [st.2.1] else st.1

/-- The maximal runs of non-space characters of `args`, in order; `run` is the run being
read. -/
def space_runs (run : List Nat) : List Nat → List (List Nat)
  | [] => if run ≠ [] then [run] else []
  | c :: rest =>
    if c = 0x20 then (if run ≠ [] then run :: space_runs [] rest else space_runs [] rest)
    else space_runs (run ++ [c]) rest

/-- The state of a `Bitstream` that holds `T` bits: `m_bit_offset` is `T mod 8`, the buffer
has `ceil(T / 8)` bytes, and no bit at a position from `T` on is set. -/
def Bitstream.written (bs : Bitstream) (T : Nat) : Prop :=
  bs.m_bit_offset = T % 8 ∧ bs.m_buffer.length = (T + 7) / 8 ∧ bytes_ok bs.m_buffer ∧
    le_val bs.m_buffer < 2 ^ T

/-- The number whose bits are the fields of `writes` one after the other, the first field
lowest; a field is the low `bits_amount` bits of its value. -/
def fields_val : List (Nat × Nat) → Nat
  | [] => 0
  | w :: rest => w.1 % 2 ^ w.2 + 2 ^ w.2 * fields_val rest

/-- A bound on the server packet counts of a registry: the count of each session is at most
1 plus the number of sessions with its address at or after it. -/
def count_bound : List Client → Prop
  | [] => True
  | c :: rest =>
    c.m_server_packet_count ≤ 1 + ((c :: rest).map Client.m_address).count c.m_address ∧
      count_bound rest

/-! ## Theorems -/

theorem tea_mix_lt (v sum k0 k1 : Nat) : tea_mix v sum k0 k1 < 4294967296 := by
  unfold tea_mix
  have h : (4294967296 : Nat) = 2 ^ 32 := by norm_num
  rw [h]
  apply Nat.xor_lt_two_pow
  · apply Nat.xor_lt_two_pow <;> exact Nat.mod_lt _ (by positivity)
  · exact Nat.mod_lt _ (by positivity)

theorem loop_n_succ_last {σ : Type} (body : σ → σ) (n : Nat) (st : σ) :
    loop_n body (n + 1) st = body (loop_n body n st) := by
  induction n generalizing st with
  | zero => rfl
  | succ k ih =>
    show loop_n body (k + 1) (body st) = _
    rw [ih]; rfl

theorem tea_encrypt_round_ok (a b c d : Nat) (st : Nat × Nat × Nat) :
    tea_state_ok (tea_encrypt_round a b c d st) := by
  refine ⟨?_, ?_, ?_⟩ <;> exact Nat.mod_lt _ (by norm_num)

theorem tea_decrypt_round_ok (a b c d : Nat) (st : Nat × Nat × Nat) :
    tea_state_ok (tea_decrypt_round a b c d st) := by
  refine ⟨?_, ?_, ?_⟩ <;> exact Nat.mod_lt _ (by norm_num)

theorem tea_decrypt_encrypt_round (a b c d : Nat) (st : Nat × Nat × Nat)
    (h : tea_state_ok st) :
    tea_decrypt_round a b c d (tea_encrypt_round a b c d st) = st := by
  obtain ⟨y, z, s⟩ := st
  obtain ⟨hy, hz, hs⟩ := h
  simp only [tea_state_ok] at hy hz hs
  simp only [tea_encrypt_round, tea_decrypt_round]
  have e1 : ∀ u f : Nat, u < 4294967296 → f < 4294967296 →
      ((u + f) % 4294967296 + 4294967296 - f) % 4294967296 = u := by
    intro u f hu hf; omega
  rw [e1 z _ hz (tea_mix_lt _ _ _ _), e1 y _ hy (tea_mix_lt _ _ _ _),
    e1 s _ hs (by norm_num)]

theorem tea_encrypt_decrypt_round (a b c d : Nat) (st : Nat × Nat × Nat)
    (h : tea_state_ok st) :
    tea_encrypt_round a b c d (tea_decrypt_round a b c d st) = st := by
  obtain ⟨y, z, s⟩ := st
  obtain ⟨hy, hz, hs⟩ := h
  simp only [tea_state_ok] at hy hz hs
  simp only [tea_encrypt_round, tea_decrypt_round]
  have e0 : ((s + 4294967296 - 0x9e3779b9) % 4294967296 + 0x9e3779b9) % 4294967296 = s := by
    omega
  have e1 : ∀ u f : Nat, u < 4294967296 → f < 4294967296 →
      ((u + 4294967296 - f) % 4294967296 + f) % 4294967296 = u := by
    intro u f hu hf; omega
  rw [e0, e1 y _ hy (tea_mix_lt _ _ _ _), e1 z _ hz (tea_mix_lt _ _ _ _)]

theorem tea_loop_decrypt_encrypt (a b c d : Nat) (n : Nat) (st : Nat × Nat × Nat)
    (h : tea_state_ok st) :
    loop_n (tea_decrypt_round a b c d) n (loop_n (tea_encrypt_round a b c d) n st) = st := by
  induction n generalizing st with
  | zero => rfl
  | succ k ih =>
    rw [loop_n_succ_last (tea_encrypt_round a b c d)]
    show loop_n _ k (tea_decrypt_round a b c d (tea_encrypt_round a b c d _)) = _
    cases k with
    | zero => exact tea_decrypt_encrypt_round a b c d st h
    | succ j =>
      rw [tea_decrypt_encrypt_round a b c d _
        (by rw [loop_n_succ_last]; exact tea_encrypt_round_ok _ _ _ _ _)]
      exact ih st h

theorem tea_loop_encrypt_decrypt (a b c d : Nat) (n : Nat) (st : Nat × Nat × Nat)
    (h : tea_state_ok st) :
    loop_n (tea_encrypt_round a b c d) n (loop_n (tea_decrypt_round a b c d) n st) = st := by
  induction n generalizing st with
  | zero => rfl
  | succ k ih =>
    rw [loop_n_succ_last (tea_decrypt_round a b c d)]
    show loop_n _ k (tea_encrypt_round a b c d (tea_decrypt_round a b c d _)) = _
    cases k with
    | zero => exact tea_encrypt_decrypt_round a b c d st h
    | succ j =>
      rw [tea_encrypt_decrypt_round a b c d _
        (by rw [loop_n_succ_last]; exact tea_decrypt_round_ok _ _ _ _ _)]
      exact ih st h

theorem tea_encrypt_loop_sum (a b c d : Nat) (n : Nat) (st : Nat × Nat × Nat)
    (h : st.2.2 < 4294967296) :
    (loop_n (tea_encrypt_round a b c d) n st).2.2 = (st.2.2 + n * 0x9e3779b9) % 4294967296 := by
  induction n generalizing st with
  | zero => simp [loop_n]; omega
  | succ k ih =>
    show (loop_n _ k (tea_encrypt_round a b c d st)).2.2 = _
    rw [ih _ (Nat.mod_lt _ (by norm_num))]
    simp only [tea_encrypt_round]
    omega

theorem tea_decrypt_loop_sum (a b c d : Nat) (n : Nat) (st : Nat × Nat × Nat)
    (h : st.2.2 < 4294967296) :
    ((loop_n (tea_decrypt_round a b c d) n st).2.2 + n * 0x9e3779b9) % 4294967296 = st.2.2 := by
  induction n generalizing st with
  | zero => simp [loop_n]; omega
  | succ k ih =>
    show ((loop_n _ k (tea_decrypt_round a b c d st)).2.2 + _) % _ = _
    have := ih (tea_decrypt_round a b c d st) (Nat.mod_lt _ (by norm_num))
    simp only [tea_decrypt_round] at this ⊢
    omega

theorem tea_decrypt_encrypt_words (a b c d y z : Nat) (hy : y < 4294967296)
    (hz : z < 4294967296) :
    tea_decrypt (tea_encrypt (y, z) (a, b, c, d)) (a, b, c, d) = (y, z) := by
  have hs := tea_encrypt_loop_sum a b c d 32 (y, z, 0) (by norm_num)
  have hl := tea_loop_decrypt_encrypt a b c d 32 (y, z, 0) ⟨hy, hz, by norm_num⟩
  simp only [tea_encrypt, tea_decrypt]
  have e : (0xc6ef3720 : Nat) = (loop_n (tea_encrypt_round a b c d) 32 (y, z, 0)).2.2 := by
    rw [hs]; norm_num
  rw [e, hl]

/-- C2: for every 128-bit key `(a, b, c, d)` and every block `(y, z)` of two 32-bit words,
`tea_decrypt` undoes `tea_encrypt` and `tea_encrypt` undoes `tea_decrypt`, all arithmetic being
taken modulo `2^32`. -/
theorem tea_decrypt_encrypt_block (a b c d y z : Nat) (hy : y < 4294967296)
    (hz : z < 4294967296) :
    tea_decrypt (tea_encrypt (y, z) (a, b, c, d)) (a, b, c, d) = (y, z) ∧
      tea_encrypt (tea_decrypt (y, z) (a, b, c, d)) (a, b, c, d) = (y, z) := by
  constructor
  · have hs := tea_encrypt_loop_sum a b c d 32 (y, z, 0) (by norm_num)
    have hl := tea_loop_decrypt_encrypt a b c d 32 (y, z, 0) ⟨hy, hz, by norm_num⟩
    simp only [tea_encrypt, tea_decrypt]
    have e : (0xc6ef3720 : Nat) = (loop_n (tea_encrypt_round a b c d) 32 (y, z, 0)).2.2 := by
      rw [hs]; norm_num
    rw [e, hl]
  · have hok : tea_state_ok (loop_n (tea_decrypt_round a b c d) 32 (y, z, 0xc6ef3720)) := by
      rw [loop_n_succ_last]; exact tea_decrypt_round_ok _ _ _ _ _
    have hs := tea_decrypt_loop_sum a b c d 32 (y, z, 0xc6ef3720) (by norm_num)
    have hl := tea_loop_encrypt_decrypt a b c d 32 (y, z, 0xc6ef3720) ⟨hy, hz, by norm_num⟩
    have h0 : (loop_n (tea_decrypt_round a b c d) 32 (y, z, 0xc6ef3720)).2.2 = 0 := by
      have := hok.2.2
      simp only at hs
      omega
    simp only [tea_encrypt, tea_decrypt]
    have e : (0 : Nat) = (loop_n (tea_decrypt_round a b c d) 32 (y, z, 0xc6ef3720)).2.2 := by
      rw [h0]
    rw [e, hl]

/-- Witness for C2: key bytes `00 01 .. 0F` read as four little-endian words and the block
`00 11 22 33 44 55 66 77`. -/
theorem tea_decrypt_encrypt_block_witness :
    tea_decrypt (tea_encrypt (0x33221100, 0x77665544)
        (0x03020100, 0x07060504, 0x0b0a0908, 0x0f0e0d0c))
        (0x03020100, 0x07060504, 0x0b0a0908, 0x0f0e0d0c) = (0x33221100, 0x77665544) ∧
      tea_encrypt (tea_decrypt (0x33221100, 0x77665544)
        (0x03020100, 0x07060504, 0x0b0a0908, 0x0f0e0d0c))
        (0x03020100, 0x07060504, 0x0b0a0908, 0x0f0e0d0c) = (0x33221100, 0x77665544) :=
  tea_decrypt_encrypt_block _ _ _ _ _ _ (by norm_num) (by norm_num)

theorem tea_encrypt_lt (p : Nat × Nat) (k : Nat × Nat × Nat × Nat) :
    (tea_encrypt p k).1 < 4294967296 ∧ (tea_encrypt p k).2 < 4294967296 := by
  have h := tea_encrypt_round_ok k.1 k.2.1 k.2.2.1 k.2.2.2
    (loop_n (tea_encrypt_round k.1 k.2.1 k.2.2.1 k.2.2.2) 31 (p.1, p.2, 0))
  rw [← loop_n_succ_last (tea_encrypt_round k.1 k.2.1 k.2.2.1 k.2.2.2) 31] at h
  exact ⟨h.1, h.2.1⟩

theorem tea_decrypt_lt (p : Nat × Nat) (k : Nat × Nat × Nat × Nat) :
    (tea_decrypt p k).1 < 4294967296 ∧ (tea_decrypt p k).2 < 4294967296 := by
  have h := tea_decrypt_round_ok k.1 k.2.1 k.2.2.1 k.2.2.2
    (loop_n (tea_decrypt_round k.1 k.2.1 k.2.2.1 k.2.2.2) 31 (p.1, p.2, 0xc6ef3720))
  rw [← loop_n_succ_last (tea_decrypt_round k.1 k.2.1 k.2.2.1 k.2.2.2) 31] at h
  exact ⟨h.1, h.2.1⟩

theorem bytes_ok_store32 (w : Nat) : bytes_ok (store32 w) := by
  intro x hx
  simp only [store32, List.mem_cons, List.mem_singleton, List.not_mem_nil, or_false] at hx
  rcases hx with h | h | h | h <;> omega

theorem bytes_ok_append {l m : List Nat} (hl : bytes_ok l) (hm : bytes_ok m) :
    bytes_ok (l ++ m) := by
  intro x hx
  rcases List.mem_append.1 hx with h | h
  · exact hl x h
  · exact hm x h

theorem bytes_ok_drop {l : List Nat} (n : Nat) (hl : bytes_ok l) : bytes_ok (l.drop n) :=
  fun x hx => hl x (List.mem_of_mem_drop hx)

theorem bytes_ok_take {l : List Nat} (n : Nat) (hl : bytes_ok l) : bytes_ok (l.take n) :=
  fun x hx => hl x (List.mem_of_mem_take hx)

theorem load32_store32 (w : Nat) (t : List Nat) (hw : w < 4294967296) :
    load32 (store32 w ++ t) = w := by
  simp [load32, store32]
  omega

/-- A buffer of at least eight bytes, split into its first eight bytes and the rest. -/
theorem exists_eight (p : List Nat) (h : 8 ≤ p.length) :
    ∃ b0 b1 b2 b3 b4 b5 b6 b7 t, p = b0 :: b1 :: b2 :: b3 :: b4 :: b5 :: b6 :: b7 :: t := by
  match p, h with
  | b0 :: b1 :: b2 :: b3 :: b4 :: b5 :: b6 :: b7 :: t, _ =>
    exact ⟨b0, b1, b2, b3, b4, b5, b6, b7, t, rfl⟩

theorem store32_load32 (b0 b1 b2 b3 : Nat) (t : List Nat) (h0 : b0 < 256) (h1 : b1 < 256)
    (h2 : b2 < 256) (h3 : b3 < 256) :
    store32 (load32 (b0 :: b1 :: b2 :: b3 :: t)) = [b0, b1, b2, b3] := by
  simp only [load32, store32, List.getD_cons_zero, List.getD_cons_succ]
  refine List.cons_eq_cons.2 ⟨by omega, List.cons_eq_cons.2 ⟨by omega, List.cons_eq_cons.2
    ⟨by omega, List.cons_eq_cons.2 ⟨by omega, rfl⟩⟩⟩⟩

theorem tea_encrypt_bytes_length (p key : List Nat) (h : 8 ≤ p.length) :
    (tea_encrypt_bytes p key).length = p.length := by
  simp [tea_encrypt_bytes, store32]; omega

theorem tea_decrypt_bytes_length (p key : List Nat) (h : 8 ≤ p.length) :
    (tea_decrypt_bytes p key).length = p.length := by
  simp [tea_decrypt_bytes, store32]; omega

theorem tea_encrypt_bytes_ok (p key : List Nat) (h : bytes_ok p) :
    bytes_ok (tea_encrypt_bytes p key) :=
  bytes_ok_append (bytes_ok_append (bytes_ok_store32 _) (bytes_ok_store32 _)) (bytes_ok_drop 8 h)

theorem tea_decrypt_bytes_ok (p key : List Nat) (h : bytes_ok p) :
    bytes_ok (tea_decrypt_bytes p key) :=
  bytes_ok_append (bytes_ok_append (bytes_ok_store32 _) (bytes_ok_store32 _)) (bytes_ok_drop 8 h)

theorem tea_decrypt_encrypt_bytes (p key : List Nat) (hl : 8 ≤ p.length) (hb : bytes_ok p) :
    tea_decrypt_bytes (tea_encrypt_bytes p key) key = p := by
  obtain ⟨b0, b1, b2, b3, b4, b5, b6, b7, t, rfl⟩ := exists_eight p hl
  have h0 := hb b0 (by simp); have h1 := hb b1 (by simp); have h2 := hb b2 (by simp)
  have h3 := hb b3 (by simp); have h4 := hb b4 (by simp); have h5 := hb b5 (by simp)
  have h6 := hb b6 (by simp); have h7 := hb b7 (by simp)
  have hy : load32 (b0 :: b1 :: b2 :: b3 :: b4 :: b5 :: b6 :: b7 :: t) < 4294967296 := by
    simp only [load32, List.getD_cons_zero, List.getD_cons_succ]; omega
  have hz : load32 (b4 :: b5 :: b6 :: b7 :: t) < 4294967296 := by
    simp only [load32, List.getD_cons_zero, List.getD_cons_succ]; omega
  simp only [tea_encrypt_bytes, tea_decrypt_bytes]
  generalize key_words key = kw
  obtain ⟨k0, k1, k2, k3⟩ := kw
  have hr := tea_decrypt_encrypt_words k0 k1 k2 k3 _ _ hy hz
  have hlt := tea_encrypt_lt (load32 (b0 :: b1 :: b2 :: b3 :: b4 :: b5 :: b6 :: b7 :: t),
    load32 (List.drop 4 (b0 :: b1 :: b2 :: b3 :: b4 :: b5 :: b6 :: b7 :: t))) (k0, k1, k2, k3)
  simp only [List.drop_succ_cons, List.drop_zero] at hlt ⊢
  generalize tea_encrypt (load32 (b0 :: b1 :: b2 :: b3 :: b4 :: b5 :: b6 :: b7 :: t),
    load32 (b4 :: b5 :: b6 :: b7 :: t)) (k0, k1, k2, k3) = r at hr hlt ⊢
  obtain ⟨r1, r2⟩ := r
  simp only at hlt hr ⊢
  have e1 : load32 (store32 r1 ++ store32 r2 ++ t) = r1 := by
    rw [List.append_assoc]; exact load32_store32 r1 _ hlt.1
  have e2 : List.drop 4 (store32 r1 ++ store32 r2 ++ t) = store32 r2 ++ t := by
    simp [store32]
  have e3 : List.drop 8 (store32 r1 ++ store32 r2 ++ t) = t := by
    simp [store32]
  rw [e1, e2, e3, load32_store32 r2 _ hlt.2, hr]
  simp only
  rw [store32_load32 b0 b1 b2 b3 _ h0 h1 h2 h3, store32_load32 b4 b5 b6 b7 _ h4 h5 h6 h7]
  rfl

theorem tea_decrypt_at_encrypt_at (data key : List Nat) (o : Nat) (ho : o + 8 ≤ data.length)
    (hb : bytes_ok data) :
    ∃ r, tea_encrypt_at data (o : Int) key = some r ∧ tea_decrypt_at r (o : Int) key = some data := by
  have hd : 8 ≤ (data.drop o).length := by simp; omega
  have hlen : (List.take o data ++ tea_encrypt_bytes (List.drop o data) key).length
      = data.length := by
    rw [List.length_append, tea_encrypt_bytes_length _ _ hd]; simp; omega
  refine ⟨data.take o ++ tea_encrypt_bytes (data.drop o) key, ?_, ?_⟩
  · unfold tea_encrypt_at
    rw [if_pos ⟨by omega, by omega⟩]; simp
  · unfold tea_decrypt_at
    rw [if_pos ⟨by omega, by omega⟩]
    have hto : (data.take o).length = o := by simp; omega
    simp only [Int.toNat_ofNat]
    rw [List.take_left' hto, List.drop_left' hto,
      tea_decrypt_encrypt_bytes _ _ hd (bytes_ok_drop o hb), List.take_append_drop]

theorem tea_decrypt_blocks_encrypt_blocks (key : List Nat) (n : Nat) (p : List Nat)
    (hl : 8 * n ≤ p.length) (hb : bytes_ok p) :
    ∃ r, tea_encrypt_blocks key n p = some r ∧ r.length = p.length ∧ bytes_ok r ∧
      tea_decrypt_blocks key n r = some p := by
  induction n generalizing p with
  | zero => exact ⟨p, rfl, rfl, hb, rfl⟩
  | succ k ih =>
    have h8 : 8 ≤ p.length := by omega
    have hE := tea_encrypt_bytes_length p key h8
    have hEok := tea_encrypt_bytes_ok p key hb
    obtain ⟨r, hr, hrl, hrb, hrd⟩ := ih ((tea_encrypt_bytes p key).drop 8)
      (by simp; omega) (bytes_ok_drop 8 hEok)
    have ht : ((tea_encrypt_bytes p key).take 8).length = 8 := by simp; omega
    have hrl2 : r.length = p.length - 8 := by rw [hrl]; simp; omega
    refine ⟨(tea_encrypt_bytes p key).take 8 ++ r, ?_, ?_, ?_, ?_⟩
    · simp only [tea_encrypt_blocks]
      rw [if_pos h8, hr]; rfl
    · rw [List.length_append, ht, hrl2]; omega
    · exact bytes_ok_append (bytes_ok_take 8 hEok) hrb
    · have hcut : ∀ q : List Nat, List.drop 8 (tea_decrypt_bytes q key) = List.drop 8 q := by
        intro q; simp [tea_decrypt_bytes, store32]
      have hcutE : ∀ q : List Nat, List.drop 8 (tea_encrypt_bytes q key) = List.drop 8 q := by
        intro q; simp [tea_encrypt_bytes, store32]
      simp only [tea_decrypt_blocks]
      rw [if_pos (by rw [List.length_append, ht]; omega), hcut, List.drop_left' ht, hrd]
      simp only [Option.map_some']
      have key1 : List.take 8 (tea_decrypt_bytes (List.take 8 (tea_encrypt_bytes p key) ++ r) key)
          = List.take 8 p := by
        have e : List.take 8 (tea_decrypt_bytes (List.take 8 (tea_encrypt_bytes p key) ++ r) key)
            = List.take 8 (tea_decrypt_bytes (tea_encrypt_bytes p key) key) := by
          have hgen : ∀ q t t' : List Nat, q.length = 8 →
              List.take 8 (tea_decrypt_bytes (q ++ t) key)
                = List.take 8 (tea_decrypt_bytes (q ++ t') key) := by
            intro q t t' hq
            obtain ⟨b0, b1, b2, b3, b4, b5, b6, b7, u, hu⟩ := exists_eight q (by omega)
            subst hu
            have hu0 : u = [] := by
              simp at hq; exact hq
            subst hu0
            simp [tea_decrypt_bytes, load32, store32]
          have := hgen (List.take 8 (tea_encrypt_bytes p key)) r
            (List.drop 8 (tea_encrypt_bytes p key)) ht
          rw [List.take_append_drop] at this
          exact this
        rw [e, tea_decrypt_encrypt_bytes p key h8 hb]
      rw [key1, hcutE, List.take_append_drop]

/-- C1 (amended): for every 16-byte key `K` and every byte buffer `B` of at least eight bytes,
whether its length is a multiple of 8 or not, `halo_tea_encrypt` succeeds on `B` and
`halo_tea_decrypt` with `K` on its result returns exactly `B`. -/
theorem halo_tea_decrypt_encrypt (B K : List Nat) (hK : K.length = 16) (hB : bytes_ok B)
    (h8 : 8 ≤ B.length) :
    ∃ c, halo_tea_encrypt B B.length K = some c ∧ halo_tea_decrypt c B.length K = some B := by
  have _ := hK
  have hn : B.length >>> 3 = B.length / 8 := by
    rw [Nat.shiftRight_eq_div_pow]
  have hr : B.length &&& 7 = B.length % 8 := Nat.and_pow_two_sub_one_eq_mod B.length 3
  obtain ⟨d, hd, hdl, hdb, hdd⟩ := tea_decrypt_blocks_encrypt_blocks K (B.length / 8) B
    (by omega) hB
  by_cases hrest : B.length % 8 = 0
  · refine ⟨d, ?_, ?_⟩
    · simp only [halo_tea_encrypt, hn, hr, hd, hrest, ne_eq, not_true_eq_false, if_false]
    · simp only [halo_tea_decrypt, hn, hr, hrest, ne_eq, not_true_eq_false, if_false, hdd]
  · obtain ⟨c, hc, hcd⟩ := tea_decrypt_at_encrypt_at d K (B.length - 8) (by omega) hdb
    have eo : ((8 * (B.length / 8) : Nat) : Int) - ((8 : Int) - ((B.length % 8 : Nat) : Int))
        = ((B.length - 8 : Nat) : Int) := by omega
    refine ⟨c, ?_, ?_⟩
    · simp only [halo_tea_encrypt, hn, hr, hd, ne_eq, hrest, not_false_eq_true, if_true, eo, hc]
    · have eo2 : ((B.length : Nat) : Int) - 8 = ((B.length - 8 : Nat) : Int) := by omega
      simp only [halo_tea_decrypt, hn, hr, ne_eq, hrest, not_false_eq_true, if_true, eo2, hcd,
        hdd]

/-- Witness for C1: the key `00 01 .. 0F` and the 13-byte buffer `00 01 .. 0C`. -/
theorem halo_tea_decrypt_encrypt_witness :
    ∃ c, halo_tea_encrypt (List.range 13) (List.range 13).length (List.range 16) = some c ∧
      halo_tea_decrypt c (List.range 13).length (List.range 16) = some (List.range 13) :=
  halo_tea_decrypt_encrypt (List.range 13) (List.range 16) (by decide) (by
    intro x hx; simp only [List.mem_range] at hx; omega) (by decide)

/-- Counterexample to C1 as stated: on the non-empty 5-byte buffer `01 02 03 04 05` the tail
block of `halo_tea_encrypt` starts three bytes before the buffer, so no ciphertext of `B`
alone is produced and the round trip does not return `B`. -/
theorem halo_tea_short_buffer_counterexample :
    ¬ ∃ c, halo_tea_encrypt [1, 2, 3, 4, 5] 5 (List.range 16) = some c ∧
      halo_tea_decrypt c 5 (List.range 16) = some [1, 2, 3, 4, 5] := by
  rintro ⟨c, hc, _⟩
  have h : halo_tea_encrypt [1, 2, 3, 4, 5] 5 (List.range 16) = none := by decide
  rw [h] at hc
  exact Option.noConfusion hc

theorem shiftRight_one_xor (a b : Nat) : (a ^^^ b) >>> 1 = a >>> 1 ^^^ b >>> 1 := by
  apply Nat.eq_of_testBit_eq
  intro i
  simp only [Nat.testBit_xor, Nat.testBit_shiftRight]

theorem xor_poly_cancel (u v p : Nat) : (u ^^^ p) ^^^ (v ^^^ p) = u ^^^ v := by
  apply Nat.eq_of_testBit_eq
  intro i
  simp only [Nat.testBit_xor]
  cases u.testBit i <;> cases v.testBit i <;> cases p.testBit i <;> rfl

theorem crc32_reflected_bit_xor (a b : Nat) :
    crc32_reflected_bit (a ^^^ b) = crc32_reflected_bit a ^^^ crc32_reflected_bit b := by
  unfold crc32_reflected_bit
  simp only [Nat.and_one_is_mod]
  rcases Nat.mod_two_eq_zero_or_one a with ha | ha <;>
    rcases Nat.mod_two_eq_zero_or_one b with hb | hb <;>
    simp only [Nat.xor_mod_two_eq, Nat.add_mod, ha, hb, if_true, if_false, Nat.reduceAdd,
      Nat.reduceMod, Nat.zero_ne_one]
  all_goals
    apply Nat.eq_of_testBit_eq
    intro i
    try simp only [Nat.testBit_xor, Nat.testBit_shiftRight]
  all_goals
    cases a.testBit (1 + i) <;> cases b.testBit (1 + i) <;>
      cases Nat.testBit 3988292384 i <;> rfl

theorem crc32_reflected_bits_xor (n a b : Nat) :
    loop_n crc32_reflected_bit n (a ^^^ b)
      = loop_n crc32_reflected_bit n a ^^^ loop_n crc32_reflected_bit n b := by
  induction n generalizing a b with
  | zero => rfl
  | succ k ih =>
    show loop_n crc32_reflected_bit k (crc32_reflected_bit (a ^^^ b)) = _
    rw [crc32_reflected_bit_xor, ih]; rfl

theorem crc32_reflected_bits_shift (n h : Nat) :
    loop_n crc32_reflected_bit n (h <<< n) = h := by
  induction n generalizing h with
  | zero => simp [loop_n]
  | succ k ih =>
    show loop_n crc32_reflected_bit k (crc32_reflected_bit (h <<< (k + 1))) = _
    have e : crc32_reflected_bit (h <<< (k + 1)) = h <<< k := by
      unfold crc32_reflected_bit
      simp only [Nat.and_one_is_mod, Nat.shiftLeft_eq, Nat.shiftRight_eq_div_pow, pow_succ]
      have : h * (2 ^ k * 2) = 2 * (h * 2 ^ k) := by ring
      rw [this]
      simp
    rw [e, ih]

theorem split_low_byte (x : Nat) : x = (x % 256) ^^^ ((x >>> 8) <<< 8) := by
  apply Nat.eq_of_testBit_eq
  intro i
  have h256 : (256 : Nat) = 2 ^ 8 := by norm_num
  rw [h256]
  simp only [Nat.testBit_xor, Nat.testBit_mod_two_pow, Nat.testBit_shiftLeft,
    Nat.testBit_shiftRight]
  by_cases hi : i < 8
  · have : ¬ i ≥ 8 := by omega
    simp [hi, this]
  · have h8 : i ≥ 8 := by omega
    have e : 8 + (i - 8) = i := by omega
    simp [hi, h8, e]

set_option maxRecDepth 100000 in
theorem crctable_entries :
    crctable = (List.range 256).map (loop_n crc32_reflected_bit 8) := by
  rfl

theorem crctable_getD (i : Nat) (h : i < 256) :
    crctable.getD i 0 = loop_n crc32_reflected_bit 8 i := by
  rw [crctable_entries, List.getD_eq_getElem?_getD, List.getElem?_map,
    List.getElem?_range h]
  rfl

theorem halo_crc32_step_eq (crc b : Nat) (hb : b < 256) :
    halo_crc32_step crc b = crc32_reflected_byte crc b := by
  unfold halo_crc32_step crc32_reflected_byte
  have hm : (b ^^^ crc) &&& 0xff = (crc ^^^ b) % 256 := by
    rw [Nat.xor_comm]
    exact Nat.and_pow_two_sub_one_eq_mod (crc ^^^ b) 8
  have hs : (crc ^^^ b) >>> 8 = crc >>> 8 := by
    apply Nat.eq_of_testBit_eq
    intro i
    have hbi : b.testBit (8 + i) = false := by
      apply Nat.testBit_lt_two_pow
      calc b < 2 ^ 8 := by omega
        _ ≤ 2 ^ (8 + i) := Nat.pow_le_pow_right (by norm_num) (by omega)
    simp only [Nat.testBit_shiftRight, Nat.testBit_xor, hbi, Bool.xor_false]
  rw [hm, crctable_getD _ (Nat.mod_lt _ (by norm_num))]
  conv_rhs => rw [split_low_byte (crc ^^^ b)]
  rw [crc32_reflected_bits_xor, crc32_reflected_bits_shift, hs]

theorem halo_crc32_fold_eq (data : List Nat) (hb : bytes_ok data) (crc : Nat) :
    data.foldl halo_crc32_step crc = data.foldl crc32_reflected_byte crc := by
  induction data generalizing crc with
  | nil => rfl
  | cons b t ih =>
    simp only [List.foldl_cons]
    rw [halo_crc32_step_eq crc b (hb b (by simp)), ih (fun x hx => hb x (by simp [hx]))]

/-- C10: on every byte sequence the table-driven `halo_crc32` equals the bit-by-bit reflected
CRC-32 with polynomial `0xEDB88320`, initial register `0xFFFFFFFF` and no final XOR; it returns
`0xFFFFFFFF` for the empty buffer and `0x340BC6D9` for the ASCII bytes of "123456789". -/
theorem halo_crc32_eq_reflected (data : List Nat) (hb : bytes_ok data) :
    halo_crc32 data data.length = crc32_reflected data ∧
      halo_crc32 [] 0 = 0xFFFFFFFF ∧
      halo_crc32 [0x31, 0x32, 0x33, 0x34, 0x35, 0x36, 0x37, 0x38, 0x39] 9 = 0x340BC6D9 := by
  refine ⟨?_, rfl, by rfl⟩
  unfold halo_crc32 crc32_reflected
  rw [List.take_length]
  exact halo_crc32_fold_eq data hb _

/-- Witness for C10: the nine ASCII bytes of "123456789". -/
theorem halo_crc32_eq_reflected_witness :
    halo_crc32 [0x31, 0x32, 0x33, 0x34, 0x35, 0x36, 0x37, 0x38, 0x39]
        [0x31, 0x32, 0x33, 0x34, 0x35, 0x36, 0x37, 0x38, 0x39].length
      = crc32_reflected [0x31, 0x32, 0x33, 0x34, 0x35, 0x36, 0x37, 0x38, 0x39] ∧
      halo_crc32 [] 0 = 0xFFFFFFFF ∧
      halo_crc32 [0x31, 0x32, 0x33, 0x34, 0x35, 0x36, 0x37, 0x38, 0x39] 9 = 0x340BC6D9 :=
  halo_crc32_eq_reflected _ (by
    intro x hx
    simp only [List.mem_cons, List.mem_singleton, List.not_mem_nil, or_false] at hx
    omega)

theorem gssdkcr_fill_loop_length (src key : List Nat) (oz fuel i r : Nat) :
    (gssdkcr_fill_loop src key oz fuel i r).length = fuel := by
  induction fuel generalizing i r with
  | zero => rfl
  | succ k ih =>
    unfold gssdkcr_fill_loop
    split <;> simp [ih]

theorem gssdkcr_fill_loop_range (src key : List Nat) (oz fuel i r : Nat) :
    ∀ x ∈ gssdkcr_fill_loop src key oz fuel i r, 33 ≤ x ∧ x ≤ 125 := by
  induction fuel generalizing i r with
  | zero => intro x hx; simp [gssdkcr_fill_loop] at hx
  | succ k ih =>
    intro x hx
    unfold gssdkcr_fill_loop at hx
    split at hx
    · rcases List.mem_cons.1 hx with h | h
      · subst h; omega
      · exact ih _ _ x h
    · rcases List.mem_cons.1 hx with h | h
      · subst h; omega
      · exact ih _ _ x h

theorem gssdkcr_getD_lt (src : List Nat) (key : Option (List Nat)) (seed i : Nat)
    (hi : i < 32) :
    (gssdkcr src key seed).getD i 0 =
      (gssdkcr_fill_loop src (key.getD key_default)
        (gssdkcr_oz src) 32 0 (seed % 4294967296)).getD i 0 := by
  unfold gssdkcr
  simp only [List.getD_eq_getElem?_getD]
  rw [List.getElem?_append_left (by rw [gssdkcr_fill_loop_length]; exact hi)]

/-- C6: for every 32-byte challenge, every key string that is not empty (the `NULL` key stands
for the default key) and every 32-bit seed, `gssdkcr` writes 33 bytes and each of the 32
response bytes lies in `[33, 125]`. -/
theorem gssdkcr_response_range (src : List Nat) (key : Option (List Nat)) (seed : Nat)
    (hsrc : src.length = 32) (hkey : key ≠ some []) (hseed : seed < 4294967296) :
    (gssdkcr src key seed).length = 33 ∧
      ∀ i, i < 32 → 33 ≤ (gssdkcr src key seed).getD i 0 ∧ (gssdkcr src key seed).getD i 0 ≤ 125 := by
  have _ := hsrc; have _ := hkey; have _ := hseed
  constructor
  · simp [gssdkcr, gssdkcr_fill_loop_length]
  · intro i hi
    rw [gssdkcr_getD_lt src key seed i hi]
    apply gssdkcr_fill_loop_range src _ (gssdkcr_oz src) 32 0 (seed % 4294967296)
    rw [List.getD_eq_getElem?_getD, List.getElem?_eq_getElem (by
      rw [gssdkcr_fill_loop_length]; exact hi)]
    exact List.getElem_mem _

/-- Witness for C6: the Halo example challenge with the default key string and seed 0. -/
theorem gssdkcr_response_range_witness :
    (gssdkcr halo_example_challenge (some key_default) 0).length = 33 ∧
      ∀ i, i < 32 → 33 ≤ (gssdkcr halo_example_challenge (some key_default) 0).getD i 0 ∧
        (gssdkcr halo_example_challenge (some key_default) 0).getD i 0 ≤ 125 :=
  gssdkcr_response_range halo_example_challenge (some key_default) 0 (by decide) (by decide)
    (by decide)

theorem lcg_state_shift (seed n : Nat) :
    lcg_state ((seed * 0x343FD + 0x269EC3) % 4294967296) n = lcg_state seed (n + 1) := by
  induction n with
  | zero => simp only [lcg_state]
  | succ k ih =>
    rw [lcg_state, ih]
    simp only [lcg_state]

theorem gssdkcr_fill_loop_fail (src key : List Nat) (fuel i r j : Nat) (hj : j < fuel) :
    (gssdkcr_fill_loop src key 0 fuel i r).getD j 0 = lcg_output r (j + 1) := by
  induction fuel generalizing i r j with
  | zero => omega
  | succ k ih =>
    unfold gssdkcr_fill_loop
    rw [if_pos (Or.inl rfl)]
    cases j with
    | zero => rfl
    | succ m =>
      simp only [List.getD_cons_succ]
      rw [ih _ _ m (by omega)]
      unfold lcg_output
      rw [lcg_state_shift]

/-- C9: for every 32-byte challenge that fails the integrity check (`oz = 0`), whatever the
key, response byte `i` is the `(i+1)`-th output of the generator
`r := r*0x343FD + 0x269EC3 (mod 2^32)`, output `((r >> 16) & 0x7FFF) % 93 + 33`, started from
the seed; the response depends on neither the challenge bytes nor the key. -/
theorem gssdkcr_failed_check_is_lcg (src : List Nat) (key : Option (List Nat)) (seed : Nat)
    (hsrc : src.length = 32) (hseed : seed < 4294967296) (hoz : gssdkcr_oz src = 0) :
    ∀ i, i < 32 → (gssdkcr src key seed).getD i 0 = lcg_output seed (i + 1) := by
  have _ := hsrc
  intro i hi
  rw [gssdkcr_getD_lt src key seed i hi, hoz, Nat.mod_eq_of_lt hseed]
  exact gssdkcr_fill_loop_fail src _ 32 0 seed i hi

/-- Witness for C9: the challenge of 32 bytes `0x30` fails the check; its last response byte
with seed 7 is the 32nd output of the generator. -/
theorem gssdkcr_failed_check_is_lcg_witness :
    gssdkcr_oz (List.replicate 32 0x30) = 0 ∧
      (gssdkcr (List.replicate 32 0x30) none 7).getD 31 0 = lcg_output 7 (31 + 1) :=
  ⟨by decide, gssdkcr_failed_check_is_lcg (List.replicate 32 0x30) none 7 (by decide)
    (by decide) (by decide) 31 (by decide)⟩

theorem oz_words_stopped (src : List Nat) (k : Nat → Nat) (old tmp c : Nat) (l : List Nat) :
    l.foldl (oz_words_step src k old tmp) (c, 0, true) = (c, 0, true) := by
  induction l with
  | nil => rfl
  | cons a t ih => simp only [List.foldl_cons, oz_words_step, if_true, ih]

theorem gssdkcr_check_loop_words (src : List Nat) (old tmp fuel i count : Nat) :
    gssdkcr_check_loop src old tmp fuel (i + 1) i count =
      ((List.range' (i + 1) fuel).foldl (oz_words_step src (fun j => j - 1) old tmp)
        (count, 1, false)).2.1 := by
  induction fuel generalizing i count with
  | zero => rfl
  | succ n ih =>
    have hpar : src.getD (i + 1) 0 &&& 1 = 0 ∨ src.getD (i + 1) 0 &&& 1 = 1 := by
      rw [Nat.and_one_is_mod]; omega
    simp only [gssdkcr_check_loop, List.range'_succ, List.foldl_cons, oz_words_step,
      Bool.false_eq_true, if_false, Nat.add_sub_cancel]
    generalize count ^^^ ((if src.getD i 0 < old then 1 else 0) ^^^ ((old ^^^ (i + 1)) &&& 1)
      ^^^ (src.getD i 0 &&& 1) ^^^ tmp) = c
    by_cases hc : c = 0
    · rcases hpar with hp | hp
      · simp only [hc, hp, ne_eq, not_true_eq_false, if_false, and_true, false_and, true_and,
          or_self, zero_ne_one, or_false]
        exact ih (i + 1) 0
      · simp only [hc, hp, ne_eq, not_true_eq_false, if_false, one_ne_zero, not_false_eq_true,
          if_true, and_self, and_false, or_true, false_and, oz_words_stopped]
    · rcases hpar with hp | hp
      · simp only [hc, hp, ne_eq, not_false_eq_true, if_true, and_self, true_or,
          oz_words_stopped]
      · simp only [hc, hp, ne_eq, not_false_eq_true, if_true, one_ne_zero, if_false, and_false,
          false_and, or_self]
        exact ih (i + 1) c

/-- C8 (amended): for every 32-byte challenge `src` the flag `oz` computed by `gssdkcr` equals
the flag defined by `old = src[0]`, `tmp = (old < 0x4F)`, `count = 0`, `oz = 1`, then for
`i = 1..31` in order `count ^= (src[i-1] < old) ^ ((old ^ i) & 1) ^ (src[i-1] & 1) ^ tmp`,
`oz` being set to 0 and the loop stopped if `count != 0` and `src[i] & 1 == 0`, or
`count == 0` and `src[i] & 1 == 1`. -/
theorem gssdkcr_oz_eq_words (src : List Nat) (hsrc : src.length = 32) :
    gssdkcr_oz src = gssdkcr_oz_words (fun i => i - 1) src := by
  have _ := hsrc
  exact gssdkcr_check_loop_words src _ _ 31 0 0

/-- Witness for C8 (amended): the Halo example challenge. -/
theorem gssdkcr_oz_eq_words_witness :
    gssdkcr_oz halo_example_challenge = gssdkcr_oz_words (fun i => i - 1) halo_example_challenge :=
  gssdkcr_oz_eq_words halo_example_challenge (by decide)

/-- Counterexample to C8 as stated: with the parity term `src[i] & 1` the flag of the Halo
example challenge is 0, while `gssdkcr` computes `oz = 1` on it. -/
theorem gssdkcr_oz_words_counterexample :
    halo_example_challenge.length = 32 ∧
      gssdkcr_oz halo_example_challenge = 1 ∧
      gssdkcr_oz_words (fun i => i) halo_example_challenge = 0 := by
  decide

theorem lcg_hi_first (r r' : Nat) (h : r' = (r + 214013) % 4294967296) :
    r' / 65536 % 32768 = (r / 65536 % 32768 + 3) % 32768 ∨
    r' / 65536 % 32768 = (r / 65536 % 32768 + 4) % 32768 := by
  omega

theorem lcg_mod93_first (x x' : Nat) (hx : x < 32768) (h : x' = (x + 3) % 32768 ∨ x' = (x + 4) % 32768) :
    x % 93 ≠ x' % 93 := by
  omega

theorem lcg_hi_second (r r' : Nat) (h : r' = (r + 2851891209) % 4294967296) :
    r' / 65536 % 32768 = (r / 65536 % 32768 + 10748) % 32768 ∨
    r' / 65536 % 32768 = (r / 65536 % 32768 + 10749) % 32768 := by
  omega

theorem lcg_mod93_second (x x' : Nat) (hx : x < 32768) (h : x' = (x + 10748) % 32768 ∨ x' = (x + 10749) % 32768) :
    x % 93 ≠ x' % 93 := by
  omega

theorem lcg_byte_eq (r : Nat) :
    ((r >>> 16) &&& 0x7fff) % 93 + 33 = r / 65536 % 32768 % 93 + 33 := by
  have h : (r >>> 16) &&& 0x7fff = (r >>> 16) % 32768 :=
    Nat.and_pow_two_sub_one_eq_mod (r >>> 16) 15
  rw [h, Nat.shiftRight_eq_div_pow]

theorem lcg_byte_ne_first (r : Nat) :
    ((r >>> 16) &&& 0x7fff) % 93 + 33
      ≠ ((((r + 214013) % 4294967296) >>> 16) &&& 0x7fff) % 93 + 33 := by
  rw [lcg_byte_eq, lcg_byte_eq]
  have h := lcg_mod93_first _ _ (Nat.mod_lt _ (by norm_num)) (lcg_hi_first r _ rfl)
  exact fun hc => h (Nat.add_right_cancel hc)

theorem lcg_byte_ne_second (r : Nat) :
    ((r >>> 16) &&& 0x7fff) % 93 + 33
      ≠ ((((r + 2851891209) % 4294967296) >>> 16) &&& 0x7fff) % 93 + 33 := by
  rw [lcg_byte_eq, lcg_byte_eq]
  have h := lcg_mod93_second _ _ (Nat.mod_lt _ (by norm_num)) (lcg_hi_second r _ rfl)
  exact fun hc => h (Nat.add_right_cancel hc)

theorem lcg_step_succ (s : Nat) :
    ((s + 1) % 4294967296 * 214013 + 2531011) % 4294967296
      = ((s * 214013 + 2531011) % 4294967296 + 214013) % 4294967296 := by
  omega

theorem lcg_step_shift (r : Nat) :
    ((r + 214013) % 4294967296 * 214013 + 2531011) % 4294967296
      = ((r * 214013 + 2531011) % 4294967296 + 2851891209) % 4294967296 := by
  have h1 : ((r + 214013) % 4294967296 * 214013 + 2531011) % 4294967296
      = ((r + 214013) * 214013 + 2531011) % 4294967296 :=
    ((Nat.mod_modEq (r + 214013) 4294967296).mul_right 214013).add_right 2531011
  rw [h1]
  omega

theorem gssdkcr_fill_loop_rng (src key : List Nat) (oz fuel i r : Nat)
    (h : oz = 0 ∨ i = 0 ∨ i = 13) :
    gssdkcr_fill_loop src key oz (fuel + 1) i r =
      (((((r * 0x343FD + 0x269EC3) % 4294967296) >>> 16) &&& 0x7fff) % 93 + 33) ::
        gssdkcr_fill_loop src key oz fuel (i + 1) ((r * 0x343FD + 0x269EC3) % 4294967296) := by
  rw [gssdkcr_fill_loop, if_pos h]

theorem gssdkcr_fill_loop_keyed (src key : List Nat) (oz fuel i r : Nat)
    (h : ¬ (oz = 0 ∨ i = 0 ∨ i = 13)) :
    gssdkcr_fill_loop src key oz (fuel + 1) i r =
      gssdkcr_keyed_byte src key i :: gssdkcr_fill_loop src key oz fuel (i + 1) r := by
  rw [gssdkcr_fill_loop, if_neg h]
  rfl

theorem gssdkcr_fill_loop_tail (src key : List Nat) (fuel i r r' : Nat) (hi : 14 ≤ i) :
    gssdkcr_fill_loop src key 1 fuel i r = gssdkcr_fill_loop src key 1 fuel i r' := by
  induction fuel generalizing i with
  | zero => rfl
  | succ n ih =>
    have hc : ¬ (1 = 0 ∨ i = 0 ∨ i = 13) := by omega
    rw [gssdkcr_fill_loop_keyed _ _ _ _ _ _ hc, gssdkcr_fill_loop_keyed _ _ _ _ _ _ hc,
      ih (i + 1) (by omega)]

theorem gssdkcr_fill_loop_middle (src key : List Nat) (n r : Nat) (hn : n ≤ 12) :
    gssdkcr_fill_loop src key 1 (n + 19) (13 - n) r =
      gssdkcr_fill_loop src key 1 n (13 - n) 0 ++
        (((((r * 0x343FD + 0x269EC3) % 4294967296) >>> 16) &&& 0x7fff) % 93 + 33) ::
          gssdkcr_fill_loop src key 1 18 14 0 := by
  induction n with
  | zero =>
    have hc : (1 = 0 ∨ 13 = 0 ∨ 13 = 13) := by omega
    have e := gssdkcr_fill_loop_rng src key 1 18 13 r hc
    rw [gssdkcr_fill_loop_tail src key 18 14 _ 0 (by omega)] at e
    exact e
  | succ m ih =>
    have hc : ¬ (1 = 0 ∨ 13 - (m + 1) = 0 ∨ 13 - (m + 1) = 13) := by omega
    have e1 : m + 1 + 19 = (m + 19) + 1 := by omega
    have e2 : 13 - (m + 1) + 1 = 13 - m := by omega
    rw [e1, gssdkcr_fill_loop_keyed _ _ _ _ _ _ hc, gssdkcr_fill_loop_keyed _ _ _ _ _ _ hc,
      e2, ih (by omega)]
    rfl

theorem gssdkcr_fill_loop_pass (src key : List Nat) (r : Nat) :
    gssdkcr_fill_loop src key 1 32 0 r =
      (((((r * 0x343FD + 0x269EC3) % 4294967296) >>> 16) &&& 0x7fff) % 93 + 33) ::
        (gssdkcr_fill_loop src key 1 12 1 0 ++
          ((((((r * 0x343FD + 0x269EC3) % 4294967296 * 0x343FD + 0x269EC3) % 4294967296)
              >>> 16) &&& 0x7fff) % 93 + 33) ::
            gssdkcr_fill_loop src key 1 18 14 0) := by
  have h := gssdkcr_fill_loop_middle src key 12 ((r * 0x343FD + 0x269EC3) % 4294967296)
    (by omega)
  have hc : (1 = 0 ∨ 0 = 0 ∨ 0 = 13) := by omega
  rw [gssdkcr_fill_loop_rng src key 1 31 0 r hc]
  exact congrArg _ h

theorem getD_frame (a a' b b' : Nat) (P Q : List Nat) (hP : P.length = 12) (j : Nat) :
    ((a :: (P ++ b :: Q)).getD 0 0 = a) ∧ ((a :: (P ++ b :: Q)).getD 13 0 = b) ∧
      (j ≠ 0 → j ≠ 13 → (a :: (P ++ b :: Q)).getD j 0 = (a' :: (P ++ b' :: Q)).getD j 0) := by
  refine ⟨rfl, ?_, ?_⟩
  · show (P ++ b :: Q).getD 12 0 = b
    rw [List.getD_eq_getElem?_getD, List.getElem?_append_right (by omega)]
    simp [hP]
  · intro h0 h13
    cases j with
    | zero => exact absurd rfl h0
    | succ m =>
      rw [List.getD_cons_succ, List.getD_cons_succ, List.getD_eq_getElem?_getD,
        List.getD_eq_getElem?_getD]
      by_cases hm : m < 12
      · rw [List.getElem?_append_left (by omega), List.getElem?_append_left (by omega)]
      · rw [List.getElem?_append_right (by omega), List.getElem?_append_right (by omega)]
        have : m - P.length = (m - 13) + 1 := by omega
        rw [this]
        simp

theorem getD_frame_diff (a a' b b' : Nat) (P Q L L' : List Nat) (hP : P.length = 12)
    (hL : L = a :: (P ++ b :: Q)) (hL' : L' = a' :: (P ++ b' :: Q)) (ha : a ≠ a')
    (hb : b ≠ b') :
    L.getD 0 0 ≠ L'.getD 0 0 ∧ L.getD 13 0 ≠ L'.getD 13 0 ∧
      ∀ i, i ≠ 0 → i ≠ 13 → L.getD i 0 = L'.getD i 0 := by
  subst hL hL'
  refine ⟨ha, ?_, ?_⟩
  · rw [(getD_frame a a' b b' P Q hP 0).2.1, (getD_frame a' a b' b P Q hP 0).2.1]
    exact hb
  · intro i h0 h13
    exact (getD_frame a a' b b' P Q hP i).2.2 h0 h13

/-- C7: for every 32-byte challenge on which the integrity check of `gssdkcr` passes (`oz = 1`),
every key string that is not empty and every 32-bit seed `s`, the responses computed with seed
`s` and with seed `s + 1` differ at byte 0 and at byte 13 and are identical at every other
byte index. -/
theorem gssdkcr_seed_successor (src : List Nat) (key : Option (List Nat)) (s : Nat)
    (hsrc : src.length = 32) (hkey : key ≠ some []) (hs : s < 4294967296)
    (hoz : gssdkcr_oz src = 1) :
    (gssdkcr src key s).getD 0 0 ≠ (gssdkcr src key (s + 1)).getD 0 0 ∧
      (gssdkcr src key s).getD 13 0 ≠ (gssdkcr src key (s + 1)).getD 13 0 ∧
      ∀ i, i < 32 → i ≠ 0 → i ≠ 13 →
        (gssdkcr src key s).getD i 0 = (gssdkcr src key (s + 1)).getD i 0 := by
  have _ := hsrc; have _ := hkey
  have hP := gssdkcr_fill_loop_length src (key.getD key_default) 1 12 1 0
  have e1 := gssdkcr_fill_loop_pass src (key.getD key_default) s
  have e2 := gssdkcr_fill_loop_pass src (key.getD key_default) ((s + 1) % 4294967296)
  rw [lcg_step_succ s, lcg_step_shift] at e2
  have main := getD_frame_diff _ _ _ _ _ _ _ _ hP e1 e2 (lcg_byte_ne_first _)
    (lcg_byte_ne_second _)
  have hg : ∀ i, i < 32 → (gssdkcr src key s).getD i 0 =
      (gssdkcr_fill_loop src (key.getD key_default) 1 32 0 s).getD i 0 := by
    intro i hi
    rw [gssdkcr_getD_lt _ _ _ i hi, hoz, Nat.mod_eq_of_lt hs]
  have hg' : ∀ i, i < 32 → (gssdkcr src key (s + 1)).getD i 0 =
      (gssdkcr_fill_loop src (key.getD key_default) 1 32 0 ((s + 1) % 4294967296)).getD i 0 := by
    intro i hi
    rw [gssdkcr_getD_lt _ _ _ i hi, hoz]
  refine ⟨?_, ?_, ?_⟩
  · rw [hg 0 (by omega), hg' 0 (by omega)]; exact main.1
  · rw [hg 13 (by omega), hg' 13 (by omega)]; exact main.2.1
  · intro i hi h0 h13
    rw [hg i hi, hg' i hi]; exact main.2.2 i h0 h13

/-- Witness for C7: the Halo example challenge with the default key and seed 0. -/
theorem gssdkcr_seed_successor_witness :
    (gssdkcr halo_example_challenge none 0).getD 0 0
        ≠ (gssdkcr halo_example_challenge none (0 + 1)).getD 0 0 ∧
      (gssdkcr halo_example_challenge none 0).getD 13 0
        ≠ (gssdkcr halo_example_challenge none (0 + 1)).getD 13 0 ∧
      ∀ i, i < 32 → i ≠ 0 → i ≠ 13 →
        (gssdkcr halo_example_challenge none 0).getD i 0
          = (gssdkcr halo_example_challenge none (0 + 1)).getD i 0 :=
  gssdkcr_seed_successor halo_example_challenge none 0 (by decide) (by decide) (by decide)
    (by decide)

theorem be_val_append_singleton (l : List Nat) (b : Nat) :
    be_val (l ++ [b]) = be_val l * 256 + b := by
  simp [be_val, List.foldl_append]

theorem be_val_foldl (l : List Nat) (acc : Nat) :
    l.foldl (fun a b => a * 256 + b) acc = acc * 256 ^ l.length + be_val l := by
  induction l generalizing acc with
  | nil => simp [be_val]
  | cons b t ih =>
    simp only [List.foldl_cons, be_val, List.length_cons]
    rw [ih, ih (0 * 256 + b)]
    ring

theorem be_val_cons (b : Nat) (l : List Nat) :
    be_val (b :: l) = b * 256 ^ l.length + be_val l := by
  show List.foldl (fun a b => a * 256 + b) (0 * 256 + b) l = _
  rw [be_val_foldl]; ring

theorem be_val_nil : be_val [] = 0 := rfl

theorem bytes_ok_cons {b : Nat} {l : List Nat} (h : bytes_ok (b :: l)) :
    b < 256 ∧ bytes_ok l :=
  ⟨h b (by simp), fun x hx => h x (by simp [hx])⟩

theorem bytes_ok_cons_of {b : Nat} {l : List Nat} (hb : b < 256) (hl : bytes_ok l) :
    bytes_ok (b :: l) := by
  intro x hx
  rcases List.mem_cons.1 hx with h | h
  · rw [h]; exact hb
  · exact hl x h

theorem be_val_lt (l : List Nat) (h : bytes_ok l) : be_val l < 256 ^ l.length := by
  induction l with
  | nil => simp [be_val]
  | cons b t ih =>
    obtain ⟨hb, ht⟩ := bytes_ok_cons h
    have := ih ht
    rw [be_val_cons, List.length_cons, pow_succ]
    nlinarith

theorem shiftRight_eight (z : Nat) : z >>> 8 = z / 256 := by
  rw [Nat.shiftRight_eq_div_pow]

theorem shiftLeft_one (z : Nat) : z <<< 1 = z * 2 := by
  rw [Nat.shiftLeft_eq, pow_one]

theorem shl1_carry_spec (l : List Nat) (h : bytes_ok l) :
    (shl1_carry l).2.length = l.length ∧ bytes_ok (shl1_carry l).2 ∧
      (shl1_carry l).1 * 256 ^ l.length + be_val (shl1_carry l).2 = 2 * be_val l := by
  induction l with
  | nil => simp [shl1_carry, be_val, bytes_ok]
  | cons b t ih =>
    obtain ⟨hb, ht⟩ := bytes_ok_cons h
    obtain ⟨h1, h2, h3⟩ := ih ht
    simp only [shl1_carry, List.length_cons, be_val_cons, h1]
    refine ⟨trivial, bytes_ok_cons_of (Nat.mod_lt _ (by norm_num)) h2, ?_⟩
    rw [shiftRight_eight, shiftLeft_one, pow_succ 256 t.length]
    generalize (shl1_carry t).1 = c at h3 ⊢
    generalize be_val (shl1_carry t).2 = v at h3 ⊢
    generalize be_val t = w at h3 ⊢
    generalize 256 ^ t.length = W at h3 ⊢
    have hsplit : (c + b * 2) / 256 * 256 + (c + b * 2) % 256 = c + b * 2 := by
      omega
    calc (c + b * 2) / 256 * (W * 256) + ((c + b * 2) % 256 * W + v)
        = ((c + b * 2) / 256 * 256 + (c + b * 2) % 256) * W + v := by ring
      _ = (c + b * 2) * W + v := by rw [hsplit]
      _ = 2 * (b * W) + (c * W + v) := by ring
      _ = 2 * (b * W + w) := by rw [h3]; ring

theorem add_carry_spec (a b : List Nat) (hl : a.length = b.length) (ha : bytes_ok a)
    (hb : bytes_ok b) :
    (add_carry a b).2.length = a.length ∧ bytes_ok (add_carry a b).2 ∧
      (add_carry a b).1 * 256 ^ a.length + be_val (add_carry a b).2 = be_val a + be_val b := by
  induction a generalizing b with
  | nil =>
    cases b with
    | nil => simp [add_carry, be_val, bytes_ok]
    | cons y t => simp at hl
  | cons x s ih =>
    cases b with
    | nil => simp at hl
    | cons y t =>
      obtain ⟨hx, hs⟩ := bytes_ok_cons ha
      obtain ⟨hy, ht⟩ := bytes_ok_cons hb
      have hl' : s.length = t.length := by simpa using hl
      obtain ⟨h1, h2, h3⟩ := ih t hl' hs ht
      simp only [add_carry, List.length_cons, be_val_cons, h1]
      refine ⟨trivial, bytes_ok_cons_of (Nat.mod_lt _ (by norm_num)) h2, ?_⟩
      rw [shiftRight_eight, ← hl', pow_succ 256 s.length]
      generalize (add_carry s t).1 = c at h3 ⊢
      generalize be_val (add_carry s t).2 = v at h3 ⊢
      generalize be_val s = w at h3 ⊢
      generalize be_val t = w' at h3 ⊢
      generalize 256 ^ s.length = W at h3 ⊢
      have hsplit : (c + (x + y)) / 256 * 256 + (c + (x + y)) % 256 = c + (x + y) := by
        omega
      calc (c + (x + y)) / 256 * (W * 256) + ((c + (x + y)) % 256 * W + v)
          = ((c + (x + y)) / 256 * 256 + (c + (x + y)) % 256) * W + v := by ring
        _ = (c + (x + y)) * W + v := by rw [hsplit]
        _ = x * W + y * W + (c * W + v) := by ring
        _ = x * W + w + (y * W + w') := by rw [h3]; ring

theorem sub_borrow_spec (a b : List Nat) (hl : a.length = b.length) :
    (sub_borrow a b).2.length = a.length ∧ bytes_ok (sub_borrow a b).2 ∧
      (sub_borrow a b).1 * (256 : Int) ^ a.length + (be_val (sub_borrow a b).2 : Int)
        = (be_val a : Int) - (be_val b : Int) := by
  induction a generalizing b with
  | nil =>
    cases b with
    | nil => simp [sub_borrow, be_val, bytes_ok]
    | cons y t => simp at hl
  | cons x s ih =>
    cases b with
    | nil => simp at hl
    | cons y t =>
      have hl' : s.length = t.length := by simpa using hl
      obtain ⟨h1, h2, h3⟩ := ih t hl'
      simp only [sub_borrow, List.length_cons, be_val_cons, h1]
      refine ⟨trivial, bytes_ok_cons_of ?_ h2, ?_⟩
      · omega
      · rw [← hl']
        push_cast
        rw [pow_succ (256 : Int) s.length]
        generalize (sub_borrow s t).1 = c at h3 ⊢
        generalize (be_val (sub_borrow s t).2 : Int) = v at h3 ⊢
        generalize (be_val s : Int) = w at h3 ⊢
        generalize (be_val t : Int) = w' at h3 ⊢
        generalize (256 : Int) ^ s.length = W at h3 ⊢
        have hnn : 0 ≤ (c + ((x : Int) - (y : Int))) % 256 := Int.emod_nonneg _ (by norm_num)
        rw [Int.toNat_of_nonneg hnn]
        have hsplit : (c + ((x : Int) - (y : Int))) / 256 * 256
            + (c + ((x : Int) - (y : Int))) % 256 = c + ((x : Int) - (y : Int)) := by
          omega
        calc (c + ((x : Int) - (y : Int))) / 256 * (W * 256)
              + ((c + ((x : Int) - (y : Int))) % 256 * W + v)
            = ((c + ((x : Int) - (y : Int))) / 256 * 256
                + (c + ((x : Int) - (y : Int))) % 256) * W + v := by ring
          _ = (c + ((x : Int) - (y : Int))) * W + v := by rw [hsplit]
          _ = (x : Int) * W - (y : Int) * W + (c * W + v) := by ring
          _ = (x : Int) * W + w - ((y : Int) * W + w') := by rw [h3]; ring

theorem carry_or (c b : Nat) (hb : b < 256) : (256 * c) ||| b = 256 * c + b :=
  (Nat.mul_add_lt_is_or (show b < 2 ^ 8 from hb) c).symm

theorem shr1_loop_spec (l : List Nat) (c : Nat) (hc : c ≤ 1) (h : bytes_ok l) :
    (shr1_loop (256 * c) l).length = l.length ∧ bytes_ok (shr1_loop (256 * c) l) ∧
      ∃ bit, bit ≤ 1 ∧
        be_val (shr1_loop (256 * c) l) * 2 + bit = c * 256 ^ l.length + be_val l := by
  induction l generalizing c with
  | nil => exact ⟨rfl, fun x hx => by simp [shr1_loop] at hx, c, hc, by simp [shr1_loop, be_val]⟩
  | cons b t ih =>
    obtain ⟨hb, ht⟩ := bytes_ok_cons h
    have hnext : ((256 * c ||| b) &&& 1) <<< 8 = 256 * (b % 2) := by
      rw [carry_or c b hb, Nat.and_one_is_mod, Nat.shiftLeft_eq]
      omega
    have hbyte : ((256 * c ||| b) >>> 1) % 256 = (256 * c + b) / 2 := by
      rw [carry_or c b hb, Nat.shiftRight_eq_div_pow]
      omega
    obtain ⟨h1, h2, bit, hbit, h3⟩ := ih (b % 2) (by omega) ht
    simp only [shr1_loop, hnext, hbyte, List.length_cons, be_val_cons, h1]
    refine ⟨trivial, bytes_ok_cons_of (by omega) h2, bit, hbit, ?_⟩
    rw [pow_succ 256 t.length]
    generalize be_val (shr1_loop (256 * (b % 2)) t) = v at h3 ⊢
    generalize be_val t = w at h3 ⊢
    generalize 256 ^ t.length = W at h3 ⊢
    have hsplit : (256 * c + b) / 2 * 2 + b % 2 = 256 * c + b := by omega
    calc ((256 * c + b) / 2 * W + v) * 2 + bit
        = ((256 * c + b) / 2 * 2) * W + (v * 2 + bit) := by ring
      _ = ((256 * c + b) / 2 * 2) * W + (b % 2 * W + w) := by rw [h3]
      _ = ((256 * c + b) / 2 * 2 + b % 2) * W + w := by ring
      _ = (256 * c + b) * W + w := by rw [hsplit]
      _ = c * (W * 256) + (b * W + w) := by ring

theorem shr1_spec (l : List Nat) (h : bytes_ok l) :
    (shr1_loop 0 l).length = l.length ∧ bytes_ok (shr1_loop 0 l) ∧
      be_val (shr1_loop 0 l) = be_val l / 2 := by
  obtain ⟨h1, h2, bit, hbit, h3⟩ := shr1_loop_spec l 0 (by omega) h
  simp only [Nat.mul_zero, Nat.zero_mul, Nat.zero_add] at h1 h2 h3
  exact ⟨h1, h2, by omega⟩

theorem first_diff_spec (a b : List Nat) (hl : a.length = b.length) (ha : bytes_ok a)
    (hb : bytes_ok b) :
    (first_diff a b = none → a = b) ∧
      ∀ x y, first_diff a b = some (x, y) → (x > y ↔ be_val a > be_val b) := by
  induction a generalizing b with
  | nil =>
    cases b with
    | nil => simp [first_diff]
    | cons y t => simp at hl
  | cons x s ih =>
    cases b with
    | nil => simp at hl
    | cons y t =>
      obtain ⟨hx, hs⟩ := bytes_ok_cons ha
      obtain ⟨hy, ht⟩ := bytes_ok_cons hb
      have hl' : s.length = t.length := by simpa using hl
      obtain ⟨i1, i2⟩ := ih t hl' hs ht
      have hsl := be_val_lt s hs
      have htl := be_val_lt t ht
      rw [hl'] at hsl
      simp only [first_diff, be_val_cons, hl']
      generalize 256 ^ t.length = W at hsl htl ⊢
      by_cases hxy : x = y
      · subst hxy
        simp only [ne_eq, not_true_eq_false, if_false]
        refine ⟨fun hn => by rw [i1 hn], fun u v hf => ?_⟩
        rw [i2 u v hf]
        omega
      · simp only [ne_eq, hxy, not_false_eq_true, if_true, Option.some.injEq, Prod.mk.injEq]
        refine ⟨fun hn => absurd hn (by simp), fun u v huv => ?_⟩
        obtain ⟨rfl, rfl⟩ := huv
        constructor
        · intro hgt
          have : (y + 1) * W ≤ x * W := Nat.mul_le_mul_right W hgt
          nlinarith
        · intro hgt
          by_contra hle
          have hlt : x + 1 ≤ y := by omega
          have : (x + 1) * W ≤ y * W := Nat.mul_le_mul_right W hlt
          nlinarith

theorem halo_fix_check_spec (a m : List Nat) (hl : a.length = m.length) (ha : bytes_ok a)
    (hm : bytes_ok m) :
    (halo_fix_check a m).length = a.length ∧ bytes_ok (halo_fix_check a m) ∧
      be_val (halo_fix_check a m) = fix_check_nat (be_val a) (be_val m) := by
  obtain ⟨f1, f2⟩ := first_diff_spec a m hl ha hm
  obtain ⟨s1, s2, s3⟩ := sub_borrow_spec a m hl
  unfold halo_fix_check fix_check_nat
  cases hfd : first_diff a m with
  | none =>
    have := f1 hfd
    subst this
    simp [ha]
  | some p =>
    obtain ⟨x, y⟩ := p
    have hiff := f2 x y hfd
    simp only
    by_cases hxy : x > y
    · have hgt := hiff.1 hxy
      rw [if_pos hxy, if_pos hgt]
      refine ⟨s1, s2, ?_⟩
      have hr := be_val_lt _ s2
      have hA := be_val_lt a ha
      rw [s1] at hr
      have hW : (0 : Int) < 256 ^ a.length := by positivity
      have hr' : (be_val (sub_borrow a m).2 : Int) < 256 ^ a.length := by exact_mod_cast hr
      have hA' : (be_val a : Int) < 256 ^ a.length := by exact_mod_cast hA
      have hgt' : (be_val m : Int) < be_val a := by exact_mod_cast hgt
      generalize (256 : Int) ^ a.length = W at s3 hW hr' hA'
      generalize (sub_borrow a m).1 = j at s3
      have hj : j = 0 := by
        rcases lt_trichotomy j 0 with hneg | hz | hpos
        · have : j * W ≤ -1 * W := by
            apply mul_le_mul_of_nonneg_right _ hW.le
            omega
          have h0 : (0 : Int) ≤ (be_val (sub_borrow a m).2 : Int) := by positivity
          have h1 : (0 : Int) ≤ (be_val m : Int) := by positivity
          nlinarith
        · exact hz
        · have : 1 * W ≤ j * W := by
            apply mul_le_mul_of_nonneg_right _ hW.le
            omega
          have h0 : (0 : Int) ≤ (be_val (sub_borrow a m).2 : Int) := by positivity
          have h1 : (0 : Int) ≤ (be_val m : Int) := by positivity
          nlinarith
      rw [hj] at s3
      omega
    · have hngt : ¬ be_val a > be_val m := fun h => hxy (hiff.2 h)
      rw [if_neg hxy, if_neg hngt]
      exact ⟨rfl, ha, rfl⟩

theorem last_byte_parity (l : List Nat) (h : l.length = 16) :
    l.getD 15 0 &&& 1 = be_val l % 2 := by
  rcases List.eq_nil_or_concat l with hnil | ⟨init, x, hx⟩
  · subst hnil; simp at h
  · rw [List.concat_eq_append] at hx
    subst hx
    have hi : init.length = 15 := by simpa using h
    rw [be_val_append_singleton, List.getD_eq_getElem?_getD,
      List.getElem?_append_right (by omega), hi, Nat.and_one_is_mod]
    simp
    omega

theorem shl16 (l : List Nat) (h : wf16 l) :
    wf16 (shl1_carry l).2 ∧
      be_val (shl1_carry l).2 = (2 * be_val l) % 340282366920938463463374607431768211456 := by
  obtain ⟨h1, h2, h3⟩ := shl1_carry_spec l h.2
  have hv := be_val_lt _ h2
  rw [h1, h.1] at hv
  rw [h.1] at h3
  norm_num at hv h3
  exact ⟨⟨h1.trans h.1, h2⟩, by omega⟩

theorem add16 (a b : List Nat) (ha : wf16 a) (hb : wf16 b) :
    wf16 (add_carry a b).2 ∧
      be_val (add_carry a b).2
        = (be_val a + be_val b) % 340282366920938463463374607431768211456 := by
  obtain ⟨h1, h2, h3⟩ := add_carry_spec a b (ha.1.trans hb.1.symm) ha.2 hb.2
  have hv := be_val_lt _ h2
  rw [h1, ha.1] at hv
  rw [ha.1] at h3
  norm_num at hv h3
  exact ⟨⟨h1.trans ha.1, h2⟩, by omega⟩

theorem fix16 (a m : List Nat) (ha : wf16 a) (hm : wf16 m) :
    wf16 (halo_fix_check a m) ∧
      be_val (halo_fix_check a m) = fix_check_nat (be_val a) (be_val m) := by
  obtain ⟨h1, h2, h3⟩ := halo_fix_check_spec a m (ha.1.trans hm.1.symm) ha.2 hm.2
  exact ⟨⟨h1.trans ha.1, h2⟩, h3⟩

theorem shr16 (l : List Nat) (h : wf16 l) :
    wf16 (shr1_loop 0 l) ∧ be_val (shr1_loop 0 l) = be_val l / 2 := by
  obtain ⟨h1, h2, h3⟩ := shr1_spec l h.2
  exact ⟨⟨h1.trans h.1, h2⟩, h3⟩

theorem wf16_zero : wf16 (List.replicate 16 0) ∧ be_val (List.replicate 16 0) = 0 := by
  refine ⟨⟨rfl, ?_⟩, rfl⟩
  intro x hx
  rw [(List.mem_replicate.1 hx).2]
  norm_num

theorem loop_n_sim {σ τ : Type} (f : σ → σ) (g : τ → τ) (I : σ → Prop) (v : σ → τ)
    (hstep : ∀ st, I st → I (f st) ∧ v (f st) = g (v st)) (n : Nat) (st : σ) (h : I st) :
    I (loop_n f n st) ∧ v (loop_n f n st) = loop_n g n (v st) := by
  induction n generalizing st with
  | zero => exact ⟨h, rfl⟩
  | succ k ih =>
    obtain ⟨h1, h2⟩ := hstep st h
    have := ih (f st) h1
    rw [h2] at this
    exact this

theorem halo_key_scramble_body_sim (fixnumb : List Nat) (hf : wf16 fixnumb)
    (st : List Nat × List Nat × List Nat) (h : wf16 st.1 ∧ wf16 st.2.1 ∧ wf16 st.2.2) :
    (wf16 (halo_key_scramble_body fixnumb st).1 ∧ wf16 (halo_key_scramble_body fixnumb st).2.1 ∧
        wf16 (halo_key_scramble_body fixnumb st).2.2) ∧
      (be_val (halo_key_scramble_body fixnumb st).1,
        be_val (halo_key_scramble_body fixnumb st).2.1,
        be_val (halo_key_scramble_body fixnumb st).2.2)
        = key_scramble_body_nat (be_val fixnumb) (be_val st.1, be_val st.2.1, be_val st.2.2) := by
  obtain ⟨k1, t1, t2⟩ := st
  obtain ⟨hk, h1, h2⟩ := h
  simp only at hk h1 h2
  obtain ⟨a1, a2⟩ := add16 k1 t2 hk h2
  obtain ⟨b1, b2⟩ := fix16 _ fixnumb a1 hf
  obtain ⟨c1, c2⟩ := shr16 t1 h1
  obtain ⟨d1, d2⟩ := shl16 t2 h2
  obtain ⟨e1, e2⟩ := fix16 _ fixnumb d1 hf
  simp only [halo_key_scramble_body, key_scramble_body_nat, last_byte_parity t1 h1.1]
  by_cases hbit : be_val t1 % 2 ≠ 0
  · rw [if_pos hbit, if_pos hbit]
    exact ⟨⟨b1, c1, e1⟩, by rw [b2, a2, c2, e2, d2]⟩
  · rw [if_neg hbit, if_neg hbit]
    exact ⟨⟨hk, c1, e1⟩, by rw [c2, e2, d2]⟩

theorem halo_key_scramble_sim (key1 key2 fixnumb : List Nat) (h1 : wf16 key1)
    (h2 : wf16 key2) (hf : wf16 fixnumb) :
    wf16 (halo_key_scramble key1 key2 fixnumb) ∧
      be_val (halo_key_scramble key1 key2 fixnumb)
        = key_scramble_nat (be_val key1) (be_val key2) (be_val fixnumb) := by
  have h := loop_n_sim (halo_key_scramble_body fixnumb) (key_scramble_body_nat (be_val fixnumb))
    (fun st => wf16 st.1 ∧ wf16 st.2.1 ∧ wf16 st.2.2)
    (fun st => (be_val st.1, be_val st.2.1, be_val st.2.2))
    (halo_key_scramble_body_sim fixnumb hf) 128 (List.replicate 16 0, key1, key2)
    ⟨wf16_zero.1, h1, h2⟩
  obtain ⟨⟨w1, _, _⟩, hv⟩ := h
  refine ⟨w1, ?_⟩
  have := congrArg Prod.fst hv
  simp only [wf16_zero.2] at this
  exact this

theorem halo_create_key_body_sim (fixnumb : List Nat) (hf : wf16 fixnumb)
    (st : List Nat × List Nat × List Nat) (h : wf16 st.1 ∧ wf16 st.2.1 ∧ wf16 st.2.2) :
    (wf16 (halo_create_key_body fixnumb st).1 ∧ wf16 (halo_create_key_body fixnumb st).2.1 ∧
        wf16 (halo_create_key_body fixnumb st).2.2) ∧
      (be_val (halo_create_key_body fixnumb st).1,
        be_val (halo_create_key_body fixnumb st).2.1,
        be_val (halo_create_key_body fixnumb st).2.2)
        = create_key_body_nat (be_val fixnumb) (be_val st.1, be_val st.2.1, be_val st.2.2) := by
  obtain ⟨d, g, e⟩ := st
  obtain ⟨hd, hg, he⟩ := h
  simp only at hd hg he
  obtain ⟨a1, a2⟩ := halo_key_scramble_sim d g fixnumb hd hg hf
  obtain ⟨b1, b2⟩ := halo_key_scramble_sim g g fixnumb hg hg hf
  obtain ⟨c1, c2⟩ := shr16 e he
  simp only [halo_create_key_body, create_key_body_nat, last_byte_parity e he.1]
  by_cases hbit : be_val e % 2 ≠ 0
  · rw [if_pos hbit, if_pos hbit]
    exact ⟨⟨a1, b1, c1⟩, by rw [a2, b2, c2]⟩
  · rw [if_neg hbit, if_neg hbit]
    exact ⟨⟨hd, b1, c1⟩, by rw [b2, c2]⟩

theorem wf16_one : wf16 (List.replicate 15 0 ++ [0x01]) ∧
    be_val (List.replicate 15 0 ++ [0x01]) = 1 := by
  refine ⟨⟨rfl, ?_⟩, rfl⟩
  intro x hx
  rcases List.mem_append.1 hx with h | h
  · rw [(List.mem_replicate.1 h).2]; norm_num
  · rw [List.mem_singleton.1 h]; norm_num

theorem halo_create_key_loop_sim (dest keystrb randhashb fixnumb : List Nat) (hd : wf16 dest)
    (hg : wf16 keystrb) (he : wf16 randhashb) (hf : wf16 fixnumb) :
    wf16 (loop_n (halo_create_key_body fixnumb) 128 (dest, keystrb, randhashb)).1 ∧
      be_val (loop_n (halo_create_key_body fixnumb) 128 (dest, keystrb, randhashb)).1
        = (loop_n (create_key_body_nat (be_val fixnumb)) 128
            (be_val dest, be_val keystrb, be_val randhashb)).1 := by
  have h := loop_n_sim (halo_create_key_body fixnumb) (create_key_body_nat (be_val fixnumb))
    (fun st => wf16 st.1 ∧ wf16 st.2.1 ∧ wf16 st.2.2)
    (fun st => (be_val st.1, be_val st.2.1, be_val st.2.2))
    (halo_create_key_body_sim fixnumb hf) 128 (dest, keystrb, randhashb) ⟨hd, hg, he⟩
  obtain ⟨⟨w1, _, _⟩, hv⟩ := h
  exact ⟨w1, congrArg Prod.fst hv⟩

theorem fix_check_nat_eq_mod (x m : Nat) (hx : x < 2 * m) (hne : x ≠ m) :
    fix_check_nat x m = x % m := by
  unfold fix_check_nat
  by_cases h : x > m
  · rw [if_pos h]
    have e : x = (x - m) + m := by omega
    conv_rhs => rw [e, Nat.add_mod_right]
    rw [Nat.mod_eq_of_lt (by omega)]
  · rw [if_neg h, Nat.mod_eq_of_lt (by omega)]

theorem key_scramble_loop_inv (m a b : Nat) (hp : Nat.Prime m) (hodd : m % 2 = 1)
    (hm : 2 * m ≤ 340282366920938463463374607431768211456) (ha : a < m) (hb : b < m)
    (k : Nat) :
    loop_n (key_scramble_body_nat m) k (0, a, b)
      = ((a % 2 ^ k * b) % m, a / 2 ^ k, (b * 2 ^ k) % m) := by
  have hmpos : 0 < m := hp.pos
  induction k with
  | zero =>
    simp only [loop_n, pow_zero, Nat.mod_one, Nat.zero_mul, Nat.zero_mod, Nat.div_one,
      Nat.mul_one, Nat.mod_eq_of_lt hb]
  | succ k ih =>
    rw [loop_n_succ_last, ih]
    have ht2 : (b * 2 ^ k) % m < m := Nat.mod_lt _ hmpos
    have hk1 : (a % 2 ^ k * b) % m < m := Nat.mod_lt _ hmpos
    have hsplit : a % 2 ^ (k + 1) = a % 2 ^ k + 2 ^ k * (a / 2 ^ k % 2) := Nat.mod_pow_succ
    have e2 : fix_check_nat ((2 * ((b * 2 ^ k) % m)) % 340282366920938463463374607431768211456) m
        = (b * 2 ^ (k + 1)) % m := by
      rw [Nat.mod_eq_of_lt (by omega), fix_check_nat_eq_mod _ _ (by omega) (by omega),
        Nat.mul_mod, Nat.mod_mod, ← Nat.mul_mod, pow_succ]
      congr 1; ring
    have e1 : a / 2 ^ k / 2 = a / 2 ^ (k + 1) := by
      rw [Nat.div_div_eq_div_mul, pow_succ]
    simp only [key_scramble_body_nat]
    rw [e2, e1]
    by_cases hbit : a / 2 ^ k % 2 ≠ 0
    · rw [if_pos hbit]
      have hb1 : a / 2 ^ k % 2 = 1 := by omega
      rw [hb1, Nat.mul_one] at hsplit
      have hsum : ((a % 2 ^ k * b) % m + (b * 2 ^ k) % m) % m = (a % 2 ^ (k + 1) * b) % m := by
        rw [← Nat.add_mod, hsplit]
        congr 1; ring
      have hne : (a % 2 ^ k * b) % m + (b * 2 ^ k) % m ≠ m := by
        intro heq
        have h0 : (a % 2 ^ (k + 1) * b) % m = 0 := by
          rw [← hsum, heq, Nat.mod_self]
        have hdvd : m ∣ a % 2 ^ (k + 1) * b := Nat.dvd_of_mod_eq_zero h0
        rcases (Nat.Prime.dvd_mul hp).1 hdvd with h1 | h1
        · have hle : a % 2 ^ (k + 1) ≤ a := Nat.mod_le _ _
          have hpos : 0 < a % 2 ^ (k + 1) := by
            rw [hsplit]
            have : 0 < 2 ^ k := Nat.pos_pow_of_pos k (by norm_num)
            omega
          have := Nat.le_of_dvd hpos h1
          omega
        · have hb0 : b = 0 := Nat.eq_zero_of_dvd_of_lt h1 hb
          subst hb0
          simp at heq
          omega
      rw [Nat.mod_eq_of_lt (by omega), fix_check_nat_eq_mod _ _ (by omega) hne, hsum]
    · rw [if_neg hbit]
      have hb0 : a / 2 ^ k % 2 = 0 := by omega
      have hs2 : a % 2 ^ (k + 1) = a % 2 ^ k := by rw [hsplit, hb0, Nat.mul_zero, Nat.add_zero]
      rw [hs2]

theorem key_scramble_nat_eq (m a b : Nat) (hp : Nat.Prime m) (hodd : m % 2 = 1)
    (hm : 2 * m ≤ 340282366920938463463374607431768211456) (ha : a < m) (hb : b < m) :
    key_scramble_nat a b m = (a * b) % m := by
  unfold key_scramble_nat
  rw [key_scramble_loop_inv m a b hp hodd hm ha hb 128]
  have : a % 2 ^ 128 = a := Nat.mod_eq_of_lt (by norm_num; omega)
  simp only [this]

theorem create_key_loop_inv (m g e : Nat) (hp : Nat.Prime m) (hodd : m % 2 = 1)
    (hm : 2 * m ≤ 340282366920938463463374607431768211456) (hg : g < m) (k : Nat) :
    loop_n (create_key_body_nat m) k (1, g, e)
      = (g ^ (e % 2 ^ k) % m, g ^ 2 ^ k % m, e / 2 ^ k) := by
  have hmpos : 0 < m := hp.pos
  have hm1 : 1 < m := hp.one_lt
  induction k with
  | zero =>
    simp only [loop_n, pow_zero, Nat.mod_one, Nat.div_one, pow_one, Nat.mod_eq_of_lt hg,
      Nat.mod_eq_of_lt hm1]
  | succ k ih =>
    rw [loop_n_succ_last, ih]
    have hd : g ^ (e % 2 ^ k) % m < m := Nat.mod_lt _ hmpos
    have hgg : g ^ 2 ^ k % m < m := Nat.mod_lt _ hmpos
    have hsplit : e % 2 ^ (k + 1) = e % 2 ^ k + 2 ^ k * (e / 2 ^ k % 2) := Nat.mod_pow_succ
    have e1 : e / 2 ^ k / 2 = e / 2 ^ (k + 1) := by
      rw [Nat.div_div_eq_div_mul, pow_succ]
    have e2 : key_scramble_nat (g ^ 2 ^ k % m) (g ^ 2 ^ k % m) m = g ^ 2 ^ (k + 1) % m := by
      rw [key_scramble_nat_eq m _ _ hp hodd hm hgg hgg, ← Nat.mul_mod, ← pow_add, pow_succ]
      congr 2; ring
    simp only [create_key_body_nat]
    rw [e1, e2]
    by_cases hbit : e / 2 ^ k % 2 ≠ 0
    · rw [if_pos hbit]
      have hb1 : e / 2 ^ k % 2 = 1 := by omega
      rw [hb1, Nat.mul_one] at hsplit
      rw [key_scramble_nat_eq m _ _ hp hodd hm hd hgg, ← Nat.mul_mod, ← pow_add, hsplit]
    · rw [if_neg hbit]
      have hb0 : e / 2 ^ k % 2 = 0 := by omega
      have hs2 : e % 2 ^ (k + 1) = e % 2 ^ k := by rw [hsplit, hb0, Nat.mul_zero, Nat.add_zero]
      rw [hs2]

theorem create_key_nat_eq (g e : Nat) (hg : g < 65537)
    (he : e < 340282366920938463463374607431768211456) :
    create_key_nat g e 65537 = g ^ e % 65537 := by
  unfold create_key_nat
  rw [create_key_loop_inv 65537 g e (by norm_num) (by norm_num) (by norm_num) hg 128]
  have : e % 2 ^ 128 = e := Nat.mod_eq_of_lt (by norm_num; omega)
  simp only [this]

theorem hex_nibble_or (c : Nat) (h : is_hex_digit c) :
    hex_nibble (c ||| 0x20) = hex_digit_value c ∧ hex_digit_value c < 16 ∧ c ≠ 0 := by
  rcases h with ⟨h1, h2⟩ | ⟨h1, h2⟩ | ⟨h1, h2⟩ <;> interval_cases c <;> decide

theorem last_byte_mod (l : List Nat) (h : wf16 l) : l.getD 15 0 = be_val l % 256 := by
  rcases List.eq_nil_or_concat l with hnil | ⟨init, x, hx⟩
  · subst hnil; have := h.1; simp at this
  · rw [List.concat_eq_append] at hx
    subst hx
    have hi : init.length = 15 := by simpa using h.1
    have hxb : x < 256 := h.2 x (by simp)
    rw [be_val_append_singleton, List.getD_eq_getElem?_getD,
      List.getElem?_append_right (by omega), hi]
    simp
    omega

theorem set15_spec (l : List Nat) (h : wf16 l) (x : Nat) (hx : x < 256) :
    wf16 (l.set 15 x) ∧ be_val (l.set 15 x) + l.getD 15 0 = be_val l + x := by
  rcases List.eq_nil_or_concat l with hnil | ⟨init, y, hy⟩
  · subst hnil; have := h.1; simp at this
  · rw [List.concat_eq_append] at hy
    subst hy
    have hi : init.length = 15 := by simpa using h.1
    have hset : (init ++ [y]).set 15 x = init ++ [x] := by
      rw [List.set_append_right 15 x (by omega), hi]
      rfl
    rw [hset, be_val_append_singleton, be_val_append_singleton, List.getD_eq_getElem?_getD,
      List.getElem?_append_right (by omega), hi]
    refine ⟨⟨by simp [hi], ?_⟩, by simp; omega⟩
    intro z hz
    rcases List.mem_append.1 hz with hz | hz
    · exact h.2 z (List.mem_append_left _ hz)
    · rw [List.mem_singleton.1 hz]; exact hx

theorem low_nibble_or (x d : Nat) (hx : x % 16 = 0) (hd : d < 16) : x ||| d = x + d := by
  have e : x = 2 ^ 4 * (x / 16) := by omega
  rw [e]
  exact (Nat.mul_add_lt_is_or (show d < 2 ^ 4 from hd) (x / 16)).symm

theorem hex2byte_step (out : List Nat) (h : wf16 out) (c : Nat) (hc : is_hex_digit c) :
    wf16 ((loop_n (fun o => (shl1_carry o).2) 4 out).set 15
        (((loop_n (fun o => (shl1_carry o).2) 4 out).getD 15 0 ||| hex_nibble (c ||| 0x20))
          % 256)) ∧
      be_val ((loop_n (fun o => (shl1_carry o).2) 4 out).set 15
        (((loop_n (fun o => (shl1_carry o).2) 4 out).getD 15 0 ||| hex_nibble (c ||| 0x20))
          % 256))
        = (be_val out * 16 + hex_digit_value c) % 340282366920938463463374607431768211456 := by
  obtain ⟨hn, hd, _⟩ := hex_nibble_or c hc
  obtain ⟨a1, a2⟩ := shl16 out h
  obtain ⟨b1, b2⟩ := shl16 _ a1
  obtain ⟨c1, c2⟩ := shl16 _ b1
  obtain ⟨d1, d2⟩ := shl16 _ c1
  have e4 : loop_n (fun o => (shl1_carry o).2) 4 out
      = (shl1_carry (shl1_carry (shl1_carry (shl1_carry out).2).2).2).2 := rfl
  rw [e4, hn]
  generalize (shl1_carry (shl1_carry (shl1_carry (shl1_carry out).2).2).2).2 = o4 at d1 d2 ⊢
  have hv : be_val o4 = (16 * be_val out) % 340282366920938463463374607431768211456 := by
    rw [d2, c2, b2, a2]; omega
  have hlast := last_byte_mod o4 d1
  have hx16 : o4.getD 15 0 % 16 = 0 := by rw [hlast, hv]; omega
  have hxl : o4.getD 15 0 < 256 := by rw [hlast]; exact Nat.mod_lt _ (by norm_num)
  rw [low_nibble_or _ _ hx16 hd, Nat.mod_eq_of_lt (by omega)]
  obtain ⟨s1, s2⟩ := set15_spec o4 d1 (o4.getD 15 0 + hex_digit_value c) (by omega)
  refine ⟨s1, ?_⟩
  omega

theorem hex_fold_mod (acc : Nat) (s : List Nat) :
    hex_fold (acc % 340282366920938463463374607431768211456) s
        % 340282366920938463463374607431768211456
      = hex_fold acc s % 340282366920938463463374607431768211456 := by
  induction s generalizing acc with
  | nil => simp [hex_fold]
  | cons c t ih =>
    simp only [hex_fold, List.foldl_cons] at ih ⊢
    rw [← ih (acc % 340282366920938463463374607431768211456 * 16 + hex_digit_value c),
      ← ih (acc * 16 + hex_digit_value c)]
    congr 2
    omega

theorem halo_hex2byte_loop_cons (c : Nat) (rest out : List Nat) (hc : c ≠ 0) :
    halo_hex2byte_loop (c :: rest) out =
      ((c ||| 0x20) :: (halo_hex2byte_loop rest
          ((loop_n (fun o => (shl1_carry o).2) 4 out).set 15
            (((loop_n (fun o => (shl1_carry o).2) 4 out).getD 15 0 ||| hex_nibble (c ||| 0x20))
              % 256))).1,
        (halo_hex2byte_loop rest
          ((loop_n (fun o => (shl1_carry o).2) 4 out).set 15
            (((loop_n (fun o => (shl1_carry o).2) 4 out).getD 15 0 ||| hex_nibble (c ||| 0x20))
              % 256))).2) := by
  rw [halo_hex2byte_loop, if_neg hc]

theorem halo_hex2byte_loop_stop (rest out : List Nat) :
    halo_hex2byte_loop (0 :: rest) out = (0 :: rest, out) := by
  rw [halo_hex2byte_loop, if_pos rfl]

theorem halo_hex2byte_loop_spec (digits tail out : List Nat) (hd : ∀ c ∈ digits, is_hex_digit c)
    (ho : wf16 out) :
    wf16 (halo_hex2byte_loop (digits ++ 0 :: tail) out).2 ∧
      be_val (halo_hex2byte_loop (digits ++ 0 :: tail) out).2
        = hex_fold (be_val out) digits % 340282366920938463463374607431768211456 ∧
      (halo_hex2byte_loop (digits ++ 0 :: tail) out).1
        = digits.map (fun c => c ||| 0x20) ++ 0 :: tail := by
  induction digits generalizing out with
  | nil =>
    have hv := be_val_lt out ho.2
    rw [ho.1] at hv
    norm_num at hv
    rw [List.nil_append, halo_hex2byte_loop_stop]
    exact ⟨ho, (Nat.mod_eq_of_lt hv).symm, rfl⟩
  | cons c t ih =>
    have hc := hd c (by simp)
    obtain ⟨_, _, hc0⟩ := hex_nibble_or c hc
    obtain ⟨s1, s2⟩ := hex2byte_step out ho c hc
    obtain ⟨i1, i2, i3⟩ := ih _ (fun x hx => hd x (by simp [hx])) s1
    rw [List.cons_append, halo_hex2byte_loop_cons c _ out hc0]
    refine ⟨i1, ?_, ?_⟩
    · show be_val (halo_hex2byte_loop (t ++ 0 :: tail) _).2 = _
      rw [i2, s2, hex_fold_mod]
      rfl
    · show (c ||| 0x20) :: (halo_hex2byte_loop (t ++ 0 :: tail) _).1 = _
      rw [i3]
      rfl

theorem be_encode_be_val (l : List Nat) (h : bytes_ok l) :
    be_encode l.length (be_val l) = l := by
  induction l using List.reverseRecOn with
  | nil => rfl
  | append_singleton init x ih =>
    have hx : x < 256 := h x (by simp)
    have hi : bytes_ok init := fun z hz => h z (List.mem_append_left _ hz)
    rw [List.length_append, List.length_singleton, be_val_append_singleton, be_encode]
    have e1 : (be_val init * 256 + x) / 256 = be_val init := by omega
    have e2 : (be_val init * 256 + x) % 256 = x := by omega
    rw [e1, e2, ih hi]

theorem wf16_eq_encode (l : List Nat) (h : wf16 l) : l = be_encode 16 (be_val l) := by
  have := be_encode_be_val l h.2
  rw [h.1] at this
  exact this.symm

theorem hex_fold_lt (s : List Nat) (hs : ∀ c ∈ s, is_hex_digit c) (acc : Nat) :
    hex_fold acc s < (acc + 1) * 16 ^ s.length := by
  induction s generalizing acc with
  | nil => simp [hex_fold]
  | cons c t ih =>
    obtain ⟨_, hd, _⟩ := hex_nibble_or c (hs c (by simp))
    have h := ih (fun x hx => hs x (by simp [hx])) (acc * 16 + hex_digit_value c)
    have hle : (acc * 16 + hex_digit_value c + 1) * 16 ^ t.length
        ≤ ((acc + 1) * 16) * 16 ^ t.length := Nat.mul_le_mul_right _ (by omega)
    simp only [hex_fold, List.foldl_cons, List.length_cons, pow_succ] at h ⊢
    calc _ < (acc * 16 + hex_digit_value c + 1) * 16 ^ t.length := h
      _ ≤ ((acc + 1) * 16) * 16 ^ t.length := hle
      _ = (acc + 1) * (16 ^ t.length * 16) := by ring

theorem halo_hex2byte_spec (digits tail : List Nat) (hd : ∀ c ∈ digits, is_hex_digit c)
    (hlen : digits.length ≤ 32) :
    wf16 (halo_hex2byte (digits ++ 0 :: tail)).2 ∧
      be_val (halo_hex2byte (digits ++ 0 :: tail)).2 = hex_value digits := by
  obtain ⟨h1, h2, _⟩ := halo_hex2byte_loop_spec digits tail (List.replicate 16 0) hd wf16_zero.1
  refine ⟨h1, ?_⟩
  unfold halo_hex2byte
  rw [h2, wf16_zero.2]
  have hlt := hex_fold_lt digits hd 0
  have hpow : 16 ^ digits.length ≤ 16 ^ 32 := Nat.pow_le_pow_right (by norm_num) hlen
  norm_num at hpow hlt
  show hex_fold 0 digits % _ = hex_fold 0 digits
  exact Nat.mod_eq_of_lt (by omega)

theorem halo_create_key_spec (kd ed : List Nat) (hk : ∀ c ∈ kd, is_hex_digit c)
    (he : ∀ c ∈ ed, is_hex_digit c) (hkl : kd.length ≤ 32) (hel : ed.length ≤ 32)
    (hg : hex_value kd < 65537) :
    (halo_create_key (kd ++ [0]) (ed ++ [0]) [0x31, 0x30, 0x30, 0x30, 0x31, 0]).2
      = be_encode 16 (hex_value kd ^ hex_value ed % 65537) := by
  obtain ⟨k1, k2⟩ := halo_hex2byte_spec kd [] hk hkl
  obtain ⟨e1, e2⟩ := halo_hex2byte_spec ed [] he hel
  obtain ⟨f1, f2⟩ := halo_hex2byte_spec [0x31, 0x30, 0x30, 0x30, 0x31] [] (by decide)
    (by decide)
  have f3 : hex_value [0x31, 0x30, 0x30, 0x30, 0x31] = 65537 := by decide
  rw [f3] at f2
  obtain ⟨l1, l2⟩ := halo_create_key_loop_sim _ _ _ _ wf16_one.1 k1 e1 f1
  rw [wf16_one.2, k2, e2, f2] at l2
  have hlt : hex_value ed < 340282366920938463463374607431768211456 := by
    have := be_val_lt _ e1.2
    rw [e1.1, e2] at this
    norm_num at this
    exact this
  have hv := create_key_nat_eq (hex_value kd) (hex_value ed) hg hlt
  unfold create_key_nat at hv
  rw [hv] at l2
  have := wf16_eq_encode _ l1
  rw [l2] at this
  exact this

theorem hex_table_nibble (n : Nat) (h : n < 16) :
    is_hex_digit (hex_table.getD n 0) ∧ hex_digit_value (hex_table.getD n 0) = n := by
  interval_cases n <;> decide

theorem halo_create_randhash_loop_spec (fuel r : Nat) :
    (halo_create_randhash_loop fuel r).length = fuel ∧
      ∀ c ∈ halo_create_randhash_loop fuel r, is_hex_digit c := by
  induction fuel generalizing r with
  | zero => exact ⟨rfl, fun c hc => by simp [halo_create_randhash_loop] at hc⟩
  | succ k ih =>
    obtain ⟨h1, h2⟩ := ih ((r * 0x343FD + 0x269EC3) % 4294967296)
    simp only [halo_create_randhash_loop, List.length_cons, h1, List.mem_cons]
    refine ⟨trivial, fun c hc => ?_⟩
    rcases hc with hc | hc
    · rw [hc]
      have hm : ((r * 0x343FD + 0x269EC3) % 4294967296) >>> 16 &&& 15 < 16 := by
        have := Nat.and_pow_two_sub_one_eq_mod
          (((r * 0x343FD + 0x269EC3) % 4294967296) >>> 16) 4
        have e : (2 : Nat) ^ 4 - 1 = 15 := by norm_num
        rw [e] at this
        rw [this]
        exact Nat.mod_lt _ (by norm_num)
      exact (hex_table_nibble _ hm).1
    · exact h2 c hc

/-- C3: for every private key `e` given as 16 hex digits, `halo_create_key` with base "3",
exponent `e` and modulus "10001" yields the 16-byte big-endian encoding of `3^e mod 65537`; and
for every seed this is the key `halo_generate_keys` computes when the source key is absent,
`e` being the 16 hex digits it has drawn into `hash`. -/
theorem halo_generate_keys_public (digits : List Nat) (hlen : digits.length = 16)
    (hd : ∀ c ∈ digits, is_hex_digit c) :
    (halo_create_key [0x33, 0] (digits ++ [0]) [0x31, 0x30, 0x30, 0x30, 0x31, 0]).2
        = be_encode 16 (3 ^ hex_value digits % 65537) ∧
      ∀ hash seed, (halo_generate_keys hash none seed).2
        = be_encode 16
            (3 ^ hex_value (halo_create_randhash_loop 16 (seed % 4294967296)) % 65537) := by
  have h3 : hex_value [0x33] = 3 := by decide
  constructor
  · have := halo_create_key_spec [0x33] digits (by decide) hd (by decide) (by omega)
      (by rw [h3]; norm_num)
    rw [h3] at this
    exact this
  · intro hash seed
    obtain ⟨r1, r2⟩ := halo_create_randhash_loop_spec 16 (seed % 4294967296)
    have := halo_create_key_spec [0x33] (halo_create_randhash_loop 16 (seed % 4294967296))
      (by decide) r2 (by decide) (by omega) (by rw [h3]; norm_num)
    rw [h3] at this
    exact this

/-- Witness for C3: the private key `0C3D4D550CF0B4EC`. -/
theorem halo_generate_keys_public_witness :
    (halo_create_key [0x33, 0]
        ([0x30, 0x43, 0x33, 0x44, 0x34, 0x44, 0x35, 0x35, 0x30, 0x43, 0x46, 0x30, 0x42, 0x34,
          0x45, 0x43] ++ [0]) [0x31, 0x30, 0x30, 0x30, 0x31, 0]).2
        = be_encode 16 (3 ^ hex_value [0x30, 0x43, 0x33, 0x44, 0x34, 0x44, 0x35, 0x35, 0x30,
            0x43, 0x46, 0x30, 0x42, 0x34, 0x45, 0x43] % 65537) ∧
      ∀ hash seed, (halo_generate_keys hash none seed).2
        = be_encode 16
            (3 ^ hex_value (halo_create_randhash_loop 16 (seed % 4294967296)) % 65537) :=
  halo_generate_keys_public _ (by decide) (by decide)

theorem be_val_dropWhile_zero (l : List Nat) :
    be_val (l.dropWhile (fun b => b == 0)) = be_val l := by
  induction l with
  | nil => rfl
  | cons b t ih =>
    by_cases hb : b = 0
    · subst hb
      rw [List.dropWhile_cons_of_pos (by simp), ih, be_val_cons]
      simp
    · rw [List.dropWhile_cons_of_neg (by simpa using hb)]

theorem hex_pairs_spec (bytes : List Nat) (hb : bytes_ok bytes) :
    (∀ c ∈ bytes.flatMap
        (fun b => [hex_table.getD (b >>> 4) 0, hex_table.getD (b &&& 15) 0]),
        is_hex_digit c) ∧
      (bytes.flatMap
        (fun b => [hex_table.getD (b >>> 4) 0, hex_table.getD (b &&& 15) 0])).length
        = 2 * bytes.length ∧
      ∀ acc, hex_fold acc (bytes.flatMap
        (fun b => [hex_table.getD (b >>> 4) 0, hex_table.getD (b &&& 15) 0]))
        = acc * 256 ^ bytes.length + be_val bytes := by
  induction bytes with
  | nil => exact ⟨fun c hc => by simp at hc, rfl, fun acc => by simp [hex_fold, be_val]⟩
  | cons b t ih =>
    obtain ⟨hbb, ht⟩ := bytes_ok_cons hb
    obtain ⟨i1, i2, i3⟩ := ih ht
    have e1 : b >>> 4 = b / 16 := by rw [Nat.shiftRight_eq_div_pow]
    have e2 : b &&& 15 = b % 16 := Nat.and_pow_two_sub_one_eq_mod b 4
    obtain ⟨p1, p2⟩ := hex_table_nibble (b / 16) (by omega)
    obtain ⟨q1, q2⟩ := hex_table_nibble (b % 16) (by omega)
    rw [List.flatMap_cons, e1, e2]
    refine ⟨?_, ?_, ?_⟩
    · intro c hc
      rcases List.mem_append.1 hc with h | h
      · simp only [List.mem_cons, List.mem_singleton, List.not_mem_nil, or_false] at h
        rcases h with h | h
        · rw [h]; exact p1
        · rw [h]; exact q1
      · exact i1 c h
    · rw [List.length_append, i2]
      simp only [List.length_cons, List.length_nil]
      omega
    · intro acc
      have hf : hex_fold acc ([hex_table.getD (b / 16) 0, hex_table.getD (b % 16) 0] ++
          t.flatMap (fun b => [hex_table.getD (b >>> 4) 0, hex_table.getD (b &&& 15) 0]))
          = hex_fold (acc * 256 + b) (t.flatMap
            (fun b => [hex_table.getD (b >>> 4) 0, hex_table.getD (b &&& 15) 0])) := by
        simp only [hex_fold, List.foldl_append, List.foldl_cons, List.foldl_nil, p2, q2]
        congr 1
        omega
      rw [hf, i3, be_val_cons, List.length_cons, pow_succ]
      ring

/-- C11: for every 16-byte value `x`, `halo_hex2byte(halo_byte2hex(x)) = x`. -/
theorem halo_hex2byte_byte2hex (x : List Nat) (h : wf16 x) :
    (halo_hex2byte (halo_byte2hex x)).2 = x := by
  have hdrop : bytes_ok (x.dropWhile (fun b => b == 0)) :=
    fun z hz => h.2 z ((List.dropWhile_sublist _).subset hz)
  have hlen : (x.dropWhile (fun b => b == 0)).length ≤ 16 := by
    have := (List.dropWhile_sublist (fun b => b == 0) (l := x)).length_le
    rw [h.1] at this
    exact this
  obtain ⟨p1, p2, p3⟩ := hex_pairs_spec _ hdrop
  obtain ⟨w1, w2⟩ := halo_hex2byte_spec _ [] p1 (by rw [p2]; omega)
  have hv : be_val (halo_hex2byte (halo_byte2hex x)).2 = be_val x := by
    unfold halo_byte2hex
    rw [w2]
    show hex_fold 0 _ = _
    rw [p3 0, be_val_dropWhile_zero]
    simp
  have e1 := wf16_eq_encode _ w1
  have e2 := wf16_eq_encode x h
  unfold halo_byte2hex at hv ⊢
  rw [e1, hv, ← e2]

/-- C4 (amended): for every 16-byte source (peer public) key `P` whose big-endian value is
below `0x10001` and every private key `e` of 16 hex digits, `halo_generate_keys(e, P, dest)`
leaves `dest` equal to the 16-byte big-endian encoding of `P^e mod 0x10001`. -/
theorem halo_generate_keys_shared (P digits : List Nat) (seed : Nat) (hP : wf16 P)
    (hlt : be_val P < 0x10001) (hlen : digits.length = 16)
    (hd : ∀ c ∈ digits, is_hex_digit c) :
    (halo_generate_keys (digits ++ [0]) (some P) seed).2
      = be_encode 16 (be_val P ^ hex_value digits % 0x10001) := by
  have hdrop : bytes_ok (P.dropWhile (fun b => b == 0)) :=
    fun z hz => hP.2 z ((List.dropWhile_sublist _).subset hz)
  have hl : (P.dropWhile (fun b => b == 0)).length ≤ 16 := by
    have := (List.dropWhile_sublist (fun b => b == 0) (l := P)).length_le
    rw [hP.1] at this
    exact this
  obtain ⟨p1, p2, p3⟩ := hex_pairs_spec _ hdrop
  have hv : hex_value ((P.dropWhile (fun b => b == 0)).flatMap
      (fun b => [hex_table.getD (b >>> 4) 0, hex_table.getD (b &&& 15) 0])) = be_val P := by
    show hex_fold 0 _ = _
    rw [p3 0, be_val_dropWhile_zero]
    simp
  have := halo_create_key_spec _ digits p1 hd (by rw [p2]; omega) (by omega)
    (by rw [hv]; exact hlt)
  rw [hv] at this
  exact this

/-- Witness for C4 (amended): the peer key `0x1234` and the private key
`0C3D4D550CF0B4EC`. -/
theorem halo_generate_keys_shared_witness :
    (halo_generate_keys
        ([0x30, 0x43, 0x33, 0x44, 0x34, 0x44, 0x35, 0x35, 0x30, 0x43, 0x46, 0x30, 0x42, 0x34,
          0x45, 0x43] ++ [0])
        (some [0, 0, 0, 0, 0, 0, 0, 0, 0, 0, 0, 0, 0, 0, 0x12, 0x34]) 0).2
      = be_encode 16 (be_val [0, 0, 0, 0, 0, 0, 0, 0, 0, 0, 0, 0, 0, 0, 0x12, 0x34]
          ^ hex_value [0x30, 0x43, 0x33, 0x44, 0x34, 0x44, 0x35, 0x35, 0x30, 0x43, 0x46, 0x30,
            0x42, 0x34, 0x45, 0x43] % 0x10001) :=
  halo_generate_keys_shared _ _ 0 ⟨by decide, by decide⟩ (by decide) (by decide) (by decide)

set_option maxRecDepth 1000000 in
/-- Counterexample to C4 as stated: with the source key `P = 0x10001` and the private key
`0000000000000001`, `dest` is left equal to `0x10001`, not to `P^1 mod 0x10001 = 0`. -/
theorem halo_generate_keys_shared_counterexample :
    (halo_generate_keys
        [0x30, 0x30, 0x30, 0x30, 0x30, 0x30, 0x30, 0x30, 0x30, 0x30, 0x30, 0x30, 0x30, 0x30,
          0x30, 0x31, 0]
        (some [0, 0, 0, 0, 0, 0, 0, 0, 0, 0, 0, 0, 0, 1, 0, 1]) 0).2
      ≠ be_encode 16 (be_val [0, 0, 0, 0, 0, 0, 0, 0, 0, 0, 0, 0, 0, 1, 0, 1]
          ^ hex_value [0x30, 0x30, 0x30, 0x30, 0x30, 0x30, 0x30, 0x30, 0x30, 0x30, 0x30, 0x30,
            0x30, 0x30, 0x30, 0x31] % 0x10001) := by
  decide

theorem or_space_ne_zero (c : Nat) : c ||| 0x20 ≠ 0 := by
  intro h
  have := congrArg (fun z => z.testBit 5) h
  simp at this
  exact absurd this.2 (by decide)

theorem halo_hex2byte_loop_idem (s out : List Nat) :
    halo_hex2byte_loop (halo_hex2byte_loop s out).1 out = halo_hex2byte_loop s out := by
  induction s generalizing out with
  | nil => rfl
  | cons c rest ih =>
    by_cases hc : c = 0
    · subst hc
      rw [halo_hex2byte_loop_stop, halo_hex2byte_loop_stop]
    · rw [halo_hex2byte_loop_cons c rest out hc]
      simp only
      rw [halo_hex2byte_loop_cons _ _ out (or_space_ne_zero c), Nat.or_assoc, Nat.or_self, ih]

theorem halo_create_key_rehash (keystr randhash fixnum : List Nat) :
    (halo_create_key keystr (halo_create_key keystr randhash fixnum).1 fixnum).2
      = (halo_create_key keystr randhash fixnum).2 := by
  unfold halo_create_key halo_hex2byte
  simp only [halo_hex2byte_loop_idem]

/-- C5: for every peer public key and every random seed, the session built by the
`Server::Client` constructor has `m_dec_key` equal to `m_enc_key` byte for byte. -/
theorem client_dec_key_eq_enc_key (address : Nat × Nat) (client_public_key : List Nat)
    (seed : Nat) :
    (Client.create address client_public_key seed).m_dec_key
      = (Client.create address client_public_key seed).m_enc_key := by
  simp only [Client.create, halo_generate_keys]
  rw [halo_create_key_rehash]

/-- Witness for C11: the 16-byte value `00 .. 00 AB CD EF 01 23`. -/
theorem halo_hex2byte_byte2hex_witness :
    (halo_hex2byte (halo_byte2hex [0, 0, 0, 0, 0, 0, 0, 0, 0, 0, 0, 0xAB, 0xCD, 0xEF, 0x01, 0x23])).2
      = [0, 0, 0, 0, 0, 0, 0, 0, 0, 0, 0, 0xAB, 0xCD, 0xEF, 0x01, 0x23] :=
  halo_hex2byte_byte2hex _ ⟨by decide, by decide⟩

/-- C12: for every string `s` of hex digits of any length, in upper or lower case, followed by
its terminating zero, `halo_hex2byte(s)` is the 16-byte big-endian encoding of the integer
whose base-16 numeral is `s`, taken modulo `2^128`; the empty string decodes to zero. -/
theorem halo_hex2byte_value (digits tail : List Nat) (hd : ∀ c ∈ digits, is_hex_digit c) :
    (halo_hex2byte (digits ++ 0 :: tail)).2
        = be_encode 16 (hex_value digits % 340282366920938463463374607431768211456) ∧
      (halo_hex2byte (0 :: tail)).2 = List.replicate 16 0 := by
  obtain ⟨h1, h2, _⟩ := halo_hex2byte_loop_spec digits tail (List.replicate 16 0) hd wf16_zero.1
  constructor
  · have e := wf16_eq_encode _ h1
    rw [h2, wf16_zero.2] at e
    exact e
  · unfold halo_hex2byte
    rw [halo_hex2byte_loop_stop]

/-- Witness for C12: the 34 digits `fF` followed by `0123456789abcdefABCDEF0123456789`, whose
value exceeds `2^128`. -/
theorem halo_hex2byte_value_witness :
    (halo_hex2byte ([0x66, 0x46, 0x30, 0x31, 0x32, 0x33, 0x34, 0x35, 0x36, 0x37, 0x38, 0x39,
        0x61, 0x62, 0x63, 0x64, 0x65, 0x66, 0x41, 0x42, 0x43, 0x44, 0x45, 0x46, 0x30, 0x31, 0x32,
        0x33, 0x34, 0x35, 0x36, 0x37, 0x38, 0x39] ++ 0 :: [])).2
        = be_encode 16 (hex_value [0x66, 0x46, 0x30, 0x31, 0x32, 0x33, 0x34, 0x35, 0x36, 0x37,
          0x38, 0x39, 0x61, 0x62, 0x63, 0x64, 0x65, 0x66, 0x41, 0x42, 0x43, 0x44, 0x45, 0x46,
          0x30, 0x31, 0x32, 0x33, 0x34, 0x35, 0x36, 0x37, 0x38, 0x39]
            % 340282366920938463463374607431768211456) ∧
      (halo_hex2byte (0 :: [])).2 = List.replicate 16 0 :=
  halo_hex2byte_value _ [] (by decide)

theorem hex_table_upper (n : Nat) (h : n < 16) :
    hex_table.getD n 0 = upper_hex_digit n ∧ is_upper_hex_digit (upper_hex_digit n) := by
  interval_cases n <;> decide

theorem upper_pairs_spec (bytes : List Nat) (hb : bytes_ok bytes) :
    bytes.flatMap (fun b => [hex_table.getD (b >>> 4) 0, hex_table.getD (b &&& 15) 0])
        = bytes.flatMap (fun b => [upper_hex_digit (b / 16), upper_hex_digit (b % 16)]) ∧
      ∀ c ∈ bytes.flatMap (fun b => [upper_hex_digit (b / 16), upper_hex_digit (b % 16)]),
        is_upper_hex_digit c := by
  induction bytes with
  | nil => exact ⟨rfl, fun c hc => by simp at hc⟩
  | cons b t ih =>
    obtain ⟨hbb, ht⟩ := bytes_ok_cons hb
    obtain ⟨i1, i2⟩ := ih ht
    have e1 : b >>> 4 = b / 16 := by rw [Nat.shiftRight_eq_div_pow]
    have e2 : b &&& 15 = b % 16 := Nat.and_pow_two_sub_one_eq_mod b 4
    obtain ⟨p1, p2⟩ := hex_table_upper (b / 16) (by omega)
    obtain ⟨q1, q2⟩ := hex_table_upper (b % 16) (by omega)
    rw [List.flatMap_cons, List.flatMap_cons, e1, e2, p1, q1, i1]
    refine ⟨rfl, fun c hc => ?_⟩
    rcases List.mem_append.1 hc with h | h
    · simp only [List.mem_cons, List.mem_singleton, List.not_mem_nil, or_false] at h
      rcases h with h | h
      · rw [h]; exact p2
      · rw [h]; exact q2
    · exact i2 c h

theorem dropWhile_zero_eq_drop (x : List Nat) :
    x.dropWhile (fun b => b == 0) = x.drop (x.takeWhile (fun b => b == 0)).length := by
  induction x with
  | nil => rfl
  | cons b t ih =>
    by_cases hb : (b == 0) = true
    · rw [List.dropWhile_cons_of_pos (p := fun b => b == 0) hb,
        List.takeWhile_cons_of_pos (p := fun b => b == 0) hb, ih]
      rfl
    · rw [List.dropWhile_cons_of_neg (p := fun b => b == 0) hb,
        List.takeWhile_cons_of_neg (p := fun b => b == 0) hb]
      rfl

/-- C13: for every 16-byte value `x` with `z` leading zero bytes, `halo_byte2hex(x)` writes a
string of exactly `2 * (16 - z)` characters, all in `0-9A-F`, which gives the remaining bytes in
order as two digits each, and then the terminating zero; for `x = 0` the string is empty. -/
theorem halo_byte2hex_spec (x : List Nat) (h : wf16 x) :
    halo_byte2hex x
        = (x.drop (x.takeWhile (fun b => b == 0)).length).flatMap
            (fun b => [upper_hex_digit (b / 16), upper_hex_digit (b % 16)]) ++ [0] ∧
      ((x.drop (x.takeWhile (fun b => b == 0)).length).flatMap
          (fun b => [upper_hex_digit (b / 16), upper_hex_digit (b % 16)])).length
        = 2 * (16 - (x.takeWhile (fun b => b == 0)).length) ∧
      (∀ c ∈ (x.drop (x.takeWhile (fun b => b == 0)).length).flatMap
          (fun b => [upper_hex_digit (b / 16), upper_hex_digit (b % 16)]),
        is_upper_hex_digit c) ∧
      (x = List.replicate 16 0 → halo_byte2hex x = [0]) := by
  have hdrop : bytes_ok (x.drop (x.takeWhile (fun b => b == 0)).length) :=
    fun c hc => h.2 c (List.mem_of_mem_drop hc)
  obtain ⟨u1, u2⟩ := upper_pairs_spec _ hdrop
  obtain ⟨_, p2, _⟩ := hex_pairs_spec _ hdrop
  have hz : (x.takeWhile (fun b => b == 0)).length ≤ 16 := by
    have := (List.takeWhile_sublist (fun b => b == 0) (l := x)).length_le
    rw [h.1] at this
    exact this
  refine ⟨?_, ?_, u2, ?_⟩
  · unfold halo_byte2hex
    rw [dropWhile_zero_eq_drop, u1]
  · rw [← u1, p2, List.length_drop, h.1]
  · intro hx
    subst hx
    decide

/-- Witness for C13: the value `00 .. 00 AB CD EF 01 23`, with eleven leading zero bytes. -/
theorem halo_byte2hex_spec_witness :
    halo_byte2hex [0, 0, 0, 0, 0, 0, 0, 0, 0, 0, 0, 0xAB, 0xCD, 0xEF, 0x01, 0x23]
        = [0x41, 0x42, 0x43, 0x44, 0x45, 0x46, 0x30, 0x31, 0x32, 0x33] ++ [0] ∧
      halo_byte2hex (List.replicate 16 0) = [0] :=
  ⟨by
    have h := (halo_byte2hex_spec [0, 0, 0, 0, 0, 0, 0, 0, 0, 0, 0, 0xAB, 0xCD, 0xEF, 0x01, 0x23]
      ⟨by decide, by decide⟩).1
    rw [h]; decide,
   (halo_byte2hex_spec (List.replicate 16 0) ⟨by decide, by decide⟩).2.2.2 rfl⟩

theorem packet_byte_lt (env : Env) (raw : List Nat) (i : Nat) (h : i < raw.length) :
    packet_byte env raw i = raw.getD i 0 := by
  unfold packet_byte
  rw [if_pos h]

theorem packet_bytes_field (env : Env) (pre fld post : List Nat) :
    packet_bytes env (pre ++ fld ++ post) pre.length fld.length = fld := by
  unfold packet_bytes
  apply List.ext_getElem
  · simp
  · intro k h1 h2
    have hk : k < fld.length := by simpa using h1
    rw [List.getElem_map, List.getElem_range,
      packet_byte_lt env _ _ (by simp only [List.length_append]; omega),
      List.getD_eq_getElem?_getD, List.append_assoc,
      List.getElem?_append_right (by omega), Nat.add_sub_cancel_left,
      List.getElem?_append_left hk, List.getElem?_eq_getElem hk]
    rfl

theorem packet_header_parse (env : Env) (t : Nat) (rest : List Nat) :
    packet_byte env ([0xFE, 0xFE, t] ++ rest) 0
        + 256 * packet_byte env ([0xFE, 0xFE, t] ++ rest) 1 = 0xFEFE ∧
      packet_byte env ([0xFE, 0xFE, t] ++ rest) 2 = t := by
  have h0 : packet_byte env ([0xFE, 0xFE, t] ++ rest) 0 = 0xFE := by
    rw [packet_byte_lt env _ 0 (by simp)]; simp
  have h1 : packet_byte env ([0xFE, 0xFE, t] ++ rest) 1 = 0xFE := by
    rw [packet_byte_lt env _ 1 (by simp)]; simp
  have h2 : packet_byte env ([0xFE, 0xFE, t] ++ rest) 2 = t := by
    rw [packet_byte_lt env _ 2 (by simp)]; simp
  rw [h0, h1, h2]
  exact ⟨by norm_num, rfl⟩

theorem process_received_data_single (env : Nat → Env) (s : Server)
    (front : (Nat × Nat) × List Nat) (hq : s.m_received_raw_data = [front]) :
    process_received_data env s
      = { process_datagram (env 0) s front with m_received_raw_data := [] } := by
  unfold process_received_data
  rw [hq]
  show process_received_data_loop env 1 0 s = _
  rw [process_received_data_loop, hq, if_pos (by simp)]
  rfl

theorem resolve_handshake_challenge_length (challenge : List Nat) (time : Nat) :
    (resolve_handshake_challenge challenge time).length = 32 := by
  simp [resolve_handshake_challenge, gssdkcr, gssdkcr_fill_loop_length]

theorem process_datagram_challenge (env : Env) (s : Server) (sender : Nat × Nat)
    (counts C extra : List Nat) (hc : counts.length = 4) (hC : C.length = 32) :
    process_datagram env s (sender, [0xFE, 0xFE, 0x01] ++ counts ++ C ++ extra)
      = { s with
          console := s.console ++ [ConsoleLine.connection_request sender]
          sent := s.sent ++ [(sender, [0xFE, 0xFE, 0x02, 0, 0, 0, 1]
            ++ resolve_handshake_challenge C env.time1
            ++ resolve_handshake_challenge (resolve_handshake_challenge C env.time1)
                env.time2)] } := by
  have hp := packet_header_parse env 0x01 (counts ++ C ++ extra)
  have e : [0xFE, 0xFE, 0x01] ++ counts ++ C ++ extra
      = [0xFE, 0xFE, 0x01] ++ (counts ++ C ++ extra) := by simp
  have hf := packet_bytes_field env ([0xFE, 0xFE, 0x01] ++ counts) C extra
  have hl : ([0xFE, 0xFE, 0x01] ++ counts).length = 7 := by simp [hc]
  rw [hl, hC] at hf
  unfold process_datagram
  simp only
  rw [hf, e, hp.1, hp.2, if_pos rfl, if_pos rfl]
  rfl

theorem client_response_parse (env : Env) (counts resp key ver extra : List Nat)
    (hc : counts.length = 4) (hr : resp.length = 32) (hk : key.length = 16)
    (hv : ver.length = 4) :
    packet_bytes env ([0xFE, 0xFE, 0x03] ++ counts ++ resp ++ key ++ ver ++ extra) 55 4 = ver ∧
      packet_bytes env ([0xFE, 0xFE, 0x03] ++ counts ++ resp ++ key ++ ver ++ extra) 39 16
        = key := by
  constructor
  · have hf := packet_bytes_field env ([0xFE, 0xFE, 0x03] ++ counts ++ resp ++ key) ver extra
    have hl : ([0xFE, 0xFE, 0x03] ++ counts ++ resp ++ key).length = 55 := by
      simp [hc, hr, hk]
    rw [hl, hv] at hf
    exact hf
  · have hf := packet_bytes_field env ([0xFE, 0xFE, 0x03] ++ counts ++ resp) key (ver ++ extra)
    have hl : ([0xFE, 0xFE, 0x03] ++ counts ++ resp).length = 39 := by
      simp [hc, hr]
    rw [hl, hk] at hf
    have e : [0xFE, 0xFE, 0x03] ++ counts ++ resp ++ key ++ ver ++ extra
        = [0xFE, 0xFE, 0x03] ++ counts ++ resp ++ key ++ (ver ++ extra) := by simp
    rw [e]
    exact hf

theorem client_response_header (env : Env) (counts resp key ver extra : List Nat) :
    packet_byte env ([0xFE, 0xFE, 0x03] ++ counts ++ resp ++ key ++ ver ++ extra) 0
        + 256 * packet_byte env ([0xFE, 0xFE, 0x03] ++ counts ++ resp ++ key ++ ver ++ extra) 1
        = 0xFEFE ∧
      packet_byte env ([0xFE, 0xFE, 0x03] ++ counts ++ resp ++ key ++ ver ++ extra) 2 = 0x03 := by
  have e : [0xFE, 0xFE, 0x03] ++ counts ++ resp ++ key ++ ver ++ extra
      = [0xFE, 0xFE, 0x03] ++ (counts ++ resp ++ key ++ ver ++ extra) := by simp
  rw [e]
  exact packet_header_parse env 0x03 _

theorem load32_store32_nil (w : Nat) (hw : w < 4294967296) : load32 (store32 w) = w := by
  have := load32_store32 w [] hw
  rw [List.append_nil] at this
  exact this

theorem process_datagram_version (env : Env) (s : Server) (sender : Nat × Nat)
    (counts resp key extra : List Nat) (version : Nat) (hc : counts.length = 4)
    (hr : resp.length = 32) (hk : key.length = 16) (hv : version < 4294967296)
    (hne : version ≠ CLIENT_VERSION) :
    process_datagram env s
        (sender, [0xFE, 0xFE, 0x03] ++ counts ++ resp ++ key ++ store32 version ++ extra)
      = refuse_connection s sender (if version < CLIENT_VERSION then 4 else 5) := by
  obtain ⟨p1, _⟩ := client_response_parse env counts resp key (store32 version) extra hc hr hk rfl
  obtain ⟨h1, h2⟩ := client_response_header env counts resp key (store32 version) extra
  unfold process_datagram
  simp only
  rw [p1, h1, h2, load32_store32_nil version hv, if_pos rfl, if_neg (by decide), if_pos rfl,
    if_neg hne]
  by_cases hlt : version < CLIENT_VERSION
  · rw [if_pos hlt, if_pos hlt]
  · rw [if_neg hlt, if_neg hlt]

theorem process_datagram_full (env : Env) (s : Server) (sender : Nat × Nat)
    (counts resp key extra : List Nat) (hc : counts.length = 4) (hr : resp.length = 32)
    (hk : key.length = 16) (hfull : s.m_clients.length = 16) :
    process_datagram env s
        (sender, [0xFE, 0xFE, 0x03] ++ counts ++ resp ++ key ++ store32 CLIENT_VERSION ++ extra)
      = refuse_connection
          { s with console := s.console ++ [ConsoleLine.connection_accepted sender] }
          sender 6 := by
  obtain ⟨p1, _⟩ :=
    client_response_parse env counts resp key (store32 CLIENT_VERSION) extra hc hr hk rfl
  obtain ⟨h1, h2⟩ := client_response_header env counts resp key (store32 CLIENT_VERSION) extra
  unfold process_datagram
  simp only
  rw [p1, h1, h2, load32_store32_nil CLIENT_VERSION (by decide), if_pos rfl,
    if_neg (by decide), if_pos rfl, if_pos rfl,
    if_pos (show s.m_clients.length = c_max_client_number from hfull)]

theorem get_client_none (clients : List Client) (address : Nat × Nat)
    (h : ∀ c ∈ clients, c.m_address ≠ address) : get_client clients address = none := by
  induction clients with
  | nil => rfl
  | cons c t ih =>
    rw [get_client, if_neg (h c (by simp)), ih (fun x hx => h x (by simp [hx]))]
    rfl

theorem get_client_append_new (clients : List Client) (c : Client) (address : Nat × Nat)
    (h : ∀ x ∈ clients, x.m_address ≠ address) (hc : c.m_address = address) :
    get_client (clients ++ [c]) address = some clients.length := by
  induction clients with
  | nil =>
    rw [List.nil_append, get_client, if_pos hc]
    rfl
  | cons x t ih =>
    rw [List.cons_append, get_client, if_neg (h x (by simp)),
      ih (fun y hy => h y (by simp [hy]))]
    rfl

theorem send_packet_new (s : Server) (c : Client) (data : List Nat)
    (h : ∀ x ∈ s.m_clients, x.m_address ≠ c.m_address) :
    (send_packet { s with m_clients := s.m_clients ++ [c] } c.m_address data).1
      = { s with
          sent := s.sent ++ [(c.m_address, data)]
          console := s.console ++ [ConsoleLine.sent_bytes data.length c.m_address]
          m_clients := s.m_clients ++
            [{ c with m_server_packet_count := (c.m_server_packet_count + 1) % 65536 }] } := by
  unfold send_packet
  simp only
  rw [get_client_append_new s.m_clients c c.m_address h rfl]
  simp only
  rw [List.get?_eq_getElem?, List.getElem?_append_right (le_refl _), Nat.sub_self]
  simp only [List.getElem?_cons_zero]
  rw [List.set_append_right _ _ (le_refl _), Nat.sub_self]
  rfl

theorem halo_generate_keys_public_length (hash : List Nat) (seed : Nat) :
    (halo_generate_keys hash none seed).2.length = 16 := by
  obtain ⟨_, r2⟩ := halo_create_randhash_loop_spec 16 (seed % 4294967296)
  have h3 : hex_value [0x33] = 3 := by decide
  obtain ⟨r1, _⟩ := halo_create_randhash_loop_spec 16 (seed % 4294967296)
  have := halo_create_key_spec [0x33] (halo_create_randhash_loop 16 (seed % 4294967296))
    (by decide) r2 (by decide) (by omega) (by rw [h3]; norm_num)
  have hl : ∀ k n, (be_encode k n).length = k := by
    intro k
    induction k with
    | zero => intro n; rfl
    | succ j ih => intro n; simp [be_encode, ih]
  show (halo_create_key [0x33, 0] (halo_create_randhash seed) [0x31, 0x30, 0x30, 0x30, 0x31, 0]).2.length = 16
  unfold halo_create_randhash
  rw [show ([0x33, 0] : List Nat) = [0x33] ++ [0] from rfl, this, hl]

theorem client_create_fields (address : Nat × Nat) (key : List Nat) (seed : Nat) :
    (Client.create address key seed).m_address = address ∧
      (Client.create address key seed).m_packet_count = 2 ∧
      (Client.create address key seed).m_server_packet_count = 1 ∧
      (Client.create address key seed).m_public_key.length = 16 :=
  ⟨rfl, rfl, rfl, halo_generate_keys_public_length (List.replicate 17 0) seed⟩

theorem process_datagram_accept (env : Env) (s : Server) (sender : Nat × Nat)
    (counts resp key extra : List Nat) (hc : counts.length = 4) (hr : resp.length = 32)
    (hk : key.length = 16) (hroom : s.m_clients.length < 16)
    (hnew : ∀ c ∈ s.m_clients, c.m_address ≠ sender) :
    process_datagram env s
        (sender, [0xFE, 0xFE, 0x03] ++ counts ++ resp ++ key ++ store32 CLIENT_VERSION ++ extra)
      = { s with
          sent := s.sent ++ [(sender, [0xFE, 0xFE, 0x04, 0, 1, 0, 2]
            ++ (Client.create sender key env.rand).m_public_key)]
          console := s.console ++ [ConsoleLine.connection_accepted sender,
            ConsoleLine.sent_bytes 23 sender]
          m_clients := s.m_clients ++
            [{ Client.create sender key env.rand with m_server_packet_count := 2 }] } := by
  obtain ⟨p1, p2⟩ :=
    client_response_parse env counts resp key (store32 CLIENT_VERSION) extra hc hr hk rfl
  obtain ⟨h1, h2⟩ := client_response_header env counts resp key (store32 CLIENT_VERSION) extra
  obtain ⟨f1, _, f3, f4⟩ := client_create_fields sender key env.rand
  unfold process_datagram
  simp only
  rw [p1, p2, h1, h2, load32_store32_nil CLIENT_VERSION (by decide), if_pos rfl,
    if_neg (by decide), if_pos rfl, if_pos rfl,
    if_neg (show ¬ s.m_clients.length = c_max_client_number from by
      unfold c_max_client_number; omega)]
  generalize Client.create sender key env.rand = c at f1 f3 f4 ⊢
  subst f1
  have hsp := send_packet_new
    { s with console := s.console ++ [ConsoleLine.connection_accepted c.m_address] } c
    ([0xFE, 0xFE, 0x04] ++ htons 1 ++ htons 2 ++ c.m_public_key) hnew
  refine hsp.trans ?_
  have hl : ([0xFE, 0xFE, 0x04] ++ htons 1 ++ htons 2 ++ c.m_public_key).length = 23 := by
    rw [List.length_append, f4]
    rfl
  rw [hl, f3]
  simp only [List.append_assoc, List.singleton_append, List.cons_append, List.nil_append, htons]

/-- C14: for every datagram with magic `FE FE` and type `0x01` that carries a 32-byte challenge
`C`, `process_received_data` sends to the sender exactly one datagram, made of the header
`FE FE 02`, `server_packet_count` 0 and `client_packet_count` 1 (two big-endian bytes each), the
32 bytes `R` of `gssdkcr(C)` and the 32 bytes of `gssdkcr(R)`, and it leaves the client registry
unchanged. -/
theorem process_client_challenge (env : Nat → Env) (s : Server) (sender : Nat × Nat)
    (counts C extra : List Nat) (hc : counts.length = 4) (hC : C.length = 32)
    (hq : s.m_received_raw_data = [(sender, [0xFE, 0xFE, 0x01] ++ counts ++ C ++ extra)]) :
    (process_received_data env s).sent
        = s.sent ++ [(sender, [0xFE, 0xFE, 0x02, 0, 0, 0, 1]
            ++ (gssdkcr C none (env 0).time1).take 32
            ++ (gssdkcr ((gssdkcr C none (env 0).time1).take 32) none (env 0).time2).take 32)] ∧
      (process_received_data env s).m_clients = s.m_clients ∧
      (process_received_data env s).m_received_raw_data = [] := by
  rw [process_received_data_single env s _ hq,
    process_datagram_challenge (env 0) s sender counts C extra hc hC]
  exact ⟨rfl, rfl, rfl⟩

/-- Witness for C14: the Halo example challenge sent from `(1, 2302)` to a server with an empty
registry. -/
theorem process_client_challenge_witness :
    (process_received_data (fun _ => ⟨0, 0, 0, fun _ => 0⟩)
        ⟨[((1, 2302), [0xFE, 0xFE, 0x01] ++ [0, 0, 0, 0] ++ halo_example_challenge ++ [])],
          [], [], []⟩).sent
        = [] ++ [((1, 2302), [0xFE, 0xFE, 0x02, 0, 0, 0, 1]
            ++ (gssdkcr halo_example_challenge none 0).take 32
            ++ (gssdkcr ((gssdkcr halo_example_challenge none 0).take 32) none 0).take 32)] ∧
      (process_received_data (fun _ => ⟨0, 0, 0, fun _ => 0⟩)
        ⟨[((1, 2302), [0xFE, 0xFE, 0x01] ++ [0, 0, 0, 0] ++ halo_example_challenge ++ [])],
          [], [], []⟩).m_clients = [] ∧
      (process_received_data (fun _ => ⟨0, 0, 0, fun _ => 0⟩)
        ⟨[((1, 2302), [0xFE, 0xFE, 0x01] ++ [0, 0, 0, 0] ++ halo_example_challenge ++ [])],
          [], [], []⟩).m_received_raw_data = [] :=
  process_client_challenge (fun _ => ⟨0, 0, 0, fun _ => 0⟩)
    ⟨[((1, 2302), [0xFE, 0xFE, 0x01] ++ [0, 0, 0, 0] ++ halo_example_challenge ++ [])],
      [], [], []⟩ (1, 2302) [0, 0, 0, 0] halo_example_challenge [] rfl rfl rfl

/-- C15 (amended): in the datagram the server sends in answer to a ClientChallenge `C0`, which
has 71 bytes, bytes 7 to 38 (0-based, inclusive) equal `gssdkcr(C0)` and bytes 39 to 70 equal
`gssdkcr(gssdkcr(C0))`; bytes 3 to 6 hold the two packet counts. -/
theorem server_challenge_response_layout (env : Env) (s : Server) (sender : Nat × Nat)
    (counts C0 extra : List Nat) (hc : counts.length = 4) (hC : C0.length = 32) :
    ∃ d, (process_datagram env s (sender, [0xFE, 0xFE, 0x01] ++ counts ++ C0 ++ extra)).sent
        = s.sent ++ [(sender, d)] ∧
      d.length = 71 ∧
      (d.drop 3).take 4 = [0, 0, 0, 1] ∧
      (d.drop 7).take 32 = (gssdkcr C0 none env.time1).take 32 ∧
      (d.drop 39).take 32
        = (gssdkcr ((gssdkcr C0 none env.time1).take 32) none env.time2).take 32 := by
  have h1 := resolve_handshake_challenge_length C0 env.time1
  have h2 := resolve_handshake_challenge_length
    (resolve_handshake_challenge C0 env.time1) env.time2
  refine ⟨[0xFE, 0xFE, 0x02, 0, 0, 0, 1] ++ resolve_handshake_challenge C0 env.time1
    ++ resolve_handshake_challenge (resolve_handshake_challenge C0 env.time1) env.time2,
    ?_, ?_, ?_, ?_, ?_⟩
  · rw [process_datagram_challenge env s sender counts C0 extra hc hC]
  · simp only [List.length_append, h1, h2, List.length_cons, List.length_nil]
  · rfl
  · have e : [0xFE, 0xFE, 0x02, 0, 0, 0, 1] ++ resolve_handshake_challenge C0 env.time1
        ++ resolve_handshake_challenge (resolve_handshake_challenge C0 env.time1) env.time2
        = [0xFE, 0xFE, 0x02, 0, 0, 0, 1] ++ (resolve_handshake_challenge C0 env.time1
          ++ resolve_handshake_challenge (resolve_handshake_challenge C0 env.time1) env.time2) :=
      List.append_assoc _ _ _
    rw [e, List.drop_left' (by rfl), List.take_left' h1]
    rfl
  · have hl : ([0xFE, 0xFE, 0x02, 0, 0, 0, 1] ++ resolve_handshake_challenge C0 env.time1).length
        = 39 := by
      rw [List.length_append, h1]; rfl
    rw [List.drop_left' hl, List.take_of_length_le (by rw [h2])]
    rfl

/-- Witness for C15 (amended): the Halo example challenge. -/
theorem server_challenge_response_layout_witness :
    ∃ d, (process_datagram ⟨0, 0, 0, fun _ => 0⟩ ⟨[], [], [], []⟩
        ((1, 2302), [0xFE, 0xFE, 0x01] ++ [0, 0, 0, 0] ++ halo_example_challenge ++ [])).sent
        = [] ++ [((1, 2302), d)] ∧
      d.length = 71 ∧
      (d.drop 3).take 4 = [0, 0, 0, 1] ∧
      (d.drop 7).take 32 = (gssdkcr halo_example_challenge none 0).take 32 ∧
      (d.drop 39).take 32
        = (gssdkcr ((gssdkcr halo_example_challenge none 0).take 32) none 0).take 32 :=
  server_challenge_response_layout ⟨0, 0, 0, fun _ => 0⟩ ⟨[], [], [], []⟩ (1, 2302)
    [0, 0, 0, 0] halo_example_challenge [] rfl rfl

/-- Counterexample to C15 as stated: in the answer to the Halo example challenge, bytes 3 to 34
are not `gssdkcr(C0)`; byte 3 is the zero of `server_packet_count`. -/
theorem server_challenge_response_layout_counterexample :
    (process_datagram ⟨0, 0, 0, fun _ => 0⟩ ⟨[], [], [], []⟩
        ((1, 2302), [0xFE, 0xFE, 0x01] ++ [0, 0, 0, 0] ++ halo_example_challenge ++ [])).sent.map
        (fun p => (p.2.drop 3).take 32)
      ≠ [(gssdkcr halo_example_challenge none 0).take 32] := by
  decide

/-- C16 (amended): for every ClientResponse datagram with version `0x00096A27` arriving while
the registry holds fewer than 16 sessions, none of them for the sender's endpoint,
`process_received_data` appends exactly one session for the sender's endpoint (earlier sessions
unchanged) and sends the sender one 23-byte datagram: `FE FE 04`, `server_packet_count` 1 and
`client_packet_count` 2 (big-endian), followed by the 16-byte public key of the new session. -/
theorem process_client_response_accept (env : Nat → Env) (s : Server) (sender : Nat × Nat)
    (counts resp key extra : List Nat) (hc : counts.length = 4) (hr : resp.length = 32)
    (hk : key.length = 16) (hroom : s.m_clients.length < 16)
    (hnew : ∀ c ∈ s.m_clients, c.m_address ≠ sender)
    (hq : s.m_received_raw_data
      = [(sender, [0xFE, 0xFE, 0x03] ++ counts ++ resp ++ key ++ store32 CLIENT_VERSION
          ++ extra)]) :
    ∃ c d, (process_received_data env s).m_clients = s.m_clients ++ [c] ∧
      c.m_address = sender ∧
      (process_received_data env s).sent = s.sent ++ [(sender, d)] ∧
      d.length = 23 ∧
      d = [0xFE, 0xFE, 0x04, 0, 1, 0, 2] ++ c.m_public_key ∧
      c.m_public_key = (halo_generate_keys (List.replicate 17 0) none (env 0).rand).2 := by
  obtain ⟨f1, _, _, f4⟩ := client_create_fields sender key (env 0).rand
  refine ⟨{ Client.create sender key (env 0).rand with m_server_packet_count := 2 },
    [0xFE, 0xFE, 0x04, 0, 1, 0, 2] ++ (Client.create sender key (env 0).rand).m_public_key,
    ?_, f1, ?_, ?_, rfl, rfl⟩
  · rw [process_received_data_single env s _ hq,
      process_datagram_accept (env 0) s sender counts resp key extra hc hr hk hroom hnew]
  · rw [process_received_data_single env s _ hq,
      process_datagram_accept (env 0) s sender counts resp key extra hc hr hk hroom hnew]
  · rw [List.length_append, f4]
    rfl

/-- Witness for C16 (amended): a ClientResponse from `(1, 2302)` to a server with an empty
registry. -/
theorem process_client_response_accept_witness :
    ∃ c d, (process_received_data (fun _ => ⟨0, 0, 12345, fun _ => 0⟩)
        ⟨[((1, 2302), [0xFE, 0xFE, 0x03] ++ [0, 0, 0, 0] ++ List.replicate 32 0x41
            ++ List.replicate 16 0x07 ++ store32 CLIENT_VERSION ++ [])], [], [], []⟩).m_clients
          = [] ++ [c] ∧
      c.m_address = (1, 2302) ∧
      (process_received_data (fun _ => ⟨0, 0, 12345, fun _ => 0⟩)
        ⟨[((1, 2302), [0xFE, 0xFE, 0x03] ++ [0, 0, 0, 0] ++ List.replicate 32 0x41
            ++ List.replicate 16 0x07 ++ store32 CLIENT_VERSION ++ [])], [], [], []⟩).sent
          = [] ++ [((1, 2302), d)] ∧
      d.length = 23 ∧
      d = [0xFE, 0xFE, 0x04, 0, 1, 0, 2] ++ c.m_public_key ∧
      c.m_public_key = (halo_generate_keys (List.replicate 17 0) none 12345).2 :=
  process_client_response_accept (fun _ => ⟨0, 0, 12345, fun _ => 0⟩)
    ⟨[((1, 2302), [0xFE, 0xFE, 0x03] ++ [0, 0, 0, 0] ++ List.replicate 32 0x41
        ++ List.replicate 16 0x07 ++ store32 CLIENT_VERSION ++ [])], [], [], []⟩
    (1, 2302) [0, 0, 0, 0] (List.replicate 32 0x41) (List.replicate 16 0x07) [] rfl rfl rfl
    (by decide) (by intro c hc; cases hc) rfl

/-- Counterexample to C16 as stated: when the registry already holds a session for the sender's
endpoint, the earlier session does not stay unchanged; `send_packet` finds it first and
increases its `m_server_packet_count`. -/
theorem process_client_response_accept_counterexample :
    ¬ ((process_received_data (fun _ => ⟨0, 0, 12345, fun _ => 0⟩)
        ⟨[((1, 2302), [0xFE, 0xFE, 0x03] ++ [0, 0, 0, 0] ++ List.replicate 32 0x41
            ++ List.replicate 16 0x07 ++ store32 CLIENT_VERSION ++ [])],
          [⟨(1, 2302), 2, 1, [], [], [], []⟩], [], []⟩).m_clients.take 1
        = [⟨(1, 2302), 2, 1, [], [], [], []⟩]) := by
  intro h
  have h2 := congrArg (List.map Client.m_server_packet_count) h
  revert h2
  decide

/-- C17 (amended): after `process_received_data` has handled a ClientResponse that it accepts
(version `0x00096A27`, registry not full) from an endpoint for which the registry held no
session, the session it created has `m_packet_count = 2` and `m_server_packet_count = 2`: the
constructor's 1, increased by the send of the handshake answer. -/
theorem accepted_session_counts (env : Nat → Env) (s : Server) (sender : Nat × Nat)
    (counts resp key extra : List Nat) (hc : counts.length = 4) (hr : resp.length = 32)
    (hk : key.length = 16) (hroom : s.m_clients.length < 16)
    (hnew : ∀ c ∈ s.m_clients, c.m_address ≠ sender)
    (hq : s.m_received_raw_data
      = [(sender, [0xFE, 0xFE, 0x03] ++ counts ++ resp ++ key ++ store32 CLIENT_VERSION
          ++ extra)]) :
    (process_received_data env s).m_clients.getLast?.map
        (fun c => (c.m_packet_count, c.m_server_packet_count)) = some (2, 2) := by
  rw [process_received_data_single env s _ hq,
    process_datagram_accept (env 0) s sender counts resp key extra hc hr hk hroom hnew]
  simp only [List.getLast?_concat, Option.map_some']
  rw [(client_create_fields sender key (env 0).rand).2.1]

/-- Witness for C17 (amended): a ClientResponse from `(1, 2302)` to a server with an empty
registry. -/
theorem accepted_session_counts_witness :
    (process_received_data (fun _ => ⟨0, 0, 12345, fun _ => 0⟩)
        ⟨[((1, 2302), [0xFE, 0xFE, 0x03] ++ [0, 0, 0, 0] ++ List.replicate 32 0x41
            ++ List.replicate 16 0x07 ++ store32 CLIENT_VERSION ++ [])], [], [], []⟩).m_clients.getLast?.map
        (fun c => (c.m_packet_count, c.m_server_packet_count)) = some (2, 2) :=
  accepted_session_counts (fun _ => ⟨0, 0, 12345, fun _ => 0⟩)
    ⟨[((1, 2302), [0xFE, 0xFE, 0x03] ++ [0, 0, 0, 0] ++ List.replicate 32 0x41
        ++ List.replicate 16 0x07 ++ store32 CLIENT_VERSION ++ [])], [], [], []⟩
    (1, 2302) [0, 0, 0, 0] (List.replicate 32 0x41) (List.replicate 16 0x07) [] rfl rfl rfl
    (by decide) (by intro c hc; cases hc) rfl

/-- Counterexample to C17 as stated: after an accepted ClientResponse to a server with an empty
registry, the created session does not have `m_server_packet_count = 1`. -/
theorem accepted_session_counts_counterexample :
    (process_received_data (fun _ => ⟨0, 0, 12345, fun _ => 0⟩)
        ⟨[((1, 2302), [0xFE, 0xFE, 0x03] ++ [0, 0, 0, 0] ++ List.replicate 32 0x41
            ++ List.replicate 16 0x07 ++ store32 CLIENT_VERSION ++ [])], [], [], []⟩).m_clients.getLast?.map
        (fun c => (c.m_packet_count, c.m_server_packet_count)) ≠ some (2, 1) := by
  decide

/-- C18: for every ClientResponse datagram whose version differs from `0x00096A27`, whatever the
registry size, `process_received_data` sends the sender exactly one datagram, of type `0x05`,
whose reason is 4 when the version is below `0x00096A27` and 5 when it is above, and leaves the
registry unchanged. -/
theorem process_client_response_version (env : Nat → Env) (s : Server) (sender : Nat × Nat)
    (counts resp key extra : List Nat) (version : Nat) (hc : counts.length = 4)
    (hr : resp.length = 32) (hk : key.length = 16) (hv : version < 4294967296)
    (hne : version ≠ CLIENT_VERSION)
    (hq : s.m_received_raw_data
      = [(sender, [0xFE, 0xFE, 0x03] ++ counts ++ resp ++ key ++ store32 version ++ extra)]) :
    (process_received_data env s).sent
        = s.sent ++ [(sender, [0xFE, 0xFE, 0x05, 0, 1, 0, 2]
            ++ [if version < 0x00096A27 then 4 else 5, 0, 0, 0])] ∧
      (process_received_data env s).m_clients = s.m_clients := by
  rw [process_received_data_single env s _ hq,
    process_datagram_version (env 0) s sender counts resp key extra version hc hr hk hv hne]
  refine ⟨?_, rfl⟩
  by_cases hlt : version < CLIENT_VERSION
  · have hlt2 : version < 0x00096A27 := hlt
    rw [if_pos hlt, if_pos hlt2]
    rfl
  · have hlt2 : ¬ version < 0x00096A27 := hlt
    rw [if_neg hlt, if_neg hlt2]
    rfl

/-- Witness for C18: the version `0x00096A26` gives reason 4. -/
theorem process_client_response_version_witness :
    (process_received_data (fun _ => ⟨0, 0, 0, fun _ => 0⟩)
        ⟨[((1, 2302), [0xFE, 0xFE, 0x03] ++ [0, 0, 0, 0] ++ List.replicate 32 0x41
            ++ List.replicate 16 0x07 ++ store32 0x00096A26 ++ [])], [], [], []⟩).sent
        = [] ++ [((1, 2302), [0xFE, 0xFE, 0x05, 0, 1, 0, 2]
            ++ [if 0x00096A26 < 0x00096A27 then 4 else 5, 0, 0, 0])] ∧
      (process_received_data (fun _ => ⟨0, 0, 0, fun _ => 0⟩)
        ⟨[((1, 2302), [0xFE, 0xFE, 0x03] ++ [0, 0, 0, 0] ++ List.replicate 32 0x41
            ++ List.replicate 16 0x07 ++ store32 0x00096A26 ++ [])], [], [], []⟩).m_clients
        = [] :=
  process_client_response_version (fun _ => ⟨0, 0, 0, fun _ => 0⟩)
    ⟨[((1, 2302), [0xFE, 0xFE, 0x03] ++ [0, 0, 0, 0] ++ List.replicate 32 0x41
        ++ List.replicate 16 0x07 ++ store32 0x00096A26 ++ [])], [], [], []⟩
    (1, 2302) [0, 0, 0, 0] (List.replicate 32 0x41) (List.replicate 16 0x07) [] 0x00096A26
    rfl rfl rfl (by decide) (by decide) rfl

/-- C19: when the registry holds 16 sessions and a ClientResponse with version `0x00096A27`
arrives, `process_received_data` sends the sender one datagram of type `0x05` with reason 6 and
leaves the registry unchanged, still holding the same 16 sessions. -/
theorem process_client_response_full (env : Nat → Env) (s : Server) (sender : Nat × Nat)
    (counts resp key extra : List Nat) (hc : counts.length = 4) (hr : resp.length = 32)
    (hk : key.length = 16) (hfull : s.m_clients.length = 16)
    (hq : s.m_received_raw_data
      = [(sender, [0xFE, 0xFE, 0x03] ++ counts ++ resp ++ key ++ store32 CLIENT_VERSION
          ++ extra)]) :
    (process_received_data env s).sent
        = s.sent ++ [(sender, [0xFE, 0xFE, 0x05, 0, 1, 0, 2] ++ [6, 0, 0, 0])] ∧
      (process_received_data env s).m_clients = s.m_clients ∧
      (process_received_data env s).m_clients.length = 16 := by
  rw [process_received_data_single env s _ hq,
    process_datagram_full (env 0) s sender counts resp key extra hc hr hk hfull]
  exact ⟨rfl, rfl, hfull⟩

/-- Witness for C19: a registry pre-loaded with the 16 sessions of the endpoints
`(0, 2302) .. (15, 2302)`. -/
theorem process_client_response_full_witness :
    (process_received_data (fun _ => ⟨0, 0, 0, fun _ => 0⟩)
        ⟨[((99, 2302), [0xFE, 0xFE, 0x03] ++ [0, 0, 0, 0] ++ List.replicate 32 0x41
            ++ List.replicate 16 0x07 ++ store32 CLIENT_VERSION ++ [])],
          (List.range 16).map (fun i => ⟨(i, 2302), 2, 1, [], [], [], []⟩), [], []⟩).sent
        = [] ++ [((99, 2302), [0xFE, 0xFE, 0x05, 0, 1, 0, 2] ++ [6, 0, 0, 0])] ∧
      (process_received_data (fun _ => ⟨0, 0, 0, fun _ => 0⟩)
        ⟨[((99, 2302), [0xFE, 0xFE, 0x03] ++ [0, 0, 0, 0] ++ List.replicate 32 0x41
            ++ List.replicate 16 0x07 ++ store32 CLIENT_VERSION ++ [])],
          (List.range 16).map (fun i => ⟨(i, 2302), 2, 1, [], [], [], []⟩), [], []⟩).m_clients
        = (List.range 16).map (fun i => ⟨(i, 2302), 2, 1, [], [], [], []⟩) ∧
      (process_received_data (fun _ => ⟨0, 0, 0, fun _ => 0⟩)
        ⟨[((99, 2302), [0xFE, 0xFE, 0x03] ++ [0, 0, 0, 0] ++ List.replicate 32 0x41
            ++ List.replicate 16 0x07 ++ store32 CLIENT_VERSION ++ [])],
          (List.range 16).map (fun i => ⟨(i, 2302), 2, 1, [], [], [], []⟩), [], []⟩).m_clients.length
        = 16 :=
  process_client_response_full (fun _ => ⟨0, 0, 0, fun _ => 0⟩)
    ⟨[((99, 2302), [0xFE, 0xFE, 0x03] ++ [0, 0, 0, 0] ++ List.replicate 32 0x41
        ++ List.replicate 16 0x07 ++ store32 CLIENT_VERSION ++ [])],
      (List.range 16).map (fun i => ⟨(i, 2302), 2, 1, [], [], [], []⟩), [], []⟩
    (99, 2302) [0, 0, 0, 0] (List.replicate 32 0x41) (List.replicate 16 0x07) [] rfl rfl rfl
    (by decide) rfl

theorem send_packet_clients_length (s : Server) (address : Nat × Nat) (data : List Nat) :
    (send_packet s address data).1.m_clients.length = s.m_clients.length := by
  unfold send_packet
  split
  · split
    · simp
    · rfl
  · rfl

theorem erase_client_length (clients : List Client) (address : Nat × Nat) :
    (erase_client clients address).1.length ≤ clients.length := by
  unfold erase_client
  split
  · simp only [List.length_eraseIdx]
    split <;> omega
  · exact le_refl _

theorem process_datagram_clients_le (env : Env) (s : Server)
    (front : (Nat × Nat) × List Nat) (h : s.m_clients.length ≤ 16) :
    (process_datagram env s front).m_clients.length ≤ 16 := by
  have he := erase_client_length s.m_clients front.1
  unfold process_datagram
  simp only
  split_ifs with h1 h2 h3 h4 h5 h6 h7 h8
  · exact h
  · exact h
  · rw [send_packet_clients_length]
    simp only [List.length_append, List.length_singleton]
    unfold c_max_client_number at h5
    omega
  · exact h
  · exact h
  · exact le_trans he h
  · exact le_trans he h
  · exact h
  · exact h

theorem process_received_data_loop_clients_le (env : Nat → Env) (fuel i : Nat) (s : Server)
    (h : s.m_clients.length ≤ 16) :
    (process_received_data_loop env fuel i s).m_clients.length ≤ 16 := by
  induction fuel generalizing i s with
  | zero => exact h
  | succ n ih =>
    rw [process_received_data_loop]
    split_ifs with hi
    · cases hq : s.m_received_raw_data with
      | nil => exact h
      | cons front rest =>
        exact ih (i + 1) _ (process_datagram_clients_le (env i) s front h)
    · exact h

/-- C20: in every state reachable from an empty registry by reading and processing any sequence
of datagrams, the number of sessions in the registry is at most 16. -/
theorem registry_size_le_sixteen (s : Server) (h : Reachable s) : s.m_clients.length ≤ 16 := by
  induction h with
  | start s h0 => rw [h0]; exact Nat.zero_le _
  | read s received _ ih => exact ih
  | datagram env s front _ ih => exact process_datagram_clients_le env s front ih
  | process env s _ ih => exact process_received_data_loop_clients_le env _ 0 s ih

/-- Witness for C20: the state after one accepted ClientResponse has been read and
processed. -/
theorem registry_size_le_sixteen_witness :
    (process_received_data (fun _ => ⟨0, 0, 12345, fun _ => 0⟩)
        (read_data ⟨[], [], [], []⟩
          [((1, 2302), [0xFE, 0xFE, 0x03] ++ [0, 0, 0, 0] ++ List.replicate 32 0x41
            ++ List.replicate 16 0x07 ++ store32 CLIENT_VERSION ++ [])])).m_clients.length
      ≤ 16 :=
  registry_size_le_sixteen _
    (Reachable.process _ _ (Reachable.read _ _ (Reachable.start ⟨[], [], [], []⟩ rfl)))

theorem map_set_same {α β : Type} (f : α → β) (l : List α) (i : Nat) (c c' : α)
    (h : l.get? i = some c) (hc : f c' = f c) : (l.set i c').map f = l.map f := by
  induction l generalizing i with
  | nil => rfl
  | cons x xs ih =>
    cases i with
    | zero =>
      simp only [List.get?_cons_zero, Option.some.injEq] at h
      simp only [List.set_cons_zero, List.map_cons, hc, h]
    | succ j =>
      simp only [List.get?_cons_succ] at h
      simp only [List.set_cons_succ, List.map_cons, ih j h]

theorem send_packet_addresses (s : Server) (address : Nat × Nat) (packet_data : List Nat) :
    (send_packet s address packet_data).1.m_clients.map Client.m_address
      = s.m_clients.map Client.m_address := by
  unfold send_packet
  split
  · rename_i i hg
    split
    · rename_i client hc
      exact map_set_same Client.m_address s.m_clients i client _ hc rfl
    · rfl
  · rfl

theorem erase_client_addresses (clients : List Client) (address a : Nat × Nat)
    (h : a ∈ (erase_client clients address).1.map Client.m_address) :
    a ∈ clients.map Client.m_address := by
  unfold erase_client at h
  cases hg : get_client clients address with
  | none => rw [hg] at h; exact h
  | some i =>
    rw [hg] at h
    exact ((List.eraseIdx_sublist clients i).map Client.m_address).subset h

theorem process_datagram_addresses (env : Env) (s : Server) (front : (Nat × Nat) × List Nat)
    (a : Nat × Nat) (h : a ∈ (process_datagram env s front).m_clients.map Client.m_address) :
    a ∈ s.m_clients.map Client.m_address ∨ (a = front.1 ∧ is_client_response env front.2) := by
  unfold process_datagram at h
  simp only at h
  split_ifs at h with h1 h2 h3 h4 h5 h6 h7
  · exact Or.inl h
  · exact Or.inl h
  · rw [send_packet_addresses] at h
    simp only [List.map_append, List.mem_append, List.map_cons, List.map_nil,
      List.mem_singleton] at h
    rcases h with h | h
    · exact Or.inl h
    · right
      refine ⟨?_, h1, h3, h4⟩
      rw [h, (client_create_fields front.1 _ env.rand).1]
  · exact Or.inl h
  · exact Or.inl h
  · exact Or.inl (erase_client_addresses _ _ _ h)
  · exact Or.inl (erase_client_addresses _ _ _ h)
  · exact Or.inl h
  · exact Or.inl h

theorem run_datagrams_addresses (steps : List (Env × ((Nat × Nat) × List Nat))) (s : Server)
    (a : Nat × Nat) (h : a ∈ (run_datagrams s steps).m_clients.map Client.m_address) :
    a ∈ s.m_clients.map Client.m_address ∨
      ∃ step ∈ steps, step.2.1 = a ∧ is_client_response step.1 step.2.2 := by
  induction steps generalizing s with
  | nil => exact Or.inl h
  | cons step rest ih =>
    rcases ih (process_datagram step.1 s step.2) h with h1 | ⟨x, hx, hx2⟩
    · rcases process_datagram_addresses step.1 s step.2 a h1 with h2 | ⟨h2, h3⟩
      · exact Or.inl h2
      · exact Or.inr ⟨step, List.mem_cons_self _ _, h2.symm, h3⟩
    · exact Or.inr ⟨x, List.mem_cons_of_mem _ hx, hx2⟩

/-- C21 (violated by the code): a state reachable from an empty registry in which two sessions
have the same endpoint. Two accepted ClientResponse datagrams from `(1, 2302)` are read and
processed one after the other; the second `emplace_back` is not preceded by any search for a
session of the sender. -/
theorem registry_duplicate_endpoint :
    Reachable
        (process_received_data (fun _ => ⟨0, 0, 12345, fun _ => 0⟩)
          (read_data
            (process_received_data (fun _ => ⟨0, 0, 12345, fun _ => 0⟩)
              (read_data ⟨[], [], [], []⟩
                [((1, 2302), [0xFE, 0xFE, 0x03] ++ [0, 0, 0, 0] ++ List.replicate 32 0x41
                  ++ List.replicate 16 0x07 ++ store32 CLIENT_VERSION ++ [])]))
            [((1, 2302), [0xFE, 0xFE, 0x03] ++ [0, 0, 0, 0] ++ List.replicate 32 0x41
              ++ List.replicate 16 0x07 ++ store32 CLIENT_VERSION ++ [])])) ∧
      (process_received_data (fun _ => ⟨0, 0, 12345, fun _ => 0⟩)
          (read_data
            (process_received_data (fun _ => ⟨0, 0, 12345, fun _ => 0⟩)
              (read_data ⟨[], [], [], []⟩
                [((1, 2302), [0xFE, 0xFE, 0x03] ++ [0, 0, 0, 0] ++ List.replicate 32 0x41
                  ++ List.replicate 16 0x07 ++ store32 CLIENT_VERSION ++ [])]))
            [((1, 2302), [0xFE, 0xFE, 0x03] ++ [0, 0, 0, 0] ++ List.replicate 32 0x41
              ++ List.replicate 16 0x07 ++ store32 CLIENT_VERSION ++ [])])).m_clients.map
          Client.m_address
        = [(1, 2302), (1, 2302)] :=
  ⟨Reachable.process _ _ (Reachable.read _ _ (Reachable.process _ _
      (Reachable.read _ _ (Reachable.start ⟨[], [], [], []⟩ rfl)))),
    by decide⟩

/-- C22 (amended): in every run of the server from an empty registry, each session in the
registry belongs to an endpoint from which a ClientResponse datagram (magic `FE FE`, type
`0x03`, version `0x00096A27`) was processed in the run. -/
theorem session_from_client_response (s : Server)
    (steps : List (Env × ((Nat × Nat) × List Nat))) (h0 : s.m_clients = []) :
    ∀ c ∈ (run_datagrams s steps).m_clients,
      ∃ step ∈ steps, step.2.1 = c.m_address ∧ is_client_response step.1 step.2.2 := by
  intro c hc
  rcases run_datagrams_addresses steps s c.m_address (List.mem_map_of_mem _ hc) with h | h
  · rw [h0] at h
    cases h
  · exact h

/-- Witness for C22 (amended): the run that processes one ClientResponse from `(1, 2302)`. -/
theorem session_from_client_response_witness :
    (⟨[], [], [], []⟩ : Server).m_clients = [] ∧
    ∀ c ∈ (run_datagrams ⟨[], [], [], []⟩
        [(⟨0, 0, 12345, fun _ => 0⟩, ((1, 2302), [0xFE, 0xFE, 0x03] ++ [0, 0, 0, 0]
          ++ List.replicate 32 0x41 ++ List.replicate 16 0x07 ++ store32 CLIENT_VERSION
          ++ []))]).m_clients,
      ∃ step ∈ [((⟨0, 0, 12345, fun _ => 0⟩ : Env), (((1 : Nat), (2302 : Nat)),
          [0xFE, 0xFE, 0x03] ++ [0, 0, 0, 0]
          ++ List.replicate 32 0x41 ++ List.replicate 16 0x07 ++ store32 CLIENT_VERSION
          ++ []))],
        step.2.1 = c.m_address ∧ is_client_response step.1 step.2.2 :=
  ⟨rfl, session_from_client_response ⟨[], [], [], []⟩ _ rfl⟩

/-- Counterexample to C22 as stated: a run that processes a single ClientResponse from
`(1, 2302)` and no ClientChallenge at all ends with a session for `(1, 2302)` in the
registry. -/
theorem session_from_client_response_counterexample :
    (run_datagrams ⟨[], [], [], []⟩
        [(⟨0, 0, 12345, fun _ => 0⟩, ((1, 2302), [0xFE, 0xFE, 0x03] ++ [0, 0, 0, 0]
          ++ List.replicate 32 0x41 ++ List.replicate 16 0x07 ++ store32 CLIENT_VERSION
          ++ []))]).m_clients.map Client.m_address = [(1, 2302)] ∧
      ∀ step ∈ [((⟨0, 0, 12345, fun _ => 0⟩ : Env), (((1 : Nat), (2302 : Nat)),
          [0xFE, 0xFE, 0x03] ++ [0, 0, 0, 0]
          ++ List.replicate 32 0x41 ++ List.replicate 16 0x07 ++ store32 CLIENT_VERSION
          ++ []))], ¬ is_client_challenge step.1 step.2.2 := by
  refine ⟨by decide, ?_⟩
  intro step hs
  rw [List.mem_singleton] at hs
  subst hs
  decide

theorem get_client_found (pre : List Client) (c : Client) (post : List Client)
    (address : Nat × Nat) (hpre : ∀ x ∈ pre, x.m_address ≠ address)
    (hc : c.m_address = address) : get_client (pre ++ c :: post) address = some pre.length := by
  induction pre with
  | nil => rw [List.nil_append, get_client, if_pos hc]; rfl
  | cons x xs ih =>
    rw [List.cons_append, get_client, if_neg (hpre x (List.mem_cons_self _ _)),
      ih (fun y hy => hpre y (List.mem_cons_of_mem _ hy))]
    rfl

theorem eraseIdx_append_cons {α : Type} (pre : List α) (c : α) (post : List α) :
    (pre ++ c :: post).eraseIdx pre.length = pre ++ post := by
  induction pre with
  | nil => rfl
  | cons x xs ih => simp only [List.cons_append, List.length_cons, List.eraseIdx_cons_succ, ih]

theorem erase_client_found (pre : List Client) (c : Client) (post : List Client)
    (address : Nat × Nat) (hpre : ∀ x ∈ pre, x.m_address ≠ address)
    (hc : c.m_address = address) :
    erase_client (pre ++ c :: post) address = (pre ++ post, post.isEmpty) := by
  unfold erase_client
  rw [get_client_found pre c post address hpre hc]
  simp only [eraseIdx_append_cons, List.length_append]
  congr 1
  cases post with
  | nil => simp
  | cons y ys => simp

theorem erase_client_none (clients : List Client) (address : Nat × Nat)
    (h : ∀ c ∈ clients, c.m_address ≠ address) :
    erase_client clients address = (clients, true) := by
  unfold erase_client
  rw [get_client_none clients address h]

theorem process_datagram_disconnection (env : Env) (s : Server) (sender : Nat × Nat)
    (extra : List Nat) :
    process_datagram env s (sender, [0xFE, 0xFE, 0x68] ++ extra)
      = if (erase_client s.m_clients sender).2 then
          { s with
            m_clients := (erase_client s.m_clients sender).1
            console := s.console ++ [ConsoleLine.unknown_disconnection sender] }
        else { s with m_clients := (erase_client s.m_clients sender).1 } := by
  obtain ⟨h1, h2⟩ := packet_header_parse env 0x68 extra
  unfold process_datagram
  simp only
  rw [h1, h2, if_pos rfl, if_neg (by decide), if_neg (by decide), if_pos rfl]

/-- C23: for every registry and every Disconnection datagram (`FE FE 68`) from endpoint
`sender`, `process_received_data` removes the first session whose endpoint equals `sender` and
leaves the other sessions unchanged and in their order; when no session has that endpoint the
registry is unchanged. -/
theorem process_disconnection (env : Nat → Env) (s : Server) (sender : Nat × Nat)
    (extra : List Nat)
    (hq : s.m_received_raw_data = [(sender, [0xFE, 0xFE, 0x68] ++ extra)]) :
    (∀ pre c post, s.m_clients = pre ++ c :: post → (∀ x ∈ pre, x.m_address ≠ sender) →
        c.m_address = sender → (process_received_data env s).m_clients = pre ++ post) ∧
      ((∀ c ∈ s.m_clients, c.m_address ≠ sender) →
        (process_received_data env s).m_clients = s.m_clients) := by
  rw [process_received_data_single env s _ hq, process_datagram_disconnection]
  constructor
  · intro pre c post hs hpre hc
    rw [hs, erase_client_found pre c post sender hpre hc]
    split_ifs <;> rfl
  · intro h
    rw [erase_client_none s.m_clients sender h]
    rfl

/-- Witness for C23: a registry with sessions for `(2, 2302)`, `(1, 2302)` and `(1, 2302)`
again, and a Disconnection datagram from `(1, 2302)`: the second session goes. -/
theorem process_disconnection_witness :
    (process_received_data (fun _ => ⟨0, 0, 0, fun _ => 0⟩)
        ⟨[((1, 2302), [0xFE, 0xFE, 0x68] ++ [])],
          [⟨(2, 2302), 2, 2, [], [], [], []⟩] ++ ⟨(1, 2302), 2, 2, [], [], [], []⟩
            :: [⟨(1, 2302), 5, 7, [], [], [], []⟩], [], []⟩).m_clients
      = [⟨(2, 2302), 2, 2, [], [], [], []⟩] ++ [⟨(1, 2302), 5, 7, [], [], [], []⟩] :=
  (process_disconnection (fun _ => ⟨0, 0, 0, fun _ => 0⟩)
      ⟨[((1, 2302), [0xFE, 0xFE, 0x68] ++ [])],
        [⟨(2, 2302), 2, 2, [], [], [], []⟩] ++ ⟨(1, 2302), 2, 2, [], [], [], []⟩
          :: [⟨(1, 2302), 5, 7, [], [], [], []⟩], [], []⟩ (1, 2302) [] rfl).1
    [⟨(2, 2302), 2, 2, [], [], [], []⟩] ⟨(1, 2302), 2, 2, [], [], [], []⟩
    [⟨(1, 2302), 5, 7, [], [], [], []⟩] rfl (by decide) rfl

/-- C24 (violated by the code): a registry that holds the single session `(1, 2302)` and a
Disconnection datagram from `(1, 2302)`. The session is removed, and the "unknown client" line
is printed all the same: after the erase of the last element `client_it` equals
`m_clients.end()`. -/
theorem disconnection_of_last_session_logged_unknown :
    (process_received_data (fun _ => ⟨0, 0, 0, fun _ => 0⟩)
        ⟨[((1, 2302), [0xFE, 0xFE, 0x68])], [⟨(1, 2302), 2, 2, [], [], [], []⟩], [], []⟩).m_clients
      = [] ∧
    (process_received_data (fun _ => ⟨0, 0, 0, fun _ => 0⟩)
        ⟨[((1, 2302), [0xFE, 0xFE, 0x68])], [⟨(1, 2302), 2, 2, [], [], [], []⟩], [], []⟩).console
      = [ConsoleLine.unknown_disconnection (1, 2302)] :=
  ⟨rfl, rfl⟩

theorem process_received_data_loop_queue (env : Nat → Env) (fuel i : Nat) (s : Server)
    (h : (s.m_received_raw_data.length - i + 1) / 2 ≤ fuel) :
    (process_received_data_loop env fuel i s).m_received_raw_data
      = s.m_received_raw_data.drop ((s.m_received_raw_data.length - i + 1) / 2) := by
  induction fuel generalizing i s with
  | zero =>
    have h0 : (s.m_received_raw_data.length - i + 1) / 2 = 0 := Nat.le_zero.mp h
    rw [h0]
    rfl
  | succ n ih =>
    rw [process_received_data_loop]
    split_ifs with hi
    · cases hq : s.m_received_raw_data with
      | nil => rw [hq] at hi; exact absurd hi (Nat.not_lt_zero _)
      | cons front rest =>
        rw [hq] at hi h
        simp only [List.length_cons] at hi h ⊢
        have hk : (rest.length + 1 - i + 1) / 2 = (rest.length - (i + 1) + 1) / 2 + 1 := by
          omega
        rw [hk, List.drop_succ_cons]
        exact ih (i + 1) { process_datagram (env i) s front with m_received_raw_data := rest }
          (by show (rest.length - (i + 1) + 1) / 2 ≤ n; omega)
    · have h0 : (s.m_received_raw_data.length - i + 1) / 2 = 0 := by omega
      rw [h0]
      rfl

/-- C25 (violated by the code): one call of `process_received_data` takes only the first
`(n + 1) / 2` of `n` queued datagrams off the queue, because the loop counts `i` up while
`pop` brings `size()` down; of two queued ClientChallenge datagrams the first is answered and
the second stays in the queue. -/
theorem process_received_data_leaves_half :
    (∀ (env : Nat → Env) (s : Server),
        (process_received_data env s).m_received_raw_data
          = s.m_received_raw_data.drop ((s.m_received_raw_data.length + 1) / 2)) ∧
      (process_received_data (fun _ => ⟨0, 0, 0, fun _ => 0⟩)
          ⟨[((1, 2302), [0xFE, 0xFE, 0x01] ++ [0, 0, 0, 0] ++ halo_example_challenge),
            ((2, 2302), [0xFE, 0xFE, 0x01] ++ [0, 0, 0, 0] ++ halo_example_challenge)],
            [], [], []⟩).m_received_raw_data
        = [((2, 2302), [0xFE, 0xFE, 0x01] ++ [0, 0, 0, 0] ++ halo_example_challenge)] ∧
      (process_received_data (fun _ => ⟨0, 0, 0, fun _ => 0⟩)
          ⟨[((1, 2302), [0xFE, 0xFE, 0x01] ++ [0, 0, 0, 0] ++ halo_example_challenge),
            ((2, 2302), [0xFE, 0xFE, 0x01] ++ [0, 0, 0, 0] ++ halo_example_challenge)],
            [], [], []⟩).sent.map (fun p => p.1)
        = [(1, 2302)] := by
  refine ⟨?_, by decide, by decide⟩
  intro env s
  unfold process_received_data
  have h := process_received_data_loop_queue env s.m_received_raw_data.length 0 s (by omega)
  rw [h]
  rfl

theorem getD_lt_of_bytes_ok (raw : List Nat) (i : Nat) (hb : bytes_ok raw) :
    raw.getD i 0 < 256 := by
  by_cases hi : i < raw.length
  · rw [List.getD_eq_getElem raw 0 hi]
    exact hb _ (List.getElem_mem hi)
  · rw [List.getD_eq_default raw 0 (Nat.le_of_not_lt hi)]
    decide

theorem process_datagram_drop (env : Env) (s : Server) (sender : Nat × Nat) (raw : List Nat)
    (hb : bytes_ok raw)
    (h : (2 ≤ raw.length ∧ ¬ (raw.getD 0 0 = 0xFE ∧ raw.getD 1 0 = 0xFE)) ∨
      (3 ≤ raw.length ∧ raw.getD 2 0 ≠ 0x01 ∧ raw.getD 2 0 ≠ 0x03 ∧ raw.getD 2 0 ≠ 0x68)) :
    process_datagram env s (sender, raw) = s := by
  unfold process_datagram
  simp only
  rcases h with ⟨hl, hm⟩ | ⟨hl, h1, h3, h68⟩
  · have b0 := getD_lt_of_bytes_ok raw 0 hb
    have b1 := getD_lt_of_bytes_ok raw 1 hb
    rw [packet_byte_lt env raw 0 (by omega), packet_byte_lt env raw 1 (by omega), if_neg]
    intro he
    exact hm ⟨by omega, by omega⟩
  · rw [packet_byte_lt env raw 2 (by omega)]
    split_ifs <;> rfl

/-- C26: a datagram whose first two bytes are not `FE FE`, or whose type byte (the third) is
none of `0x01`, `0x03` and `0x68`, is dropped silently by `process_received_data`: nothing is
sent, nothing is logged and the registry is unchanged. -/
theorem process_unknown_datagram (env : Nat → Env) (s : Server) (sender : Nat × Nat)
    (raw : List Nat) (hb : bytes_ok raw)
    (h : (2 ≤ raw.length ∧ ¬ (raw.getD 0 0 = 0xFE ∧ raw.getD 1 0 = 0xFE)) ∨
      (3 ≤ raw.length ∧ raw.getD 2 0 ≠ 0x01 ∧ raw.getD 2 0 ≠ 0x03 ∧ raw.getD 2 0 ≠ 0x68))
    (hq : s.m_received_raw_data = [(sender, raw)]) :
    (process_received_data env s).sent = s.sent ∧
      (process_received_data env s).console = s.console ∧
      (process_received_data env s).m_clients = s.m_clients := by
  rw [process_received_data_single env s _ hq, process_datagram_drop (env 0) s sender raw hb h]
  exact ⟨rfl, rfl, rfl⟩

/-- Witness for C26: a datagram with the magic `FE FE` and the unknown type `0x02`, sent to a
server that holds one session. -/
theorem process_unknown_datagram_witness :
    (process_received_data (fun _ => ⟨0, 0, 0, fun _ => 0⟩)
        ⟨[((1, 2302), [0xFE, 0xFE, 0x02, 0, 0, 0, 1])], [⟨(1, 2302), 2, 2, [], [], [], []⟩],
          [], []⟩).sent = [] ∧
      (process_received_data (fun _ => ⟨0, 0, 0, fun _ => 0⟩)
        ⟨[((1, 2302), [0xFE, 0xFE, 0x02, 0, 0, 0, 1])], [⟨(1, 2302), 2, 2, [], [], [], []⟩],
          [], []⟩).console = [] ∧
      (process_received_data (fun _ => ⟨0, 0, 0, fun _ => 0⟩)
        ⟨[((1, 2302), [0xFE, 0xFE, 0x02, 0, 0, 0, 1])], [⟨(1, 2302), 2, 2, [], [], [], []⟩],
          [], []⟩).m_clients = [⟨(1, 2302), 2, 2, [], [], [], []⟩] :=
  process_unknown_datagram (fun _ => ⟨0, 0, 0, fun _ => 0⟩)
    ⟨[((1, 2302), [0xFE, 0xFE, 0x02, 0, 0, 0, 1])], [⟨(1, 2302), 2, 2, [], [], [], []⟩],
      [], []⟩ (1, 2302) [0xFE, 0xFE, 0x02, 0, 0, 0, 1] (by decide)
    (Or.inr (by decide)) rfl

theorem process_datagram_short_challenge (env : Env) (s : Server) (sender : Nat × Nat) :
    (process_datagram env s (sender, [0xFE, 0xFE, 0x01])).sent.map
        (fun p => (p.1, p.2.length)) = s.sent.map (fun p => (p.1, p.2.length)) ++ [(sender, 71)] := by
  obtain ⟨h1, h2⟩ := packet_header_parse env 0x01 []
  rw [List.append_nil] at h1 h2
  unfold process_datagram
  simp only
  rw [h1, h2, if_pos rfl, if_pos rfl]
  simp only [List.map_append, List.map_cons, List.map_nil, List.length_append,
    resolve_handshake_challenge_length, htons, List.length_cons, List.length_nil]

/-- C27 (violated by the code): a datagram too short for its type is not dropped. For every
state and every content of the memory behind the buffer, the 3-byte datagram `FE FE 01` is
answered with a 71-byte datagram; and the 3-byte datagram `FE FE 03` creates a session when
the four bytes at offsets 55 to 58 behind the buffer are `27 6A 09 00`. -/
theorem short_datagram_not_dropped :
    (∀ (env : Env) (s : Server) (sender : Nat × Nat),
        (process_datagram env s (sender, [0xFE, 0xFE, 0x01])).sent.map
            (fun p => (p.1, p.2.length))
          = s.sent.map (fun p => (p.1, p.2.length)) ++ [(sender, 71)]) ∧
      (process_received_data (fun _ => ⟨0, 0, 0, fun _ => 0⟩)
          ⟨[((1, 2302), [0xFE, 0xFE, 0x01])], [], [], []⟩).sent.map
            (fun p => (p.1, p.2.length)) = [((1, 2302), 71)] ∧
      (process_received_data
          (fun _ => ⟨0, 0, 12345, fun i => if i = 55 then 0x27 else if i = 56 then 0x6A
            else if i = 57 then 0x09 else 0⟩)
          ⟨[((1, 2302), [0xFE, 0xFE, 0x03])], [], [], []⟩).m_clients.map Client.m_address
        = [(1, 2302)] :=
  ⟨process_datagram_short_challenge, by decide, by decide⟩

theorem send_packet_head (s : Server) (c : Client) (rest : List Client) (data : List Nat)
    (h : s.m_clients = c :: rest) :
    (send_packet s c.m_address data).1
      = { s with
          sent := s.sent ++ [(c.m_address, data)]
          console := s.console ++ [ConsoleLine.sent_bytes data.length c.m_address]
          m_clients :=
            { c with m_server_packet_count := (c.m_server_packet_count + 1) % 65536 }
              :: rest } := by
  unfold send_packet
  rw [h]
  simp only [get_client, if_true, List.get?_cons_zero, List.set_cons_zero]

theorem disconnect_clients_loop_spec (fuel : Nat) (s : Server)
    (h : s.m_clients.length ≤ fuel) :
    (disconnect_clients_loop fuel s).sent
        = s.sent ++ s.m_clients.map (fun c => (c.m_address, [0xFE, 0xFE, 0x68])) ∧
      (disconnect_clients_loop fuel s).m_clients = [] := by
  induction fuel generalizing s with
  | zero =>
    have h0 : s.m_clients = [] := List.length_eq_zero.mp (Nat.le_zero.mp h)
    rw [disconnect_clients_loop, h0, List.map_nil, List.append_nil]
    exact ⟨rfl, rfl⟩
  | succ n ih =>
    cases hc : s.m_clients with
    | nil =>
      rw [disconnect_clients_loop, hc, List.map_nil, List.append_nil]
      exact ⟨rfl, hc⟩
    | cons c rest =>
      rw [disconnect_clients_loop, hc]
      simp only
      rw [send_packet_head s c rest _ hc]
      rw [hc, List.length_cons] at h
      obtain ⟨i1, i2⟩ := ih
        { s with
          sent := s.sent ++ [(c.m_address, [0xFE, 0xFE, 0x68])]
          console := s.console ++ [ConsoleLine.sent_bytes 3 c.m_address]
          m_clients := rest } (by show rest.length ≤ n; omega)
      refine ⟨?_, i2⟩
      have e : s.sent ++ (c.m_address, [0xFE, 0xFE, 0x68])
            :: rest.map (fun c => (c.m_address, [0xFE, 0xFE, 0x68]))
          = (s.sent ++ [(c.m_address, [0xFE, 0xFE, 0x68])])
            ++ rest.map (fun c => (c.m_address, [0xFE, 0xFE, 0x68])) := by
        rw [List.append_assoc, List.singleton_append]
      rw [List.map_cons, e]
      exact i1

/-- C28: for every registry, `disconnect_clients` sends exactly one 3-byte Disconnection
datagram `FE FE 68` to the endpoint of each session, in registry order, and returns with the
registry empty. -/
theorem disconnect_clients_spec (s : Server) :
    (disconnect_clients s).sent
        = s.sent ++ s.m_clients.map (fun c => (c.m_address, [0xFE, 0xFE, 0x68])) ∧
      (disconnect_clients s).m_clients = [] :=
  disconnect_clients_loop_spec s.m_clients.length s (le_refl _)

theorem write_loop_not_invalid (fuel : Nat) (bs : Bitstream) (left bits : Nat) :
    (Bitstream.write_loop fuel bs left bits).2 ≠ some BitstreamError.invalid_bits_amount := by
  induction fuel generalizing bs left bits with
  | zero =>
    rw [Bitstream.write_loop]
    by_cases h1 : bits > 0
    · rw [if_pos h1]; simp
    · rw [if_neg h1]; simp
  | succ n ih =>
    rw [Bitstream.write_loop]
    by_cases h1 : bits > 0
    · rw [if_pos h1]
      simp only
      generalize (if bs.m_bit_offset = 0 then bs.m_buffer ++ [0] else bs.m_buffer) = buf
      cases hg : buf.getLast? with
      | none => simp
      | some cur =>
        simp only
        by_cases h2 : 8 - bs.m_bit_offset ≥ bits
        · rw [if_pos h2]; exact ih _ _ _
        · rw [if_neg h2]; exact ih _ _ _
    · rw [if_neg h1]; simp

theorem write_loop_buffer_last (bs : Bitstream)
    (hv : bs.m_buffer = [] → bs.m_bit_offset = 0) :
    ∃ cur, (if bs.m_bit_offset = 0 then bs.m_buffer ++ [0] else bs.m_buffer).getLast?
      = some cur := by
  by_cases h0 : bs.m_bit_offset = 0
  · rw [if_pos h0]
    exact ⟨0, by simp⟩
  · rw [if_neg h0]
    cases hb : bs.m_buffer.getLast? with
    | none => exact absurd (hv (List.getLast?_eq_none_iff.mp hb)) h0
    | some cur => exact ⟨cur, rfl⟩

theorem write_loop_ok (fuel : Nat) (bs : Bitstream) (left bits : Nat) (hv : bs.valid)
    (hf : bits ≤ fuel) : (Bitstream.write_loop fuel bs left bits).2 = none := by
  induction fuel generalizing bs left bits with
  | zero =>
    rw [Bitstream.write_loop, if_neg (by omega)]
  | succ n ih =>
    obtain ⟨v1, v2⟩ := hv
    rw [Bitstream.write_loop]
    by_cases h1 : bits > 0
    · rw [if_pos h1]
      simp only
      obtain ⟨cur, hcur⟩ := write_loop_buffer_last bs v2
      rw [hcur]
      simp only
      by_cases h2 : 8 - bs.m_bit_offset ≥ bits
      · rw [if_pos h2]
        apply ih
        · exact ⟨Nat.mod_lt _ (by decide), by simp⟩
        · omega
      · rw [if_neg h2]
        apply ih
        · exact ⟨Nat.mod_lt _ (by decide), by simp⟩
        · omega
    · rw [if_neg h1]

theorem read_loop_not_invalid (bs : Bitstream) (n fuel output obo byo bio : Nat) :
    Bitstream.read_loop bs n fuel output obo byo bio
      ≠ Except.error BitstreamError.invalid_bits_amount := by
  induction fuel generalizing output obo byo bio with
  | zero =>
    rw [Bitstream.read_loop]
    by_cases h1 : obo < n
    · rw [if_pos h1]; intro h; cases h
    · rw [if_neg h1]; intro h; cases h
  | succ k ih =>
    rw [Bitstream.read_loop]
    by_cases h1 : obo < n
    · rw [if_pos h1]
      cases hg : bs.m_buffer.get? byo with
      | none => intro h; cases h
      | some cur =>
        simp only
        by_cases h2 : 32 ≤ n - obo
        · rw [if_pos h2]; intro h; cases h
        · rw [if_neg h2]; exact ih _ _ _ _
    · rw [if_neg h1]; intro h; cases h

theorem read_loop_ok (bs : Bitstream) (n fuel output obo byo bio : Nat) (hn : n ≤ 31)
    (hb : bio < 8) (hin : obo < n → 8 * byo + bio + (n - obo) ≤ 8 * bs.m_buffer.length)
    (hf : n - obo ≤ fuel) :
    ∃ v, Bitstream.read_loop bs n fuel output obo byo bio = Except.ok v := by
  induction fuel generalizing output obo byo bio with
  | zero =>
    rw [Bitstream.read_loop, if_neg (by omega)]
    exact ⟨output, rfl⟩
  | succ k ih =>
    rw [Bitstream.read_loop]
    by_cases h1 : obo < n
    · have hlt : byo < bs.m_buffer.length := by
        have := hin h1
        omega
      rw [if_pos h1, List.get?_eq_get hlt]
      simp only
      rw [if_neg (by omega)]
      apply ih
      · exact Nat.mod_lt _ (by decide)
      · intro h2
        have := hin h1
        have e : (bio + (8 - bio)) % 8 = 0 := by
          have : bio + (8 - bio) = 8 := by omega
          rw [this]
        rw [e]
        omega
      · omega
    · rw [if_neg h1]
      exact ⟨output, rfl⟩

/-- C29: `Bitstream::write(value, n)` and `Bitstream::read(offset, n)` end with the
`std::runtime_error` exactly when `n = 0` or `n > 32`, and a write that ends so leaves the
buffer and the bit offset as they were. For the other `n`, a write on a stream that satisfies
the class invariant returns, and a read of bits that lie inside the buffer returns a value
when `n` is at most 31 (for `n = 32` the mask `(1 << 32) - 1` of the first iteration has no
defined value, which is not the error of this claim). -/
theorem bitstream_invalid_bits_amount (bs : Bitstream) (value buffer_offset n : Nat) :
    ((bs.write value n).2 = some BitstreamError.invalid_bits_amount ↔ (n = 0 ∨ 32 < n)) ∧
      ((bs.write value n).2 = some BitstreamError.invalid_bits_amount →
        (bs.write value n).1 = bs) ∧
      (bs.read buffer_offset n = Except.error BitstreamError.invalid_bits_amount
        ↔ (n = 0 ∨ 32 < n)) ∧
      (bs.valid → 1 ≤ n → n ≤ 32 → (bs.write value n).2 = none) ∧
      (buffer_offset + n ≤ 8 * bs.m_buffer.length → 1 ≤ n → n ≤ 31 →
        ∃ v, bs.read buffer_offset n = Except.ok v) := by
  by_cases hn : n = 0 ∨ n > 32
  · have hw : bs.write value n = (bs, some BitstreamError.invalid_bits_amount) := by
      rw [Bitstream.write, if_pos hn]
    have hr : bs.read buffer_offset n = Except.error BitstreamError.invalid_bits_amount := by
      rw [Bitstream.read, if_pos hn]
    rw [hw, hr]
    refine ⟨⟨fun _ => hn, fun _ => rfl⟩, fun _ => rfl, ⟨fun _ => hn, fun _ => rfl⟩, ?_, ?_⟩
    · intro _ h1 h2; omega
    · intro _ h1 h2; omega
  · have hw : bs.write value n = Bitstream.write_loop n bs
        (if n < 32 then
          value % 4294967296 &&& ((1 <<< n) + 4294967296 - 1) % 4294967296
        else value % 4294967296) n := by
      rw [Bitstream.write, if_neg hn]
    have hr : bs.read buffer_offset n
        = Bitstream.read_loop bs n n 0 0 (buffer_offset / 8) (buffer_offset % 8) := by
      rw [Bitstream.read, if_neg hn]
    rw [hw, hr]
    refine ⟨⟨fun h => absurd h (write_loop_not_invalid _ _ _ _), fun h => absurd h hn⟩,
      fun h => absurd h (write_loop_not_invalid _ _ _ _),
      ⟨fun h => absurd h (read_loop_not_invalid _ _ _ _ _ _ _), fun h => absurd h hn⟩, ?_, ?_⟩
    · intro hv _ _
      exact write_loop_ok _ _ _ _ hv (le_refl _)
    · intro hin h1 h31
      apply read_loop_ok bs n n 0 0 _ _ h31 (Nat.mod_lt _ (by decide))
      · intro _
        have := Nat.div_add_mod buffer_offset 8
        omega
      · omega

/-- Witness for C29: writing 11 bits to an empty stream returns, and reading 11 bits back
from the two bytes it leaves returns a value. -/
theorem bitstream_invalid_bits_amount_witness :
    (Bitstream.write ⟨[], 0⟩ 0x5A5 11).2 = none ∧
      ∃ v, Bitstream.read ⟨[0xA5, 0x05], 3⟩ 0 11 = Except.ok v :=
  ⟨(bitstream_invalid_bits_amount ⟨[], 0⟩ 0x5A5 0 11).2.2.2.1 (by decide) (by decide)
      (by decide),
    (bitstream_invalid_bits_amount ⟨[0xA5, 0x05], 3⟩ 0 0 11).2.2.2.2 (by decide) (by decide)
      (by decide)⟩

/-- C30 (violated by the code): `PADDING_BIT(1)` expands through `GET_GAP` to the one-byte
array `char gap_106[1]`, not to the bit field of `BIT_GAP`; so the members that
`EncryptedPacket` declares before `data` take 3 bytes after the 7-byte base and `data` begins
at byte offset 10. With `BIT_GAP(1, 106)` in its place `data` would begin at byte offset 9. -/
theorem encrypted_packet_data_offset :
    PADDING_BIT 1 106 = Member.char_array "gap_106" 1 ∧
      data_offset EncryptedPacket_members = 10 ∧
      data_offset
          [Member.bit_field "data_lenght" 11, BIT_GAP 1 106, Member.flexible_char_array "data"]
        = 9 :=
  ⟨rfl, by decide, by decide⟩

theorem hex_table_lower (n : Nat) (h : n < 16) :
    is_lower_hex_digit (hex_table.getD n 0 ||| 0x20) := by
  interval_cases n <;> decide

theorem halo_create_randhash_loop_lower (fuel r : Nat) :
    ∀ c ∈ (halo_create_randhash_loop fuel r).map (fun c => c ||| 0x20),
      is_lower_hex_digit c := by
  induction fuel generalizing r with
  | zero => intro c hc; simp [halo_create_randhash_loop] at hc
  | succ k ih =>
    intro c hc
    simp only [halo_create_randhash_loop, List.map_cons, List.mem_cons] at hc
    rcases hc with hc | hc
    · rw [hc]
      have hm : ((r * 0x343FD + 0x269EC3) % 4294967296) >>> 16 &&& 15 < 16 := by
        have := Nat.and_pow_two_sub_one_eq_mod
          (((r * 0x343FD + 0x269EC3) % 4294967296) >>> 16) 4
        have e : (2 : Nat) ^ 4 - 1 = 15 := by norm_num
        rw [e] at this
        rw [this]
        exact Nat.mod_lt _ (by norm_num)
      exact hex_table_lower _ hm
    · exact ih _ c hc

theorem halo_generate_keys_none_eq (hash : List Nat) (seed : Nat) :
    halo_generate_keys hash none seed
      = halo_create_key [0x33, 0] (halo_create_randhash seed)
          [0x31, 0x30, 0x30, 0x30, 0x31, 0] := rfl

theorem halo_create_key_fst (keystr randhash fixnum : List Nat) :
    (halo_create_key keystr randhash fixnum).1 = (halo_hex2byte randhash).1 := by
  unfold halo_create_key
  dsimp only

theorem halo_generate_keys_none_hash (hash : List Nat) (seed : Nat) :
    (halo_generate_keys hash none seed).1
      = (halo_create_randhash_loop 16 (seed % 4294967296)).map (fun c => c ||| 0x20)
        ++ [0] := by
  obtain ⟨r1, r2⟩ := halo_create_randhash_loop_spec 16 (seed % 4294967296)
  rw [halo_generate_keys_none_eq, halo_create_key_fst]
  unfold halo_hex2byte halo_create_randhash
  exact (halo_hex2byte_loop_spec (halo_create_randhash_loop 16 (seed % 4294967296)) []
    (List.replicate 16 0) r2 wf16_zero.1).2.2

/-- C31 (amended): for every random seed, after `halo_generate_keys(hash, NULL, dest)` returns,
`hash` holds 16 characters each in `0-9a-f`, followed by a zero terminator: the digits that
`halo_create_randhash` drew, each OR-ed with `0x20` by `halo_hex2byte`. -/
theorem halo_generate_keys_hash_lower (hash : List Nat) (seed : Nat) :
    ∃ digits, (halo_generate_keys hash none seed).1 = digits ++ [0] ∧ digits.length = 16 ∧
      (∀ c ∈ digits, is_lower_hex_digit c) ∧
      digits = (halo_create_randhash_loop 16 (seed % 4294967296)).map (fun c => c ||| 0x20) :=
  ⟨_, halo_generate_keys_none_hash hash seed,
    by rw [List.length_map, (halo_create_randhash_loop_spec 16 _).1],
    halo_create_randhash_loop_lower 16 _, rfl⟩

set_option maxRecDepth 100000 in
/-- Counterexample to C31 as stated: with the seed 0, `hash` is left holding
`676575dd24d46991`, whose seventh character `d` (`0x64`) is not in `0-9A-F`. -/
theorem halo_generate_keys_hash_lower_counterexample :
    (halo_generate_keys (List.replicate 17 0) none 0).1
        = [0x36, 0x37, 0x36, 0x35, 0x37, 0x35, 0x64, 0x64, 0x32, 0x34, 0x64, 0x34, 0x36, 0x39,
          0x39, 0x31, 0] ∧
      ¬ ∀ c ∈ (halo_generate_keys (List.replicate 17 0) none 0).1.take 16,
        is_upper_hex_digit c := by
  decide

theorem halo_create_key_value (kd ed : List Nat) (hk : ∀ c ∈ kd, is_hex_digit c)
    (he : ∀ c ∈ ed, is_hex_digit c) (hkl : kd.length ≤ 32) (hel : ed.length ≤ 32)
    (hg : hex_value kd < 65537) :
    wf16 (halo_create_key (kd ++ [0]) (ed ++ [0]) [0x31, 0x30, 0x30, 0x30, 0x31, 0]).2 ∧
      be_val (halo_create_key (kd ++ [0]) (ed ++ [0]) [0x31, 0x30, 0x30, 0x30, 0x31, 0]).2
        = hex_value kd ^ hex_value ed % 65537 := by
  obtain ⟨k1, k2⟩ := halo_hex2byte_spec kd [] hk hkl
  obtain ⟨e1, e2⟩ := halo_hex2byte_spec ed [] he hel
  obtain ⟨f1, f2⟩ := halo_hex2byte_spec [0x31, 0x30, 0x30, 0x30, 0x31] [] (by decide)
    (by decide)
  have f3 : hex_value [0x31, 0x30, 0x30, 0x30, 0x31] = 65537 := by decide
  rw [f3] at f2
  obtain ⟨l1, l2⟩ := halo_create_key_loop_sim _ _ _ _ wf16_one.1 k1 e1 f1
  rw [wf16_one.2, k2, e2, f2] at l2
  have hlt : hex_value ed < 340282366920938463463374607431768211456 := by
    have := be_val_lt _ e1.2
    rw [e1.1, e2] at this
    norm_num at this
    exact this
  have hv := create_key_nat_eq (hex_value kd) (hex_value ed) hg hlt
  unfold create_key_nat at hv
  rw [hv] at l2
  exact ⟨l1, l2⟩

theorem halo_generate_keys_some_value (P digits : List Nat) (seed : Nat) (hP : wf16 P)
    (hlt : be_val P < 0x10001) (hlen : digits.length ≤ 32)
    (hd : ∀ c ∈ digits, is_hex_digit c) :
    wf16 (halo_generate_keys (digits ++ [0]) (some P) seed).2 ∧
      be_val (halo_generate_keys (digits ++ [0]) (some P) seed).2
        = be_val P ^ hex_value digits % 0x10001 := by
  have hdrop : bytes_ok (P.dropWhile (fun b => b == 0)) :=
    fun z hz => hP.2 z ((List.dropWhile_sublist _).subset hz)
  have hl : (P.dropWhile (fun b => b == 0)).length ≤ 16 := by
    have := (List.dropWhile_sublist (fun b => b == 0) (l := P)).length_le
    rw [hP.1] at this
    exact this
  obtain ⟨p1, p2, p3⟩ := hex_pairs_spec _ hdrop
  have hv : hex_value ((P.dropWhile (fun b => b == 0)).flatMap
      (fun b => [hex_table.getD (b >>> 4) 0, hex_table.getD (b &&& 15) 0])) = be_val P := by
    show hex_fold 0 _ = _
    rw [p3 0, be_val_dropWhile_zero]
    simp
  have := halo_create_key_value _ digits p1 hd (by rw [p2]; omega) hlen
    (by rw [hv]; exact hlt)
  rw [hv] at this
  exact this

theorem hex_value_three : hex_value [0x33] = 3 := by decide

theorem halo_create_key_public_value (a : List Nat) (hda : ∀ c ∈ a, is_hex_digit c)
    (hlen : a.length ≤ 32) :
    wf16 (halo_create_key [0x33, 0] (a ++ [0]) [0x31, 0x30, 0x30, 0x30, 0x31, 0]).2 ∧
      be_val (halo_create_key [0x33, 0] (a ++ [0]) [0x31, 0x30, 0x30, 0x30, 0x31, 0]).2
        = 3 ^ hex_value a % 65537 := by
  have h := halo_create_key_value [0x33] a (by decide) hda (by decide) hlen (by decide)
  rw [hex_value_three] at h
  exact h

theorem halo_shared_key_value (a b : List Nat) (s1 : Nat) (ha : a.length = 16)
    (hb : b.length = 16) (hda : ∀ c ∈ a, is_hex_digit c) (hdb : ∀ c ∈ b, is_hex_digit c) :
    (halo_generate_keys (a ++ [0])
        (some (halo_create_key [0x33, 0] (b ++ [0]) [0x31, 0x30, 0x30, 0x30, 0x31, 0]).2) s1).2
      = be_encode 16 (3 ^ (hex_value a * hex_value b) % 65537) := by
  obtain ⟨wb, vb⟩ := halo_create_key_public_value b hdb (by omega)
  generalize (halo_create_key [0x33, 0] (b ++ [0]) [0x31, 0x30, 0x30, 0x30, 0x31, 0]).2 = pb
    at wb vb ⊢
  have lb : be_val pb < 0x10001 := by rw [vb]; exact Nat.mod_lt _ (by norm_num)
  obtain ⟨w1, v1⟩ := halo_generate_keys_some_value pb a s1 wb lb (by omega) hda
  rw [vb, ← Nat.pow_mod, ← pow_mul, Nat.mul_comm] at v1
  have r1 := wf16_eq_encode _ w1
  rw [v1] at r1
  exact r1

theorem hex_digit_value_or (c : Nat) (h : is_hex_digit c) :
    hex_digit_value (c ||| 0x20) = hex_digit_value c ∧ is_hex_digit (c ||| 0x20) := by
  rcases h with ⟨h1, h2⟩ | ⟨h1, h2⟩ | ⟨h1, h2⟩ <;> interval_cases c <;> decide

theorem hex_fold_lower (s : List Nat) (hs : ∀ c ∈ s, is_hex_digit c) (acc : Nat) :
    hex_fold acc (s.map (fun c => c ||| 0x20)) = hex_fold acc s := by
  induction s generalizing acc with
  | nil => rfl
  | cons c t ih =>
    have hc := (hex_digit_value_or c (hs c (List.mem_cons_self _ _))).1
    simp only [hex_fold, List.map_cons, List.foldl_cons, hc]
    exact ih (fun x hx => hs x (List.mem_cons_of_mem _ hx)) _

theorem halo_generate_keys_none_snd (hash : List Nat) (seed : Nat) :
    (halo_generate_keys hash none seed).2
      = (halo_create_key [0x33, 0] (halo_create_randhash_loop 16 (seed % 4294967296) ++ [0])
          [0x31, 0x30, 0x30, 0x30, 0x31, 0]).2 := by
  rw [halo_generate_keys_none_eq]
  rfl

/-- C33: key agreement. For all private keys `a` and `b` of 16 hex digits, with `pub(x)` the
key that `halo_create_key` derives from the base "3", the private key `x` and the modulus
"10001" (what `halo_generate_keys` does when the source key is absent), the shared key derived
from `(a, pub(b))` equals the shared key derived from `(b, pub(a))`; both are the 16-byte
big-endian encoding of `3 ^ (a * b) mod 65537`. In particular two parties that each call
`halo_generate_keys` with an absent source key, whatever their seeds, and then call it again
with their own `hash` and the key of the other, end with the same key. -/
theorem halo_key_agreement (a b : List Nat) (s1 s2 : Nat) (ha : a.length = 16)
    (hb : b.length = 16) (hda : ∀ c ∈ a, is_hex_digit c) (hdb : ∀ c ∈ b, is_hex_digit c) :
    (halo_generate_keys (a ++ [0])
        (some (halo_create_key [0x33, 0] (b ++ [0]) [0x31, 0x30, 0x30, 0x30, 0x31, 0]).2) s1).2
      = (halo_generate_keys (b ++ [0])
        (some (halo_create_key [0x33, 0] (a ++ [0]) [0x31, 0x30, 0x30, 0x30, 0x31, 0]).2) s2).2 ∧
    (halo_generate_keys (a ++ [0])
        (some (halo_create_key [0x33, 0] (b ++ [0]) [0x31, 0x30, 0x30, 0x30, 0x31, 0]).2) s1).2
      = be_encode 16 (3 ^ (hex_value a * hex_value b) % 65537) ∧
    ∀ hash1 hash2 seed1 seed2,
      (halo_generate_keys (halo_generate_keys hash1 none seed1).1
          (some (halo_generate_keys hash2 none seed2).2) s1).2
        = (halo_generate_keys (halo_generate_keys hash2 none seed2).1
          (some (halo_generate_keys hash1 none seed1).2) s2).2 := by
  refine ⟨?_, halo_shared_key_value a b s1 ha hb hda hdb, ?_⟩
  · rw [halo_shared_key_value a b s1 ha hb hda hdb, halo_shared_key_value b a s2 hb ha hdb hda,
      Nat.mul_comm]
  · intro hash1 hash2 seed1 seed2
    obtain ⟨l1, d1⟩ := halo_create_randhash_loop_spec 16 (seed1 % 4294967296)
    obtain ⟨l2, d2⟩ := halo_create_randhash_loop_spec 16 (seed2 % 4294967296)
    rw [halo_generate_keys_none_hash, halo_generate_keys_none_hash,
      halo_generate_keys_none_snd, halo_generate_keys_none_snd]
    generalize halo_create_randhash_loop 16 (seed1 % 4294967296) = x1 at l1 d1 ⊢
    generalize halo_create_randhash_loop 16 (seed2 % 4294967296) = x2 at l2 d2 ⊢
    have m1 : ∀ c ∈ x1.map (fun c => c ||| 0x20), is_hex_digit c := by
      intro c hc
      obtain ⟨y, hy, e⟩ := List.mem_map.1 hc
      rw [← e]
      exact (hex_digit_value_or y (d1 y hy)).2
    have m2 : ∀ c ∈ x2.map (fun c => c ||| 0x20), is_hex_digit c := by
      intro c hc
      obtain ⟨y, hy, e⟩ := List.mem_map.1 hc
      rw [← e]
      exact (hex_digit_value_or y (d2 y hy)).2
    rw [halo_shared_key_value _ x2 s1 (by rw [List.length_map, l1]) l2 m1 d2,
      halo_shared_key_value _ x1 s2 (by rw [List.length_map, l2]) l1 m2 d1]
    have v1 : hex_value (x1.map (fun c => c ||| 0x20)) = hex_value x1 := hex_fold_lower x1 d1 0
    have v2 : hex_value (x2.map (fun c => c ||| 0x20)) = hex_value x2 := hex_fold_lower x2 d2 0
    rw [v1, v2, Nat.mul_comm]

theorem exists_first_client (clients : List Client) (address : Nat × Nat)
    (h : ∃ c ∈ clients, c.m_address = address) :
    ∃ pre c post, clients = pre ++ c :: post ∧ (∀ x ∈ pre, x.m_address ≠ address) ∧
      c.m_address = address := by
  induction clients with
  | nil => obtain ⟨c, hc, _⟩ := h; cases hc
  | cons x xs ih =>
    by_cases hx : x.m_address = address
    · exact ⟨[], x, xs, rfl, fun y hy => (List.not_mem_nil _ hy).elim, hx⟩
    · obtain ⟨c, hc, hca⟩ := h
      rcases List.mem_cons.1 hc with h1 | h1
      · exact absurd (h1 ▸ hca) hx
      · obtain ⟨pre, c', post, e, hp, hc'⟩ := ih ⟨c, h1, hca⟩
        refine ⟨x :: pre, c', post, by rw [e]; rfl, ?_, hc'⟩
        intro y hy
        rcases List.mem_cons.1 hy with h2 | h2
        · rw [h2]; exact hx
        · exact hp y h2

theorem get_append_cons {α : Type} (pre : List α) (c : α) (post : List α) :
    (pre ++ c :: post).get? pre.length = some c := by
  induction pre with
  | nil => rfl
  | cons x xs ih => simp only [List.cons_append, List.length_cons, List.get?_cons_succ, ih]

theorem set_append_cons {α : Type} (pre : List α) (c c' : α) (post : List α) :
    (pre ++ c :: post).set pre.length c' = pre ++ c' :: post := by
  induction pre with
  | nil => rfl
  | cons x xs ih => simp only [List.cons_append, List.length_cons, List.set_cons_succ, ih]

theorem send_packet_found (s : Server) (address : Nat × Nat) (packet_data : List Nat)
    (pre : List Client) (c : Client) (post : List Client) (hs : s.m_clients = pre ++ c :: post)
    (hpre : ∀ x ∈ pre, x.m_address ≠ address) (hc : c.m_address = address) :
    send_packet s address packet_data
      = ({ s with
            sent := s.sent ++ [(address, packet_data)]
            console := s.console ++ [ConsoleLine.sent_bytes packet_data.length address]
            m_clients := pre ++
              { c with m_server_packet_count := (c.m_server_packet_count + 1) % 65536 }
                :: post }, true) := by
  unfold send_packet
  rw [hs, get_client_found pre c post address hpre hc]
  simp only
  rw [get_append_cons]
  simp only
  rw [set_append_cons, hc]

theorem send_packet_not_found (s : Server) (address : Nat × Nat) (packet_data : List Nat)
    (h : ∀ c ∈ s.m_clients, c.m_address ≠ address) :
    send_packet s address packet_data = (s, false) := by
  unfold send_packet
  rw [get_client_none s.m_clients address h]

theorem count_bound_append (l : List Client) (n : Client) (h : count_bound l)
    (hn : n.m_server_packet_count ≤ 2) : count_bound (l ++ [n]) := by
  induction l with
  | nil =>
    refine ⟨?_, trivial⟩
    simp only [List.map_cons, List.map_nil, List.count_cons_self]
    omega
  | cons c rest ih =>
    obtain ⟨h1, h2⟩ := h
    refine ⟨?_, ih h2⟩
    show c.m_server_packet_count
      ≤ 1 + ((c :: (rest ++ [n])).map Client.m_address).count c.m_address
    rw [List.map_cons, List.map_append, List.count_cons_self, List.count_append]
    simp only [List.map_cons, List.count_cons_self] at h1
    omega

theorem count_bound_bump (l : List Client) (n : Client) (address : Nat × Nat)
    (h : count_bound l) (hn : n.m_server_packet_count = 1) (hna : n.m_address = address)
    (pre : List Client) (c : Client) (post : List Client) (hs : l ++ [n] = pre ++ c :: post)
    (hpre : ∀ x ∈ pre, x.m_address ≠ address) (hc : c.m_address = address) :
    count_bound
      (pre ++ { c with m_server_packet_count := (c.m_server_packet_count + 1) % 65536 }
        :: post) := by
  induction l generalizing pre with
  | nil =>
    cases pre with
    | nil =>
      simp only [List.nil_append, List.cons.injEq] at hs
      obtain ⟨e1, e2⟩ := hs
      subst e1 e2
      refine ⟨?_, trivial⟩
      simp only [hn, List.nil_append, List.map_cons, List.map_nil, List.count_cons_self]
      omega
    | cons y pre' =>
      simp only [List.nil_append, List.cons_append, List.cons.injEq] at hs
      have := congrArg List.length hs.2
      simp at this
      omega
  | cons x rest ih =>
    obtain ⟨h1, h2⟩ := h
    cases pre with
    | nil =>
      simp only [List.nil_append, List.cons_append, List.cons.injEq] at hs
      obtain ⟨e1, e2⟩ := hs
      subst e1
      rw [← e2, List.nil_append]
      refine ⟨?_, count_bound_append rest n h2 (by omega)⟩
      show (x.m_server_packet_count + 1) % 65536
        ≤ 1 + (x.m_address :: (rest ++ [n]).map Client.m_address).count x.m_address
      rw [List.count_cons_self, List.map_append, List.count_append, List.map_cons, List.map_nil,
        hna, ← hc, List.count_cons_self]
      simp only [List.map_cons, List.count_cons_self] at h1
      have := Nat.mod_le (x.m_server_packet_count + 1) 65536
      omega
    | cons y pre' =>
      simp only [List.cons_append, List.cons.injEq] at hs
      obtain ⟨e1, e2⟩ := hs
      subst e1
      refine ⟨?_, ih h2 pre' e2 (fun z hz => hpre z (List.mem_cons_of_mem _ hz))⟩
      have hmap : (x :: (pre' ++ { c with m_server_packet_count :=
            (c.m_server_packet_count + 1) % 65536 } :: post)).map Client.m_address
          = (x :: (rest ++ [n])).map Client.m_address := by
        rw [List.map_cons, List.map_cons, e2]
        simp only [List.map_append, List.map_cons]
      show x.m_server_packet_count ≤ 1 + ((x :: (pre' ++ { c with m_server_packet_count :=
            (c.m_server_packet_count + 1) % 65536 } :: post)).map Client.m_address).count
              x.m_address
      rw [hmap, ← List.cons_append, List.map_append, List.count_append]
      omega

theorem count_bound_erase (l : List Client) (address : Nat × Nat) (h : count_bound l) :
    count_bound (erase_client l address).1 := by
  by_cases hex : ∃ c ∈ l, c.m_address = address
  · obtain ⟨pre, c, post, hs, hpre, hc⟩ := exists_first_client l address hex
    rw [hs, erase_client_found pre c post address hpre hc]
    show count_bound (pre ++ post)
    rw [hs] at h
    clear hs hex
    induction pre with
    | nil => exact h.2
    | cons x pre' ih =>
      obtain ⟨h1, h2⟩ := h
      have hx : x.m_address ≠ address := hpre x (List.mem_cons_self _ _)
      refine ⟨?_, ih h2 (fun z hz => hpre z (List.mem_cons_of_mem _ hz))⟩
      have hcx : x.m_address ≠ c.m_address := by rw [hc]; exact hx
      have e : ((x :: pre' ++ c :: post).map Client.m_address).count x.m_address
          = ((x :: pre' ++ post).map Client.m_address).count x.m_address := by
        simp only [List.cons_append, List.map_cons, List.map_append, List.count_cons_self,
          List.count_append, List.count_cons_of_ne hcx]
      show x.m_server_packet_count
        ≤ 1 + ((x :: pre' ++ post).map Client.m_address).count x.m_address
      rw [← e]
      exact h1
  · have hall : ∀ c ∈ l, c.m_address ≠ address := fun c hc hca => hex ⟨c, hc, hca⟩
    rw [erase_client_none l address hall]
    exact h

theorem count_bound_process_datagram (env : Env) (s : Server) (front : (Nat × Nat) × List Nat)
    (h : count_bound s.m_clients) : count_bound (process_datagram env s front).m_clients := by
  unfold process_datagram
  simp only
  split_ifs with h1 h2 h3 h4 h5 h6 h7 h8
  · exact h
  · exact h
  · obtain ⟨f1, _, f3, _⟩ := client_create_fields front.1 (packet_bytes env front.2 39 16)
      env.rand
    generalize Client.create front.1 (packet_bytes env front.2 39 16) env.rand = n at f1 f3 ⊢
    obtain ⟨pre, c, post, hs, hpre, hc⟩ := exists_first_client (s.m_clients ++ [n]) front.1
      ⟨n, by simp, f1⟩
    rw [send_packet_found _ front.1 _ pre c post hs hpre hc]
    exact count_bound_bump s.m_clients n front.1 h f3 f1 pre c post hs hpre hc
  · exact h
  · exact h
  · exact count_bound_erase _ _ h
  · exact count_bound_erase _ _ h
  · exact h
  · exact h

theorem count_bound_process_loop (env : Nat → Env) (fuel i : Nat) (s : Server)
    (h : count_bound s.m_clients) :
    count_bound (process_received_data_loop env fuel i s).m_clients := by
  induction fuel generalizing i s with
  | zero => exact h
  | succ n ih =>
    rw [process_received_data_loop]
    split_ifs with hi
    · cases hq : s.m_received_raw_data with
      | nil => exact h
      | cons front rest =>
        exact ih (i + 1) _ (count_bound_process_datagram (env i) s front h)
    · exact h

theorem count_bound_le (l : List Client) (h : count_bound l) :
    ∀ c ∈ l, c.m_server_packet_count ≤ 1 + l.length := by
  induction l with
  | nil => intro c hc; cases hc
  | cons x rest ih =>
    obtain ⟨h1, h2⟩ := h
    intro c hc
    rcases List.mem_cons.1 hc with e | e
    · rw [e]
      have := List.count_le_length x.m_address ((x :: rest).map Client.m_address)
      rw [List.length_map] at this
      omega
    · have := ih h2 c e
      rw [List.length_cons]
      omega

theorem reachable_count_le (s : Server) (h : Reachable s) :
    ∀ c ∈ s.m_clients, c.m_server_packet_count ≤ 17 := by
  have hb : count_bound s.m_clients ∧ s.m_clients.length ≤ 16 := by
    induction h with
    | start s h0 => rw [h0]; exact ⟨trivial, Nat.zero_le _⟩
    | read s received _ ih => exact ih
    | datagram env s front _ ih =>
      exact ⟨count_bound_process_datagram env s front ih.1,
        process_datagram_clients_le env s front ih.2⟩
    | process env s _ ih =>
      exact ⟨count_bound_process_loop env _ 0 s ih.1,
        process_received_data_loop_clients_le env _ 0 s ih.2⟩
  intro c hc
  have := count_bound_le _ hb.1 c hc
  omega

/-- C32: `Server::send_packet(address, data)` returns true exactly when some session in the
registry has that address; in that case it sends `data` to that address and increases the
server packet count of the first session with that address by 1, leaving every other session
unchanged; otherwise it sends nothing and changes nothing. The count is a 16-bit counter, so
65535 would go to 0; in the states the server reaches from an empty registry no count exceeds
17. -/
theorem send_packet_spec (s : Server) (address : Nat × Nat) (packet_data : List Nat) :
    ((send_packet s address packet_data).2 = true
        ↔ ∃ c ∈ s.m_clients, c.m_address = address) ∧
      (∀ pre c post, s.m_clients = pre ++ c :: post → (∀ x ∈ pre, x.m_address ≠ address) →
        c.m_address = address →
        (send_packet s address packet_data).1.sent = s.sent ++ [(address, packet_data)] ∧
        (send_packet s address packet_data).1.m_clients
          = pre ++ { c with m_server_packet_count := (c.m_server_packet_count + 1) % 65536 }
              :: post ∧
        (c.m_server_packet_count < 65535 →
          (send_packet s address packet_data).1.m_clients
            = pre ++ { c with m_server_packet_count := c.m_server_packet_count + 1 }
                :: post)) ∧
      (Reachable s → ∀ c ∈ s.m_clients, c.m_server_packet_count < 65535) ∧
      ((∀ c ∈ s.m_clients, c.m_address ≠ address) →
        (send_packet s address packet_data).1 = s) := by
  refine ⟨⟨fun h => ?_, fun h => ?_⟩, fun pre c post hs hpre hc => ?_,
    fun hr c hc => lt_of_le_of_lt (reachable_count_le s hr c hc) (by norm_num), fun h => ?_⟩
  · by_contra hne
    have hall : ∀ c ∈ s.m_clients, c.m_address ≠ address :=
      fun c hc hca => hne ⟨c, hc, hca⟩
    rw [send_packet_not_found s address packet_data hall] at h
    cases h
  · obtain ⟨pre, c, post, hs, hpre, hc⟩ := exists_first_client s.m_clients address h
    rw [send_packet_found s address packet_data pre c post hs hpre hc]
  · rw [send_packet_found s address packet_data pre c post hs hpre hc]
    refine ⟨rfl, rfl, fun hlt => ?_⟩
    show pre ++ _ :: post = _
    rw [Nat.mod_eq_of_lt (by omega)]
  · rw [send_packet_not_found s address packet_data h]

/-- Witness for C32: a registry with sessions for `(2, 2302)`, `(1, 2302)` and `(1, 2302)`
again, and a packet for `(1, 2302)`: the count of the second session goes from 2 to 3. -/
theorem send_packet_spec_witness :
    (send_packet
        ⟨[], [⟨(2, 2302), 2, 2, [], [], [], []⟩] ++ ⟨(1, 2302), 2, 2, [], [], [], []⟩
          :: [⟨(1, 2302), 5, 7, [], [], [], []⟩], [], []⟩ (1, 2302) [0xFE, 0xFE, 0x68]).1.m_clients
      = [⟨(2, 2302), 2, 2, [], [], [], []⟩] ++ ⟨(1, 2302), 2, 3, [], [], [], []⟩
          :: [⟨(1, 2302), 5, 7, [], [], [], []⟩] :=
  ((send_packet_spec
      ⟨[], [⟨(2, 2302), 2, 2, [], [], [], []⟩] ++ ⟨(1, 2302), 2, 2, [], [], [], []⟩
        :: [⟨(1, 2302), 5, 7, [], [], [], []⟩], [], []⟩ (1, 2302) [0xFE, 0xFE, 0x68]).2.1
    [⟨(2, 2302), 2, 2, [], [], [], []⟩] ⟨(1, 2302), 2, 2, [], [], [], []⟩
    [⟨(1, 2302), 5, 7, [], [], [], []⟩] rfl (by decide) rfl).2.2 (by decide)

/-- Witness for C33: the private keys `0C3D4D550CF0B4EC` and `676575DD24D46991`. -/
theorem halo_key_agreement_witness :
    (halo_generate_keys
        ([0x30, 0x43, 0x33, 0x44, 0x34, 0x44, 0x35, 0x35, 0x30, 0x43, 0x46, 0x30, 0x42, 0x34,
          0x45, 0x43] ++ [0])
        (some (halo_create_key [0x33, 0]
          ([0x36, 0x37, 0x36, 0x35, 0x37, 0x35, 0x44, 0x44, 0x32, 0x34, 0x44, 0x34, 0x36, 0x39,
            0x39, 0x31] ++ [0]) [0x31, 0x30, 0x30, 0x30, 0x31, 0]).2) 0).2
      = (halo_generate_keys
        ([0x36, 0x37, 0x36, 0x35, 0x37, 0x35, 0x44, 0x44, 0x32, 0x34, 0x44, 0x34, 0x36, 0x39,
          0x39, 0x31] ++ [0])
        (some (halo_create_key [0x33, 0]
          ([0x30, 0x43, 0x33, 0x44, 0x34, 0x44, 0x35, 0x35, 0x30, 0x43, 0x46, 0x30, 0x42, 0x34,
            0x45, 0x43] ++ [0]) [0x31, 0x30, 0x30, 0x30, 0x31, 0]).2) 0).2 :=
  (halo_key_agreement
    [0x30, 0x43, 0x33, 0x44, 0x34, 0x44, 0x35, 0x35, 0x30, 0x43, 0x46, 0x30, 0x42, 0x34,
      0x45, 0x43]
    [0x36, 0x37, 0x36, 0x35, 0x37, 0x35, 0x44, 0x44, 0x32, 0x34, 0x44, 0x34, 0x36, 0x39,
      0x39, 0x31] 0 0 rfl rfl (by decide) (by decide)).1

theorem fix_check_nat_props (x m : Nat) (hx : x ≤ 2 * m) :
    fix_check_nat x m ≤ m ∧ fix_check_nat x m % m = x % m ∧
      (0 < fix_check_nat x m ↔ 0 < x) := by
  unfold fix_check_nat
  by_cases h : x > m
  · rw [if_pos h]
    refine ⟨by omega, ?_, by omega⟩
    have e : x = (x - m) + m := by omega
    conv_rhs => rw [e, Nat.add_mod_right]
  · rw [if_neg h]
    exact ⟨by omega, rfl, Iff.rfl⟩

theorem key_scramble_loop_general (m a b : Nat)
    (hm : 2 * m < 340282366920938463463374607431768211456) (hb : b ≤ m) (k : Nat) :
    ∃ r t, loop_n (key_scramble_body_nat m) k (0, a, b) = (r, a / 2 ^ k, t) ∧
      r ≤ m ∧ t ≤ m ∧ r % m = (a % 2 ^ k * b) % m ∧ t % m = (b * 2 ^ k) % m ∧
      (0 < t ↔ 0 < b) ∧ (0 < r ↔ 0 < a % 2 ^ k ∧ 0 < b) := by
  induction k with
  | zero =>
    refine ⟨0, b, ?_, Nat.zero_le _, hb, ?_, ?_, Iff.rfl, ?_⟩
    · simp only [loop_n, pow_zero, Nat.div_one]
    · simp only [pow_zero, Nat.mod_one, Nat.zero_mul]
    · simp only [pow_zero, Nat.mul_one]
    · simp only [pow_zero, Nat.mod_one]
      omega
  | succ k ih =>
    obtain ⟨r, t, hl, hr, ht, hrm, htm, htp, hrp⟩ := ih
    have hsplit : a % 2 ^ (k + 1) = a % 2 ^ k + 2 ^ k * (a / 2 ^ k % 2) := Nat.mod_pow_succ
    have e1 : a / 2 ^ k / 2 = a / 2 ^ (k + 1) := by
      rw [Nat.div_div_eq_div_mul, pow_succ]
    have hpow : 0 < 2 ^ k := Nat.pos_pow_of_pos k (by norm_num)
    obtain ⟨t1, t2, t3⟩ := fix_check_nat_props (2 * t) m (by omega)
    rw [loop_n_succ_last, hl]
    simp only [key_scramble_body_nat]
    rw [Nat.mod_eq_of_lt (show 2 * t < 340282366920938463463374607431768211456 by omega), e1]
    have htm' : fix_check_nat (2 * t) m % m = (b * 2 ^ (k + 1)) % m := by
      rw [t2, Nat.mul_mod, htm, ← Nat.mul_mod, pow_succ]
      congr 1; ring
    by_cases hbit : a / 2 ^ k % 2 ≠ 0
    · rw [if_pos hbit]
      have hb1 : a / 2 ^ k % 2 = 1 := by omega
      rw [hb1, Nat.mul_one] at hsplit
      obtain ⟨s1, s2, s3⟩ := fix_check_nat_props (r + t) m (by omega)
      rw [Nat.mod_eq_of_lt (show r + t < 340282366920938463463374607431768211456 by omega)]
      refine ⟨_, _, rfl, s1, t1, ?_, htm', ?_, ?_⟩
      · rw [s2, Nat.add_mod, hrm, htm, ← Nat.add_mod, hsplit]
        congr 1; ring
      · rw [t3]; omega
      · rw [s3, hsplit]; omega
    · rw [if_neg hbit]
      have hb0 : a / 2 ^ k % 2 = 0 := by omega
      have hs2 : a % 2 ^ (k + 1) = a % 2 ^ k := by rw [hsplit, hb0, Nat.mul_zero, Nat.add_zero]
      refine ⟨_, _, rfl, hr, t1, ?_, htm', ?_, ?_⟩
      · rw [hs2]; exact hrm
      · rw [t3]; omega
      · rw [hs2]; exact hrp

theorem key_scramble_nat_general (m a b : Nat) (hm0 : 0 < m)
    (hm : 2 * m < 340282366920938463463374607431768211456) (ha : a < m) (hb : b < m) :
    key_scramble_nat a b m
      = if (a * b) % m = 0 ∧ 0 < a ∧ 0 < b then m else (a * b) % m := by
  obtain ⟨r, t, hl, hr, _, hrm, _, _, hrp⟩ := key_scramble_loop_general m a b hm (le_of_lt hb) 128
  have ha' : a % 2 ^ 128 = a := Nat.mod_eq_of_lt (by norm_num; omega)
  rw [ha'] at hrm hrp
  unfold key_scramble_nat
  rw [hl]
  show r = _
  by_cases hpos : 0 < a ∧ 0 < b
  · have hr0 : 0 < r := hrp.2 hpos
    by_cases hrm' : r = m
    · have h0 : (a * b) % m = 0 := by rw [← hrm, hrm', Nat.mod_self]
      rw [if_pos ⟨h0, hpos⟩, hrm']
    · have hlt : r < m := by omega
      have e : (a * b) % m = r := by rw [← hrm, Nat.mod_eq_of_lt hlt]
      rw [if_neg (by rw [e]; omega), e]
  · have hr0 : r = 0 := by
      by_contra hne
      exact hpos (hrp.1 (Nat.pos_of_ne_zero hne))
    have hab : a * b = 0 := by
      rcases Nat.eq_zero_or_pos a with h | h
      · rw [h, Nat.zero_mul]
      · rcases Nat.eq_zero_or_pos b with h' | h'
        · rw [h', Nat.mul_zero]
        · exact absurd ⟨h, h'⟩ hpos
    rw [if_neg (fun h => hpos h.2), hab, Nat.zero_mod, hr0]

/-- C34 (amended): for all 16-byte values `a`, `b` and modulus `M` with `0 < M < 2^127`,
`a < M` and `b < M`, `halo_key_scramble(a, b, M)` leaves its first argument equal to
`(a * b) mod M`, except that it is `M` instead of 0 when `a` and `b` are not zero and `M`
divides `a * b`; for a prime `M`, such as `0x10001`, it is always `(a * b) mod M`. -/
theorem halo_key_scramble_value (key1 key2 fixnumb : List Nat) (h1 : wf16 key1)
    (h2 : wf16 key2) (hf : wf16 fixnumb) (hm0 : 0 < be_val fixnumb)
    (hm : be_val fixnumb < 2 ^ 127) (ha : be_val key1 < be_val fixnumb)
    (hb : be_val key2 < be_val fixnumb) :
    wf16 (halo_key_scramble key1 key2 fixnumb) ∧
      be_val (halo_key_scramble key1 key2 fixnumb)
        = (if (be_val key1 * be_val key2) % be_val fixnumb = 0 ∧ 0 < be_val key1 ∧
              0 < be_val key2 then be_val fixnumb
            else (be_val key1 * be_val key2) % be_val fixnumb) ∧
      (Nat.Prime (be_val fixnumb) →
        be_val (halo_key_scramble key1 key2 fixnumb)
          = (be_val key1 * be_val key2) % be_val fixnumb) := by
  obtain ⟨w, v⟩ := halo_key_scramble_sim key1 key2 fixnumb h1 h2 hf
  have hg := key_scramble_nat_general (be_val fixnumb) (be_val key1) (be_val key2) hm0
    (by norm_num at hm ⊢; omega) ha hb
  rw [hg] at v
  refine ⟨w, v, fun hp => ?_⟩
  rw [v, if_neg]
  rintro ⟨h0, hapos, hbpos⟩
  rcases (Nat.Prime.dvd_mul hp).1 (Nat.dvd_of_mod_eq_zero h0) with hd | hd
  · exact absurd (Nat.le_of_dvd hapos hd) (by omega)
  · exact absurd (Nat.le_of_dvd hbpos hd) (by omega)

set_option maxRecDepth 100000 in
/-- Witness for C34 (amended): `a = 0x1234`, `b = 0xABCD` and `M = 0x10001`. -/
theorem halo_key_scramble_value_witness :
    wf16 (halo_key_scramble (List.replicate 14 0 ++ [0x12, 0x34])
        (List.replicate 14 0 ++ [0xAB, 0xCD]) (List.replicate 13 0 ++ [1, 0, 1])) ∧
      be_val (halo_key_scramble (List.replicate 14 0 ++ [0x12, 0x34])
          (List.replicate 14 0 ++ [0xAB, 0xCD]) (List.replicate 13 0 ++ [1, 0, 1]))
        = (if (be_val (List.replicate 14 0 ++ [0x12, 0x34])
                * be_val (List.replicate 14 0 ++ [0xAB, 0xCD]))
              % be_val (List.replicate 13 0 ++ [1, 0, 1]) = 0 ∧
              0 < be_val (List.replicate 14 0 ++ [0x12, 0x34]) ∧
              0 < be_val (List.replicate 14 0 ++ [0xAB, 0xCD])
            then be_val (List.replicate 13 0 ++ [1, 0, 1])
            else (be_val (List.replicate 14 0 ++ [0x12, 0x34])
                * be_val (List.replicate 14 0 ++ [0xAB, 0xCD]))
              % be_val (List.replicate 13 0 ++ [1, 0, 1])) ∧
      (Nat.Prime (be_val (List.replicate 13 0 ++ [1, 0, 1])) →
        be_val (halo_key_scramble (List.replicate 14 0 ++ [0x12, 0x34])
            (List.replicate 14 0 ++ [0xAB, 0xCD]) (List.replicate 13 0 ++ [1, 0, 1]))
          = (be_val (List.replicate 14 0 ++ [0x12, 0x34])
              * be_val (List.replicate 14 0 ++ [0xAB, 0xCD]))
            % be_val (List.replicate 13 0 ++ [1, 0, 1])) :=
  halo_key_scramble_value _ _ _ ⟨by decide, by decide⟩ ⟨by decide, by decide⟩
    ⟨by decide, by decide⟩ (by decide) (by decide) (by decide) (by decide)

set_option maxRecDepth 100000 in
/-- Counterexample to C34 as stated: with `a = 3`, `b = 2` and `M = 6` the first argument is
left equal to 6, not to `(3 * 2) mod 6 = 0`; and with `a = 2`, `b = 2^127` and
`M = 2^128 - 1` it is left equal to 0, not to `2^128 mod (2^128 - 1) = 1`. -/
theorem halo_key_scramble_value_counterexample :
    be_val (halo_key_scramble (List.replicate 15 0 ++ [3]) (List.replicate 15 0 ++ [2])
        (List.replicate 15 0 ++ [6])) = 6 ∧
      be_val (halo_key_scramble (List.replicate 15 0 ++ [2]) (0x80 :: List.replicate 15 0)
        (List.replicate 16 0xFF)) = 0 ∧
      (be_val (List.replicate 15 0 ++ [2]) * be_val (0x80 :: List.replicate 15 0))
        % be_val (List.replicate 16 0xFF) = 1 := by
  decide

/-- C35: for all 16-byte big-endian values `a` and `m`, `halo_fix_check(a, m)` leaves `a`
equal to `a - m` when `a > m`, and leaves the buffer unchanged when `a <= m`, in particular
when `a = m`. -/
theorem halo_fix_check_sub (a m : List Nat) (ha : wf16 a) (hm : wf16 m) :
    (be_val a > be_val m →
        wf16 (halo_fix_check a m) ∧ be_val (halo_fix_check a m) = be_val a - be_val m) ∧
      (be_val a ≤ be_val m → halo_fix_check a m = a) := by
  obtain ⟨w, v⟩ := fix16 a m ha hm
  unfold fix_check_nat at v
  constructor
  · intro h
    rw [if_pos h] at v
    exact ⟨w, v⟩
  · intro h
    rw [if_neg (by omega)] at v
    rw [wf16_eq_encode _ w, v]
    exact (wf16_eq_encode a ha).symm

/-- Witness for C35: `a = 0x20003` and `m = 0x10001` give `0x10002`, and `a = m = 0x10001`
is left as it is. -/
theorem halo_fix_check_sub_witness :
    be_val (halo_fix_check (List.replicate 13 0 ++ [2, 0, 3]) (List.replicate 13 0 ++ [1, 0, 1]))
        = be_val (List.replicate 13 0 ++ [2, 0, 3]) - be_val (List.replicate 13 0 ++ [1, 0, 1]) ∧
      halo_fix_check (List.replicate 13 0 ++ [1, 0, 1]) (List.replicate 13 0 ++ [1, 0, 1])
        = List.replicate 13 0 ++ [1, 0, 1] :=
  ⟨((halo_fix_check_sub (List.replicate 13 0 ++ [2, 0, 3]) (List.replicate 13 0 ++ [1, 0, 1])
      ⟨by decide, by decide⟩ ⟨by decide, by decide⟩).1 (by decide)).2,
    (halo_fix_check_sub (List.replicate 13 0 ++ [1, 0, 1]) (List.replicate 13 0 ++ [1, 0, 1])
      ⟨by decide, by decide⟩ ⟨by decide, by decide⟩).2 (by decide)⟩

/-- C39 (violated by the code): `resolve_handshake_challenge` gives `gssdkcr` a vector of 32
bytes, and `gssdkcr` writes 33: the byte it writes behind the buffer is the final zero. -/
theorem resolve_handshake_challenge_overflow (challenge : List Nat) (time : Nat) :
    resolve_handshake_challenge_output.length = 32 ∧
      (gssdkcr challenge none time).length = 33 ∧
      (gssdkcr challenge none time).drop resolve_handshake_challenge_output.length = [0] := by
  have hl := gssdkcr_fill_loop_length challenge (none.getD key_default) (gssdkcr_oz challenge)
    32 0 (time % 4294967296)
  refine ⟨rfl, ?_, ?_⟩
  · simp only [gssdkcr, List.length_append, hl, List.length_singleton]
  · show List.drop 32 (gssdkcr challenge none time) = [0]
    simp only [gssdkcr]
    rw [List.drop_left' hl]

/-- C40 (violated by the code): for `"a b"` `split_arguments` returns `["a", "ab"]`, not the
runs `["a", "b"]`; `slice` is pushed at a space and never cleared. For `"a  b"`, with two
spaces, it returns three strings where there are two runs. -/
theorem split_arguments_keeps_slice :
    split_arguments [0x61, 0x20, 0x62] = [[0x61], [0x61, 0x62]] ∧
      space_runs [] [0x61, 0x20, 0x62] = [[0x61], [0x62]] ∧
      split_arguments [0x61, 0x20, 0x20, 0x62] = [[0x61], [0x61], [0x61, 0x62]] ∧
      space_runs [] [0x61, 0x20, 0x20, 0x62] = [[0x61], [0x62]] := by
  decide

theorem prime_65537 : Nat.Prime 65537 := by norm_num

theorem halo_key_scramble_state (key1 key2 fixnumb : List Nat) (h1 : wf16 key1)
    (h2 : wf16 key2) (hf : wf16 fixnumb) (hp : Nat.Prime (be_val fixnumb))
    (hodd : be_val fixnumb % 2 = 1)
    (hm : 2 * be_val fixnumb ≤ 340282366920938463463374607431768211456)
    (ha : be_val key1 < be_val fixnumb) (hb : be_val key2 < be_val fixnumb) (k : Nat) :
    (wf16 (loop_n (halo_key_scramble_body fixnumb) k (List.replicate 16 0, key1, key2)).1 ∧
      wf16 (loop_n (halo_key_scramble_body fixnumb) k (List.replicate 16 0, key1, key2)).2.2) ∧
      be_val (loop_n (halo_key_scramble_body fixnumb) k (List.replicate 16 0, key1, key2)).1
        < be_val fixnumb ∧
      be_val (loop_n (halo_key_scramble_body fixnumb) k (List.replicate 16 0, key1, key2)).2.2
        < be_val fixnumb := by
  have h := loop_n_sim (halo_key_scramble_body fixnumb) (key_scramble_body_nat (be_val fixnumb))
    (fun st => wf16 st.1 ∧ wf16 st.2.1 ∧ wf16 st.2.2)
    (fun st => (be_val st.1, be_val st.2.1, be_val st.2.2))
    (halo_key_scramble_body_sim fixnumb hf) k (List.replicate 16 0, key1, key2)
    ⟨wf16_zero.1, h1, h2⟩
  obtain ⟨⟨w1, _, w3⟩, hv⟩ := h
  simp only [wf16_zero.2] at hv
  rw [key_scramble_loop_inv _ _ _ hp hodd hm ha hb k] at hv
  have e1 := congrArg Prod.fst hv
  have e3 := congrArg (fun p => p.2.2) hv
  simp only at e1 e3
  refine ⟨⟨w1, w3⟩, ?_, ?_⟩
  · rw [e1]; exact Nat.mod_lt _ hp.pos
  · rw [e3]; exact Nat.mod_lt _ hp.pos

theorem halo_key_scramble_fix_args_bound (key1 key2 fixnumb : List Nat) (h1 : wf16 key1)
    (h2 : wf16 key2) (hf : wf16 fixnumb) (hp : Nat.Prime (be_val fixnumb))
    (hodd : be_val fixnumb % 2 = 1)
    (hm : 2 * be_val fixnumb ≤ 340282366920938463463374607431768211456)
    (ha : be_val key1 < be_val fixnumb) (hb : be_val key2 < be_val fixnumb) :
    ∀ x ∈ halo_key_scramble_fix_args key1 key2 fixnumb, be_val x < 2 * be_val fixnumb := by
  intro x hx
  unfold halo_key_scramble_fix_args at hx
  rw [List.mem_flatMap] at hx
  obtain ⟨k, _, hk⟩ := hx
  obtain ⟨⟨w1, w3⟩, b1, b3⟩ := halo_key_scramble_state key1 key2 fixnumb h1 h2 hf hp hodd hm
    ha hb k
  unfold halo_key_scramble_body_fix_args at hk
  rcases List.mem_append.1 hk with hk | hk
  · split_ifs at hk
    · rw [List.mem_singleton] at hk
      rw [hk, (add16 _ _ w1 w3).2]
      exact lt_of_le_of_lt (Nat.mod_le _ _) (by omega)
    · cases hk
  · rw [List.mem_singleton] at hk
    rw [hk, (shl16 _ w3).2]
    exact lt_of_le_of_lt (Nat.mod_le _ _) (by omega)

theorem halo_create_key_state (dest keystrb randhashb fixnumb : List Nat) (hd : wf16 dest)
    (hg : wf16 keystrb) (he : wf16 randhashb) (hf : wf16 fixnumb)
    (hp : Nat.Prime (be_val fixnumb)) (hodd : be_val fixnumb % 2 = 1)
    (hm : 2 * be_val fixnumb ≤ 340282366920938463463374607431768211456)
    (h1 : be_val dest = 1) (hgl : be_val keystrb < be_val fixnumb) (k : Nat) :
    (wf16 (loop_n (halo_create_key_body fixnumb) k (dest, keystrb, randhashb)).1 ∧
      wf16 (loop_n (halo_create_key_body fixnumb) k (dest, keystrb, randhashb)).2.1) ∧
      be_val (loop_n (halo_create_key_body fixnumb) k (dest, keystrb, randhashb)).1
        < be_val fixnumb ∧
      be_val (loop_n (halo_create_key_body fixnumb) k (dest, keystrb, randhashb)).2.1
        < be_val fixnumb := by
  have h := loop_n_sim (halo_create_key_body fixnumb) (create_key_body_nat (be_val fixnumb))
    (fun st => wf16 st.1 ∧ wf16 st.2.1 ∧ wf16 st.2.2)
    (fun st => (be_val st.1, be_val st.2.1, be_val st.2.2))
    (halo_create_key_body_sim fixnumb hf) k (dest, keystrb, randhashb) ⟨hd, hg, he⟩
  obtain ⟨⟨w1, w2, _⟩, hv⟩ := h
  simp only [h1] at hv
  rw [create_key_loop_inv _ _ _ hp hodd hm hgl k] at hv
  have e1 := congrArg Prod.fst hv
  have e2 := congrArg (fun p => p.2.1) hv
  simp only at e1 e2
  refine ⟨⟨w1, w2⟩, ?_, ?_⟩
  · rw [e1]; exact Nat.mod_lt _ hp.pos
  · rw [e2]; exact Nat.mod_lt _ hp.pos

theorem halo_create_key_fix_args_bound (kd ed : List Nat) (hk : ∀ c ∈ kd, is_hex_digit c)
    (he : ∀ c ∈ ed, is_hex_digit c) (hkl : kd.length ≤ 32) (hel : ed.length ≤ 32)
    (hg : hex_value kd < 65537) :
    ∀ x ∈ halo_create_key_fix_args (kd ++ [0]) (ed ++ [0]) [0x31, 0x30, 0x30, 0x30, 0x31, 0],
      be_val x < 2 * 0x10001 := by
  obtain ⟨k1, k2⟩ := halo_hex2byte_spec kd [] hk hkl
  obtain ⟨e1, e2⟩ := halo_hex2byte_spec ed [] he hel
  obtain ⟨f1, f2⟩ := halo_hex2byte_spec [0x31, 0x30, 0x30, 0x30, 0x31] [] (by decide)
    (by decide)
  have f3 : hex_value [0x31, 0x30, 0x30, 0x30, 0x31] = 65537 := by decide
  rw [f3] at f2
  have hp : Nat.Prime (be_val (halo_hex2byte ([0x31, 0x30, 0x30, 0x30, 0x31] ++ [0])).2) := by
    rw [f2]; exact prime_65537
  have hodd : be_val (halo_hex2byte ([0x31, 0x30, 0x30, 0x30, 0x31] ++ [0])).2 % 2 = 1 := by
    rw [f2]
  have hm : 2 * be_val (halo_hex2byte ([0x31, 0x30, 0x30, 0x30, 0x31] ++ [0])).2
      ≤ 340282366920938463463374607431768211456 := by
    rw [f2]; norm_num
  have hgl : be_val (halo_hex2byte (kd ++ [0])).2
      < be_val (halo_hex2byte ([0x31, 0x30, 0x30, 0x30, 0x31] ++ [0])).2 := by
    rw [f2, k2]; exact hg
  intro x hx
  unfold halo_create_key_fix_args at hx
  simp only at hx
  rw [List.mem_flatMap] at hx
  obtain ⟨k, _, hkx⟩ := hx
  obtain ⟨⟨w1, w2⟩, b1, b2⟩ := halo_create_key_state _ _ _ _ wf16_one.1 k1 e1 f1 hp hodd hm
    wf16_one.2 hgl k
  have hb : be_val x
      < 2 * be_val (halo_hex2byte ([0x31, 0x30, 0x30, 0x30, 0x31] ++ [0])).2 := by
    unfold halo_create_key_body_fix_args at hkx
    rcases List.mem_append.1 hkx with hkx | hkx
    · split_ifs at hkx
      · exact halo_key_scramble_fix_args_bound _ _ _ w1 w2 f1 hp hodd hm b1 b2 x hkx
      · cases hkx
    · exact halo_key_scramble_fix_args_bound _ _ _ w2 w2 f1 hp hodd hm b2 b2 x hkx
  rw [f2] at hb
  exact hb

theorem halo_byte2hex_digits (P : List Nat) (hP : wf16 P) :
    ∃ kd, halo_byte2hex P = kd ++ [0] ∧ (∀ c ∈ kd, is_hex_digit c) ∧ kd.length ≤ 32 ∧
      hex_value kd = be_val P := by
  have hdrop : bytes_ok (P.dropWhile (fun b => b == 0)) :=
    fun z hz => hP.2 z ((List.dropWhile_sublist _).subset hz)
  have hl : (P.dropWhile (fun b => b == 0)).length ≤ 16 := by
    have := (List.dropWhile_sublist (fun b => b == 0) (l := P)).length_le
    rw [hP.1] at this
    exact this
  obtain ⟨p1, p2, p3⟩ := hex_pairs_spec _ hdrop
  refine ⟨_, rfl, p1, by rw [p2]; omega, ?_⟩
  show hex_fold 0 _ = _
  rw [p3 0, be_val_dropWhile_zero]
  simp

/-- C36 (amended): during every `halo_generate_keys` call whose source key is absent, or is a
16-byte key with a value below `0x10001` used with a private key of 16 hex digits, the value
passed to each `halo_fix_check` call is strictly less than `2 * 0x10001`. -/
theorem halo_generate_keys_fix_args_bound (P digits : List Nat) (seed : Nat) (hP : wf16 P)
    (hlt : be_val P < 0x10001) (hlen : digits.length = 16)
    (hd : ∀ c ∈ digits, is_hex_digit c) :
    (∀ x ∈ halo_generate_keys_fix_args (digits ++ [0]) (some P) seed,
        be_val x < 2 * 0x10001) ∧
      ∀ hash seed', ∀ x ∈ halo_generate_keys_fix_args hash none seed',
        be_val x < 2 * 0x10001 := by
  constructor
  · obtain ⟨kd, e, h1, h2, h3⟩ := halo_byte2hex_digits P hP
    show ∀ x ∈ halo_create_key_fix_args (halo_byte2hex P) (digits ++ [0]) _, _
    rw [e]
    exact halo_create_key_fix_args_bound kd digits h1 hd h2 (by omega) (by rw [h3]; exact hlt)
  · intro hash seed'
    obtain ⟨r1, r2⟩ := halo_create_randhash_loop_spec 16 (seed' % 4294967296)
    exact halo_create_key_fix_args_bound [0x33] _ (by decide) r2 (by decide) (by omega)
      (by decide)

set_option maxRecDepth 100000 in
/-- Witness for C36 (amended): the source key `0x1234` and the private key
`0C3D4D550CF0B4EC`; the first buffer handed to `halo_fix_check` holds `2 * 0x1234`. -/
theorem halo_generate_keys_fix_args_bound_witness :
    (halo_generate_keys_fix_args
        ([0x30, 0x43, 0x33, 0x44, 0x34, 0x44, 0x35, 0x35, 0x30, 0x43, 0x46, 0x30, 0x42, 0x34,
          0x45, 0x43] ++ [0])
        (some [0, 0, 0, 0, 0, 0, 0, 0, 0, 0, 0, 0, 0, 0, 0x12, 0x34]) 0).head?.map be_val
        = some 0x2468 ∧
      ∀ x ∈ halo_generate_keys_fix_args
        ([0x30, 0x43, 0x33, 0x44, 0x34, 0x44, 0x35, 0x35, 0x30, 0x43, 0x46, 0x30, 0x42, 0x34,
          0x45, 0x43] ++ [0])
        (some [0, 0, 0, 0, 0, 0, 0, 0, 0, 0, 0, 0, 0, 0, 0x12, 0x34]) 0,
        be_val x < 2 * 0x10001 :=
  ⟨by decide,
    (halo_generate_keys_fix_args_bound [0, 0, 0, 0, 0, 0, 0, 0, 0, 0, 0, 0, 0, 0, 0x12, 0x34]
      [0x30, 0x43, 0x33, 0x44, 0x34, 0x44, 0x35, 0x35, 0x30, 0x43, 0x46, 0x30, 0x42, 0x34,
        0x45, 0x43] 0 ⟨by decide, by decide⟩ (by decide) rfl (by decide)).1⟩

set_option maxRecDepth 100000 in
/-- Counterexample to C36 as stated: with the 16-byte source key `FF ... FF` and the private
key `0000000000000001`, the first buffer handed to `halo_fix_check` holds the source key
itself, `2^128 - 1`, which is not below `2 * 0x10001`. -/
theorem halo_generate_keys_fix_args_bound_counterexample :
    (halo_generate_keys_fix_args
        [0x30, 0x30, 0x30, 0x30, 0x30, 0x30, 0x30, 0x30, 0x30, 0x30, 0x30, 0x30, 0x30, 0x30,
          0x30, 0x31, 0]
        (some (List.replicate 16 0xFF)) 0).head?.map be_val
        = some 340282366920938463463374607431768211455 ∧
      ¬ ∀ x ∈ (halo_generate_keys_fix_args
        [0x30, 0x30, 0x30, 0x30, 0x30, 0x30, 0x30, 0x30, 0x30, 0x30, 0x30, 0x30, 0x30, 0x30,
          0x30, 0x31, 0]
        (some (List.replicate 16 0xFF)) 0).take 1, be_val x < 2 * 0x10001 := by
  decide

theorem le_val_append_singleton (l : List Nat) (x : Nat) :
    le_val (l ++ [x]) = le_val l + x * 2 ^ (8 * l.length) := by
  induction l with
  | nil => simp [le_val]
  | cons b t ih =>
    rw [List.cons_append, le_val, ih, le_val, List.length_cons, Nat.mul_succ, pow_add]
    ring

theorem le_val_lt (l : List Nat) (h : bytes_ok l) : le_val l < 2 ^ (8 * l.length) := by
  induction l with
  | nil => simp [le_val]
  | cons b t ih =>
    obtain ⟨hb, ht⟩ := bytes_ok_cons h
    have := ih ht
    rw [le_val, List.length_cons, Nat.mul_succ, pow_add]
    norm_num
    omega

theorem or_shift_eq_add (cur z off : Nat) (hc : cur < 2 ^ off) :
    cur ||| z * 2 ^ off = cur + z * 2 ^ off := by
  rw [Nat.or_comm, Nat.mul_comm, ← Nat.mul_add_lt_is_or hc, Nat.add_comm]

theorem add_shift_mod (cur z off c : Nat) (hc : cur < 2 ^ off) :
    (cur + z * 2 ^ off) % (2 ^ off * 2 ^ c) = cur + (z % 2 ^ c) * 2 ^ off := by
  have hpos : 0 < 2 ^ off := Nat.pos_pow_of_pos off (by norm_num)
  rw [Nat.mod_mul, Nat.mul_comm z, Nat.add_mul_mod_self_left, Nat.mod_eq_of_lt hc,
    Nat.add_mul_div_left _ _ hpos, Nat.div_eq_of_lt hc, Nat.zero_add, Nat.mul_comm]

theorem write_byte_eq (cur left off : Nat) (ho : off < 8) (hc : cur < 2 ^ off) :
    (cur ||| (left <<< off) % 4294967296) % 256
      = cur + (left % 2 ^ (8 - off)) * 2 ^ off := by
  have e256 : (256 : Nat) = 2 ^ off * 2 ^ (8 - off) := by
    rw [← pow_add]
    have : off + (8 - off) = 8 := by omega
    rw [this]
    norm_num
  have e32 : (4294967296 : Nat) = 2 ^ (32 - off) * 2 ^ off := by
    rw [← pow_add]
    have : 32 - off + off = 32 := by omega
    rw [this]
    norm_num
  have hdvd : 2 ^ (8 - off) ∣ 2 ^ (32 - off) := Nat.pow_dvd_pow 2 (by omega)
  rw [Nat.shiftLeft_eq, e32, Nat.mul_mod_mul_right, or_shift_eq_add _ _ _ hc, e256,
    add_shift_mod _ _ _ _ hc, Nat.mod_mod_of_dvd _ hdvd]

theorem write_loop_zero_bits (fuel : Nat) (bs : Bitstream) (left : Nat) :
    Bitstream.write_loop fuel bs left 0 = (bs, none) := by
  cases fuel with
  | zero => rw [Bitstream.write_loop, if_neg (by omega)]
  | succ n => rw [Bitstream.write_loop, if_neg (by omega)]

theorem write_loop_step (fuel : Nat) (bs : Bitstream) (left bits cur : Nat) (hb : 0 < bits)
    (init : List Nat)
    (hbuf : (if bs.m_bit_offset = 0 then bs.m_buffer ++ [0] else bs.m_buffer) = init ++ [cur]) :
    Bitstream.write_loop (fuel + 1) bs left bits
      = if 8 - bs.m_bit_offset ≥ bits then
          Bitstream.write_loop fuel
            ⟨init ++ [(cur ||| (left <<< bs.m_bit_offset) % 4294967296) % 256],
              (bs.m_bit_offset + bits) % 8⟩ (left >>> (8 - bs.m_bit_offset)) 0
        else
          Bitstream.write_loop fuel
            ⟨init ++ [(cur ||| (left <<< bs.m_bit_offset) % 4294967296) % 256],
              (bs.m_bit_offset + (8 - bs.m_bit_offset)) % 8⟩ (left >>> (8 - bs.m_bit_offset))
            (bits - (8 - bs.m_bit_offset)) := by
  rw [Bitstream.write_loop, if_pos hb]
  simp only [hbuf, List.getLast?_concat, List.dropLast_concat, Nat.sub_self]

theorem add_mul_lt (a b R B : Nat) (ha : a < R) (hb : b < B) : a + b * R < R * B := by
  calc a + b * R < R + b * R := by omega
    _ = (b + 1) * R := by ring
    _ ≤ B * R := Nat.mul_le_mul_right R hb
    _ = R * B := Nat.mul_comm _ _

theorem written_last (bs : Bitstream) (T : Nat) (h : bs.written T) :
    ∃ init cur, (if bs.m_bit_offset = 0 then bs.m_buffer ++ [0] else bs.m_buffer)
        = init ++ [cur] ∧
      init.length = T / 8 ∧ bytes_ok init ∧ cur < 2 ^ (T % 8) ∧
      le_val init < 2 ^ (8 * (T / 8)) ∧
      le_val bs.m_buffer = le_val init + cur * 2 ^ (8 * (T / 8)) := by
  obtain ⟨h1, h2, h3, h4⟩ := h
  by_cases h0 : T % 8 = 0
  · have hlen : bs.m_buffer.length = T / 8 := by rw [h2]; omega
    refine ⟨bs.m_buffer, 0, by rw [if_pos (h1.trans h0)], hlen, h3, ?_, ?_, ?_⟩
    · rw [h0]; norm_num
    · rw [← hlen]; exact le_val_lt _ h3
    · rw [Nat.zero_mul, Nat.add_zero]
  · have hlen : bs.m_buffer.length = T / 8 + 1 := by rw [h2]; omega
    rcases List.eq_nil_or_concat bs.m_buffer with hnil | ⟨init, cur, hx⟩
    · rw [hnil] at hlen; simp at hlen
    · rw [List.concat_eq_append] at hx
      have hil : init.length = T / 8 := by
        rw [hx, List.length_append, List.length_singleton] at hlen
        omega
      have hi : bytes_ok init := fun z hz => h3 z (by rw [hx]; exact List.mem_append_left _ hz)
      have hli := le_val_lt init hi
      rw [hil] at hli
      have hv : le_val bs.m_buffer = le_val init + cur * 2 ^ (8 * (T / 8)) := by
        rw [hx, le_val_append_singleton, hil]
      refine ⟨init, cur, ?_, hil, hi, ?_, hli, hv⟩
      · rw [if_neg (by rw [h1]; exact h0)]; exact hx
      · have hT : 2 ^ T = 2 ^ (8 * (T / 8)) * 2 ^ (T % 8) := by
          rw [← pow_add, Nat.div_add_mod]
        rw [hv, hT] at h4
        have hpos : 0 < 2 ^ (8 * (T / 8)) := Nat.pos_pow_of_pos _ (by norm_num)
        have : cur * 2 ^ (8 * (T / 8)) < 2 ^ (T % 8) * 2 ^ (8 * (T / 8)) := by
          rw [Nat.mul_comm (2 ^ (T % 8))]; omega
        exact Nat.lt_of_mul_lt_mul_right this

theorem written_concat (init : List Nat) (x T' off' : Nat) (q : Nat) (hil : init.length = q)
    (hi : bytes_ok init) (hli : le_val init < 2 ^ (8 * q)) (B : Nat) (hx : x < 2 ^ B)
    (hB : B ≤ 8) (hT : T' = 8 * q + B) (hB0 : 0 < B) (ho : off' = T' % 8) :
    Bitstream.written ⟨init ++ [x], off'⟩ T' := by
  refine ⟨ho, ?_, ?_, ?_⟩
  · show (init ++ [x]).length = _
    rw [List.length_append, List.length_singleton, hil, hT]
    omega
  · have hx8 : x < 256 := by
      calc x < 2 ^ B := hx
        _ ≤ 2 ^ 8 := Nat.pow_le_pow_right (by norm_num) hB
        _ = 256 := by norm_num
    exact bytes_ok_append hi (fun z hz => by rw [List.mem_singleton.1 hz]; exact hx8)
  · show le_val (init ++ [x]) < _
    rw [le_val_append_singleton, hil, hT, pow_add]
    exact add_mul_lt _ _ _ _ hli hx

theorem write_loop_written (fuel : Nat) (bs : Bitstream) (left bits T : Nat)
    (h : bs.written T) (hl : left < 2 ^ bits) (hf : bits ≤ fuel) :
    ∃ bs', Bitstream.write_loop fuel bs left bits = (bs', none) ∧ bs'.written (T + bits) ∧
      le_val bs'.m_buffer = le_val bs.m_buffer + left * 2 ^ T := by
  induction fuel generalizing bs left bits T with
  | zero =>
    have hb : bits = 0 := by omega
    subst hb
    have hl0 : left = 0 := by simpa using hl
    exact ⟨bs, write_loop_zero_bits 0 bs left, h, by rw [hl0, Nat.zero_mul, Nat.add_zero]⟩
  | succ n ih =>
    by_cases hb : bits = 0
    · subst hb
      have hl0 : left = 0 := by simpa using hl
      exact ⟨bs, write_loop_zero_bits _ bs left, h, by rw [hl0, Nat.zero_mul, Nat.add_zero]⟩
    · obtain ⟨init, cur, hbuf, hil, hi, hcur, hli, hv⟩ := written_last bs T h
      have hoff : bs.m_bit_offset = T % 8 := h.1
      have hr : T % 8 < 8 := Nat.mod_lt _ (by norm_num)
      have hT : 2 ^ T = 2 ^ (8 * (T / 8)) * 2 ^ (T % 8) := by
        rw [← pow_add, Nat.div_add_mod]
      have hRC : 2 ^ (T % 8) * 2 ^ (8 - T % 8) = 2 ^ 8 := by
        rw [← pow_add]; congr 1; omega
      have hCpos : 0 < 2 ^ (8 - T % 8) := Nat.pos_pow_of_pos _ (by norm_num)
      rw [write_loop_step n bs left bits cur (Nat.pos_of_ne_zero hb) init hbuf, hoff,
        write_byte_eq cur left (T % 8) hr hcur]
      by_cases hc : 8 - T % 8 ≥ bits
      · rw [if_pos hc, write_loop_zero_bits]
        have hmod : left % 2 ^ (8 - T % 8) = left := by
          apply Nat.mod_eq_of_lt
          exact lt_of_lt_of_le hl (Nat.pow_le_pow_right (by norm_num) hc)
        rw [hmod]
        have hx : cur + left * 2 ^ (T % 8) < 2 ^ (T % 8 + bits) := by
          rw [pow_add]; exact add_mul_lt _ _ _ _ hcur hl
        refine ⟨_, rfl, ?_, ?_⟩
        · exact written_concat init _ (T + bits) _ (T / 8) hil hi hli (T % 8 + bits) hx
            (by omega) (by omega) (by omega) (by omega)
        · show le_val (init ++ [cur + left * 2 ^ (T % 8)]) = _
          rw [le_val_append_singleton, hil, hv, hT]
          ring
      · rw [if_neg hc]
        have hx : cur + left % 2 ^ (8 - T % 8) * 2 ^ (T % 8) < 2 ^ 8 := by
          rw [← hRC]
          exact add_mul_lt _ _ _ _ hcur (Nat.mod_lt _ hCpos)
        have hw1 : Bitstream.written
            ⟨init ++ [cur + left % 2 ^ (8 - T % 8) * 2 ^ (T % 8)], (T % 8 + (8 - T % 8)) % 8⟩
            (T + (8 - T % 8)) :=
          written_concat init _ _ _ (T / 8) hil hi hli 8 hx (le_refl _) (by omega)
            (by norm_num) (by omega)
        have hl1 : left >>> (8 - T % 8) < 2 ^ (bits - (8 - T % 8)) := by
          rw [Nat.shiftRight_eq_div_pow]
          apply Nat.div_lt_of_lt_mul
          rw [← pow_add]
          have : 8 - T % 8 + (bits - (8 - T % 8)) = bits := by omega
          rw [this]
          exact hl
        obtain ⟨bs', e1, e2, e3⟩ := ih _ (left >>> (8 - T % 8)) (bits - (8 - T % 8))
          (T + (8 - T % 8)) hw1 hl1 (by omega)
        refine ⟨bs', e1, ?_, ?_⟩
        · have : T + (8 - T % 8) + (bits - (8 - T % 8)) = T + bits := by omega
          rw [this] at e2
          exact e2
        · rw [e3]
          show le_val (init ++ [cur + left % 2 ^ (8 - T % 8) * 2 ^ (T % 8)]) + _ = _
          rw [le_val_append_singleton, hil, hv, Nat.shiftRight_eq_div_pow, pow_add, hT]
          have hdm := Nat.mod_add_div left (2 ^ (8 - T % 8))
          generalize left % 2 ^ (8 - T % 8) = lo at hdm ⊢
          generalize left / 2 ^ (8 - T % 8) = hi' at hdm ⊢
          rw [← hdm]
          ring

theorem write_written (bs : Bitstream) (value bits T : Nat) (h : bs.written T)
    (h1 : 1 ≤ bits) (h32 : bits ≤ 32) :
    (bs.write value bits).2 = none ∧ (bs.write value bits).1.written (T + bits) ∧
      le_val (bs.write value bits).1.m_buffer
        = le_val bs.m_buffer + (value % 2 ^ bits) * 2 ^ T := by
  have hn : ¬ (bits = 0 ∨ bits > 32) := by omega
  rw [Bitstream.write, if_neg hn]
  simp only
  have hleft : (if bits < 32 then
        value % 4294967296 &&& ((1 <<< bits) + 4294967296 - 1) % 4294967296
      else value % 4294967296) = value % 2 ^ bits := by
    by_cases hb : bits < 32
    · rw [if_pos hb]
      have hp : 2 ^ bits < 4294967296 := by
        calc 2 ^ bits ≤ 2 ^ 31 := Nat.pow_le_pow_right (by norm_num) (by omega)
          _ < 4294967296 := by norm_num
      have hpos : 0 < 2 ^ bits := Nat.pos_pow_of_pos _ (by norm_num)
      have e : ((1 <<< bits) + 4294967296 - 1) % 4294967296 = 2 ^ bits - 1 := by
        rw [Nat.shiftLeft_eq, Nat.one_mul]
        have : 2 ^ bits + 4294967296 - 1 = 2 ^ bits - 1 + 4294967296 := by omega
        rw [this, Nat.add_mod_right, Nat.mod_eq_of_lt (by omega)]
      rw [e, Nat.and_pow_two_sub_one_eq_mod]
      have e32 : (4294967296 : Nat) = 2 ^ 32 := by norm_num
      rw [e32, Nat.mod_mod_of_dvd _ (Nat.pow_dvd_pow 2 (by omega))]
    · rw [if_neg hb]
      have : bits = 32 := by omega
      rw [this]
      norm_num
  rw [hleft]
  obtain ⟨bs', e1, e2, e3⟩ := write_loop_written bits bs (value % 2 ^ bits) bits T h
    (Nat.mod_lt _ (Nat.pos_pow_of_pos _ (by norm_num))) (le_refl _)
  rw [e1]
  exact ⟨rfl, e2, e3⟩

theorem le_val_get (l : List Nat) (h : bytes_ok l) (j : Nat) (hj : j < l.length) :
    l.get? j = some ((le_val l / 2 ^ (8 * j)) % 256) := by
  induction l generalizing j with
  | nil => simp at hj
  | cons b t ih =>
    obtain ⟨hb, ht⟩ := bytes_ok_cons h
    cases j with
    | zero =>
      simp only [List.get?_cons_zero, le_val, Nat.mul_zero, pow_zero, Nat.div_one,
        Option.some.injEq]
      omega
    | succ i =>
      have hi : i < t.length := by simpa using hj
      rw [List.get?_cons_succ, ih ht i hi, le_val]
      have e : 2 ^ (8 * (i + 1)) = 256 * 2 ^ (8 * i) := by
        rw [Nat.mul_succ, pow_add]; norm_num; ring
      rw [e, ← Nat.div_div_eq_div_mul]
      have : (b + 256 * le_val t) / 256 = le_val t := by omega
      rw [this]

theorem byte_field (X byo bio : Nat) (hb : bio < 8) :
    ((X / 2 ^ (8 * byo)) % 256) >>> bio = (X / 2 ^ (8 * byo + bio)) % 2 ^ (8 - bio) := by
  have e256 : (256 : Nat) = 2 ^ bio * 2 ^ (8 - bio) := by
    rw [← pow_add]
    have : bio + (8 - bio) = 8 := by omega
    rw [this]
    norm_num
  rw [Nat.shiftRight_eq_div_pow, e256, Nat.mod_mul_right_div_self, Nat.div_div_eq_div_mul,
    ← pow_add]

theorem read_mask (k : Nat) (hk : k < 32) :
    ((1 <<< k) + 4294967296 - 1) % 4294967296 = 2 ^ k - 1 := by
  have hp : 2 ^ k < 4294967296 := by
    calc 2 ^ k ≤ 2 ^ 31 := Nat.pow_le_pow_right (by norm_num) (by omega)
      _ < 4294967296 := by norm_num
  have hpos : 0 < 2 ^ k := Nat.pos_pow_of_pos _ (by norm_num)
  rw [Nat.shiftLeft_eq, Nat.one_mul]
  have : 2 ^ k + 4294967296 - 1 = 2 ^ k - 1 + 4294967296 := by omega
  rw [this, Nat.add_mod_right, Nat.mod_eq_of_lt (by omega)]

theorem read_output (Y obo m n : Nat) (hn : obo + m ≤ n) (h31 : n ≤ 31) :
    Y % 2 ^ obo ||| (((Y / 2 ^ obo) % 2 ^ m) <<< obo) % 4294967296 = Y % 2 ^ (obo + m) := by
  have hlt : Y % 2 ^ obo < 2 ^ obo := Nat.mod_lt _ (Nat.pos_pow_of_pos _ (by norm_num))
  have hval : Y % 2 ^ (obo + m) = Y % 2 ^ obo + ((Y / 2 ^ obo) % 2 ^ m) * 2 ^ obo := by
    rw [pow_add, Nat.mod_mul, Nat.mul_comm]
  have hbound : Y % 2 ^ (obo + m) < 4294967296 := by
    calc Y % 2 ^ (obo + m) < 2 ^ (obo + m) := Nat.mod_lt _ (Nat.pos_pow_of_pos _ (by norm_num))
      _ ≤ 2 ^ 31 := Nat.pow_le_pow_right (by norm_num) (by omega)
      _ < 4294967296 := by norm_num
  have hb2 : ((Y / 2 ^ obo) % 2 ^ m) * 2 ^ obo < 4294967296 := by omega
  rw [Nat.shiftLeft_eq, Nat.mod_eq_of_lt hb2, or_shift_eq_add _ _ _ hlt, hval]

theorem read_loop_val (bs : Bitstream) (hbuf : bytes_ok bs.m_buffer) (off n : Nat)
    (h31 : n ≤ 31) (hin : off + n ≤ 8 * bs.m_buffer.length)
    (fuel obo byo bio : Nat) (hb : bio < 8) (hpos : 8 * byo + bio = off + obo)
    (hf : n - obo ≤ fuel) :
    Bitstream.read_loop bs n fuel ((le_val bs.m_buffer / 2 ^ off) % 2 ^ (min obo n)) obo byo bio
      = Except.ok ((le_val bs.m_buffer / 2 ^ off) % 2 ^ n) := by
  induction fuel generalizing obo byo bio with
  | zero =>
    have hge : n ≤ obo := by omega
    rw [Bitstream.read_loop, if_neg (by omega), Nat.min_eq_right hge]
  | succ k ih =>
    rw [Bitstream.read_loop]
    by_cases h1 : obo < n
    · have hlt : byo < bs.m_buffer.length := by omega
      have hget := le_val_get bs.m_buffer hbuf byo hlt
      rw [if_pos h1, hget]
      simp only
      rw [if_neg (by omega), read_mask _ (by omega), Nat.and_pow_two_sub_one_eq_mod,
        byte_field _ _ _ hb, hpos, pow_add, ← Nat.div_div_eq_div_mul,
        Nat.min_eq_left (le_of_lt h1)]
      have hbio : (bio + (8 - bio)) % 8 = 0 := by
        have : bio + (8 - bio) = 8 := by omega
        rw [this]
      rw [hbio]
      by_cases hc : 8 - bio ≤ n - obo
      · have hm : (le_val bs.m_buffer / 2 ^ off / 2 ^ obo) % 2 ^ (8 - bio) % 2 ^ (n - obo)
            = (le_val bs.m_buffer / 2 ^ off / 2 ^ obo) % 2 ^ (8 - bio) := by
          apply Nat.mod_eq_of_lt
          calc _ < 2 ^ (8 - bio) := Nat.mod_lt _ (Nat.pos_pow_of_pos _ (by norm_num))
            _ ≤ 2 ^ (n - obo) := Nat.pow_le_pow_right (by norm_num) hc
        rw [hm, read_output _ obo (8 - bio) n (by omega) h31]
        have := ih (obo + (8 - bio)) (byo + 1) 0 (by norm_num) (by omega) (by omega)
        rw [Nat.min_eq_left (by omega)] at this
        exact this
      · have hm : (le_val bs.m_buffer / 2 ^ off / 2 ^ obo) % 2 ^ (8 - bio) % 2 ^ (n - obo)
            = (le_val bs.m_buffer / 2 ^ off / 2 ^ obo) % 2 ^ (n - obo) :=
          Nat.mod_mod_of_dvd _ (Nat.pow_dvd_pow 2 (by omega))
        rw [hm, read_output _ obo (n - obo) n (by omega) h31]
        have := ih (obo + (8 - bio)) (byo + 1) 0 (by norm_num) (by omega) (by omega)
        rw [Nat.min_eq_right (by omega)] at this
        have e : obo + (n - obo) = n := by omega
        rw [e]
        exact this
    · rw [if_neg h1, Nat.min_eq_right (by omega)]

theorem read_val (bs : Bitstream) (hbuf : bytes_ok bs.m_buffer) (off n : Nat) (h1 : 1 ≤ n)
    (h31 : n ≤ 31) (hin : off + n ≤ 8 * bs.m_buffer.length) :
    bs.read off n = Except.ok ((le_val bs.m_buffer / 2 ^ off) % 2 ^ n) := by
  rw [Bitstream.read, if_neg (by omega)]
  have := read_loop_val bs hbuf off n h31 hin n 0 (off / 8) (off % 8)
    (Nat.mod_lt _ (by norm_num)) (by have := Nat.div_add_mod off 8; omega) (by omega)
  rw [Nat.min_eq_left (Nat.zero_le _), pow_zero, Nat.mod_one] at this
  exact this

theorem written_empty : Bitstream.written ⟨[], 0⟩ 0 := by
  refine ⟨rfl, rfl, ?_, ?_⟩
  · intro x hx; cases hx
  · show le_val [] < 2 ^ 0
    rw [le_val]; norm_num

theorem write_all_written (writes : List (Nat × Nat)) (bs : Bitstream) (T : Nat)
    (h : bs.written T) (hw : ∀ w ∈ writes, 1 ≤ w.2 ∧ w.2 ≤ 32) :
    (bs.write_all writes).written (T + (writes.map Prod.snd).sum) ∧
      le_val (bs.write_all writes).m_buffer
        = le_val bs.m_buffer + 2 ^ T * fields_val writes := by
  induction writes generalizing bs T with
  | nil =>
    exact ⟨h, by simp [Bitstream.write_all, fields_val]⟩
  | cons w rest ih =>
    obtain ⟨h1, h32⟩ := hw w (List.mem_cons_self _ _)
    obtain ⟨_, e2, e3⟩ := write_written bs w.1 w.2 T h h1 h32
    obtain ⟨i1, i2⟩ := ih (bs.write w.1 w.2).1 (T + w.2) e2
      (fun x hx => hw x (List.mem_cons_of_mem _ hx))
    have hfold : bs.write_all (w :: rest) = (bs.write w.1 w.2).1.write_all rest := rfl
    rw [hfold]
    constructor
    · rw [List.map_cons, List.sum_cons, ← Nat.add_assoc]
      exact i1
    · rw [i2, e3, fields_val, pow_add]
      ring

theorem fields_val_lt (writes : List (Nat × Nat)) :
    fields_val writes < 2 ^ (writes.map Prod.snd).sum := by
  induction writes with
  | nil => simp [fields_val]
  | cons w rest ih =>
    rw [fields_val, List.map_cons, List.sum_cons, pow_add, Nat.mul_comm (2 ^ w.2) (fields_val rest)]
    exact add_mul_lt _ _ _ _ (Nat.mod_lt _ (Nat.pos_pow_of_pos _ (by norm_num))) ih

theorem fields_val_append (pre rest : List (Nat × Nat)) :
    fields_val (pre ++ rest)
      = fields_val pre + 2 ^ (pre.map Prod.snd).sum * fields_val rest := by
  induction pre with
  | nil => simp [fields_val]
  | cons w t ih =>
    rw [List.cons_append, fields_val, ih, fields_val, List.map_cons, List.sum_cons, pow_add]
    ring

theorem fields_val_field (pre : List (Nat × Nat)) (v n : Nat) (post : List (Nat × Nat)) :
    (fields_val (pre ++ (v, n) :: post) / 2 ^ (pre.map Prod.snd).sum) % 2 ^ n = v % 2 ^ n := by
  have hpos : 0 < 2 ^ (pre.map Prod.snd).sum := Nat.pos_pow_of_pos _ (by norm_num)
  rw [fields_val_append, Nat.add_mul_div_left _ _ hpos, Nat.div_eq_of_lt (fields_val_lt pre),
    Nat.zero_add, fields_val]
  show (v % 2 ^ n + 2 ^ n * fields_val post) % 2 ^ n = v % 2 ^ n
  rw [Nat.add_mul_mod_self_left, Nat.mod_mod]

/-- C38: after any sequence of writes to an empty `Bitstream`, each of 1 to 32 bits and
`T` bits in total, the buffer holds exactly `ceil(T / 8)` bytes, `m_bit_offset` equals
`T mod 8`, and when `T mod 8` is not 0 the bits of the last byte at positions `T mod 8` and
above are zero. -/
theorem bitstream_buffer_invariant (writes : List (Nat × Nat))
    (hw : ∀ w ∈ writes, 1 ≤ w.2 ∧ w.2 ≤ 32) :
    (Bitstream.write_all ⟨[], 0⟩ writes).m_buffer.length
        = ((writes.map Prod.snd).sum + 7) / 8 ∧
      (Bitstream.write_all ⟨[], 0⟩ writes).m_bit_offset = (writes.map Prod.snd).sum % 8 ∧
      ((writes.map Prod.snd).sum % 8 ≠ 0 →
        ∃ last, (Bitstream.write_all ⟨[], 0⟩ writes).m_buffer.getLast? = some last ∧
          ∀ k, (writes.map Prod.snd).sum % 8 ≤ k → last.testBit k = false) := by
  obtain ⟨h, _⟩ := write_all_written writes ⟨[], 0⟩ 0 written_empty hw
  rw [Nat.zero_add] at h
  refine ⟨h.2.1, h.1, fun h0 => ?_⟩
  obtain ⟨init, cur, hbuf, _, _, hcur, _, _⟩ := written_last _ _ h
  rw [if_neg (by rw [h.1]; exact h0)] at hbuf
  refine ⟨cur, by rw [hbuf, List.getLast?_concat], fun k hk => ?_⟩
  apply Nat.testBit_lt_two_pow
  exact lt_of_lt_of_le hcur (Nat.pow_le_pow_right (by norm_num) hk)

/-- Witness for C38: an 11-bit, a 32-bit and a 3-bit write, 46 bits in total, leave 6 bytes
and the bit offset 6. -/
theorem bitstream_buffer_invariant_witness :
    (Bitstream.write_all ⟨[], 0⟩ [(0x5A5, 11), (0xDEADBEEF, 32), (5, 3)]).m_buffer.length
        = (([(0x5A5, 11), (0xDEADBEEF, 32), (5, 3)].map Prod.snd).sum + 7) / 8 ∧
      (Bitstream.write_all ⟨[], 0⟩ [(0x5A5, 11), (0xDEADBEEF, 32), (5, 3)]).m_bit_offset
        = ([(0x5A5, 11), (0xDEADBEEF, 32), (5, 3)].map Prod.snd).sum % 8 ∧
      (([(0x5A5, 11), (0xDEADBEEF, 32), (5, 3)].map Prod.snd).sum % 8 ≠ 0 →
        ∃ last, (Bitstream.write_all ⟨[], 0⟩
            [(0x5A5, 11), (0xDEADBEEF, 32), (5, 3)]).m_buffer.getLast? = some last ∧
          ∀ k, ([(0x5A5, 11), (0xDEADBEEF, 32), (5, 3)].map Prod.snd).sum % 8 ≤ k →
            last.testBit k = false) :=
  bitstream_buffer_invariant [(0x5A5, 11), (0xDEADBEEF, 32), (5, 3)] (by decide)

theorem write_all_read (pre : List (Nat × Nat)) (v n : Nat) (post : List (Nat × Nat))
    (hw : ∀ w ∈ pre ++ (v, n) :: post, 1 ≤ w.2 ∧ w.2 ≤ 32) (h31 : n ≤ 31) :
    (Bitstream.write_all ⟨[], 0⟩ (pre ++ (v, n) :: post)).read (pre.map Prod.snd).sum n
      = Except.ok (v % 2 ^ n) := by
  obtain ⟨h, hv⟩ := write_all_written (pre ++ (v, n) :: post) ⟨[], 0⟩ 0 written_empty hw
  rw [Nat.zero_add] at h
  have hle : le_val (Bitstream.write_all ⟨[], 0⟩ (pre ++ (v, n) :: post)).m_buffer
      = fields_val (pre ++ (v, n) :: post) := by
    rw [hv]; simp [le_val]
  have h1 : 1 ≤ n := (hw (v, n) (by simp)).1
  have hin : (pre.map Prod.snd).sum + n
      ≤ 8 * (Bitstream.write_all ⟨[], 0⟩ (pre ++ (v, n) :: post)).m_buffer.length := by
    rw [h.2.1, List.map_append, List.sum_append, List.map_cons, List.sum_cons]
    show _ + n ≤ 8 * (((pre.map Prod.snd).sum + (n + (post.map Prod.snd).sum) + 7) / 8)
    omega
  rw [read_val _ h.2.2.1 _ n h1 h31 hin, hle, fields_val_field]

/-- C37 (violated by the code for 32-bit fields): a field of up to 31 bits reads back as the
low bits of what was written, whatever is written before and after it; a field of 32 bits
does not, because the first mask of `read` is `(1 << 32) - 1` on `int`, a shift for which C++
defines no result. -/
theorem bitstream_read_back :
    (∀ (pre : List (Nat × Nat)) (v n : Nat) (post : List (Nat × Nat)),
        (∀ w ∈ pre ++ (v, n) :: post, 1 ≤ w.2 ∧ w.2 ≤ 32) → n ≤ 31 →
        (Bitstream.write_all ⟨[], 0⟩ (pre ++ (v, n) :: post)).read (pre.map Prod.snd).sum n
          = Except.ok (v % 2 ^ n)) ∧
      (Bitstream.write_all ⟨[], 0⟩ [(0xFFFFFFFF, 32)]).m_buffer = [0xFF, 0xFF, 0xFF, 0xFF] ∧
      (Bitstream.write_all ⟨[], 0⟩ [(0xFFFFFFFF, 32)]).read 0 32
        = Except.error BitstreamError.shift_overflow :=
  ⟨write_all_read, by decide, rfl⟩

end Blamite
